import Mathlib

/-! # Kaspa wallet: discovery, UTXO ledger, fee estimation

A shallow embedding of `lib/KaspaWallet.js` and `lib/API.js`.

* Private fields of the wallet object become the fields of `Wallet`; every method
  takes the wallet and gives back an `Outcome`: the value returned or the error
  thrown, together with the wallet as the method left it.
* `BigInt` values are `Int`; amounts that are read from the chain or returned by
  a fee or mass calculator are `Nat` (they are unsigned quantities).
* The libraries the wallet only calls (key derivation, address coding, mass,
  platform fee, coin selection) are the fields of `Env`; the node behind
  `requestNode` is a `Node`.
* The `while` loop of the discovery has no bound in the source, so its model
  takes fuel and answers `Outcome.running` when the fuel is used up.
-/

namespace KaspaWallet

/-! ## Data model -/

abbrev Address := String

abbrev TxId := String

/-- The `price` option: it is only handed on to the platform-fee calculator. -/
abbrev Price := Nat

/-- The inner `utxo` object of a ledger entry. -/
structure UtxoEntry where
  transactionId : TxId
  index : Nat
  amount : Nat
  script : String
  daaScore : Nat
  deriving DecidableEq, Repr

/-- An element of `#utxos`. `bip32DerivationPath` is `none` when the property is
absent or `undefined`. -/
structure Utxo where
  address : Address
  utxo : UtxoEntry
  bip32DerivationPath : Option (Nat × Nat)
  deriving DecidableEq, Repr

/-- A transaction output as built by `#prepareTransaction`. -/
structure Output where
  address : Address
  amount : Nat
  script : String
  deriving DecidableEq, Repr

/-- What is signed and posted to the node. -/
structure Tx where
  inputs : List Utxo
  outputs : List Output
  deriving DecidableEq, Repr

inductive WalletError where
  /-- `requestNode` threw. -/
  | transport (msg : String)
  /-- `errors.InternalWalletError(message, { cause })`. -/
  | internalWallet (msg : String) (cause : Tx)
  /-- `errors.SmallAmountError(amount)`. -/
  | smallAmount (amount : Int)
  /-- `errors.BigAmountError(amount)`. -/
  | bigAmount (amount : Int)
  /-- The address coder could not decode an address. -/
  | decode (address : Address)
  /-- The coin selector could not fund the outputs. -/
  | selection (msg : String)
  /-- Signing threw. -/
  | signing (msg : String)
  /-- `undefined * 1n`: the fee-rate table has no entry for the tier. -/
  | typeError
  deriving DecidableEq, Repr

/-- The fee-rate tiers (`symbols.FEE_RATE_*`). -/
inductive FeeRate where
  | minimum
  | default
  | fastest
  deriving DecidableEq, Repr

/-- The values of `CsWallet.STATE_*` the wallet goes through. -/
inductive WalletState where
  | initialized
  | loading
  | loaded
  | error
  deriving DecidableEq, Repr

/-- The private fields of a `KaspaWallet`, with the inherited `state` and the
`balance` entry of `storage`. `#addresses` is a `Map` in insertion order. -/
structure Wallet where
  balance : Int
  addresses : List (Address × (Nat × Nat))
  usedAddresses : List Address
  lastUsedAddressIndexes : Int × Int
  utxos : List Utxo
  feeRates : List (FeeRate × Nat)
  storage : Option Int
  state : WalletState
  deriving DecidableEq, Repr

/-- How a method ends: it returned `value`, it threw `e`, or its loop was still
going when the fuel ran out. The wallet is the one the method left behind. -/
inductive Outcome (α : Type) where
  | ok (value : α) (w : Wallet)
  | thrown (e : WalletError) (w : Wallet)
  | running
  deriving DecidableEq, Repr

/-! ## External collaborators -/

/-- The options object handed to `calculateCsFee`. -/
structure CsFeeOptions where
  dustThreshold : Int
  minFee : Option Nat
  price : Price
  deriving DecidableEq, Repr

/-- The result of `getCsFeeConfig()`. -/
structure CsFeeConfig where
  enabled : Bool
  address : Address
  deriving DecidableEq, Repr

/-- The result of `select`. `selected` holds references to elements of the array
it was given; a reference is kept as the position of the element (the elements of
`#utxos` are pairwise distinct objects). -/
structure Selection where
  selected : List Nat
  fee : Nat
  change : Nat
  deriving DecidableEq, Repr

/-- The libraries the wallet calls. -/
structure Env where
  /-- The address of `account.deriveChild(change).deriveChild(k)`. -/
  deriveAddress : Nat → Nat → Address
  /-- The script for an address (`OutScript.encode(decode(address))`), `none`
  when the address does not decode. -/
  outScript : Address → Option String
  MAXIMUM_STANDARD_TRANSACTION_MASS : Nat
  /-- The input count of `estimateMaxInputsPerTx` for a number of outputs. -/
  estimateMaxInputsPerTx : Nat → Nat
  /-- The mass of `transactionMass` from the inputs and the output amounts. -/
  transactionMass : List Utxo → List Int → Nat
  calculateCsFee : Int → CsFeeOptions → Nat
  csFeeConfig : CsFeeConfig
  /-- The coin selector, given `#utxos`, the outputs and `feerate`. -/
  select : List Utxo → List Output → Option Nat → Except WalletError Selection
  /-- The error `tx.sign` throws, if any. -/
  sign : Tx → Option WalletError

/-- One entry of the answer to an `active` request. -/
structure ActiveInfo where
  address : Address
  active : Bool
  deriving DecidableEq, Repr

/-- One entry of the answer to a `utxos` request, already parsed. -/
structure RawUtxo where
  address : Address
  transactionId : TxId
  index : Nat
  amount : Nat
  scriptPublicKey : String
  blockDaaScore : Nat
  deriving DecidableEq, Repr

/-- The body of the answer to a submission. -/
structure SubmitResponse where
  error : Option String
  transactionId : TxId
  deriving DecidableEq, Repr

/-- The node behind `requestNode`: one function per endpoint, from the addresses
joined in the URL (or the posted transaction) to the answer or the error thrown. -/
structure Node where
  active : List Address → Except WalletError (List ActiveInfo)
  utxos : List Address → Except WalletError (List RawUtxo)
  submit : Tx → Except WalletError (Option SubmitResponse)

/-! ## Constants -/

def BIP44_GAP_LIMIT : Nat := 1

def BIP44_BATCH_SIZE : Nat := 3

def BIP44_BATCH_SIZE_MAX : Nat := 10

/-- The constant `CHUNK` of `API.js`. -/
def CHUNK : Nat := 10

/-- Modelled from the spec: the constant `SOMPI_PER_KASPA` of `kaspalib`, the
minimum-transferable threshold of 1 KAS = 100000000 smallest units. -/
def SOMPI_PER_KASPA : Int := 100000000

/-- The field `#dustThreshold`. -/
def dustThreshold : Int := SOMPI_PER_KASPA

/-! ## Ledger and addresses -/

/-- The method `#calculateBalance`. -/
def calculateBalance (w : Wallet) : Int :=
  w.utxos.foldl (fun balance u => balance + (u.utxo.amount : Int)) 0

/-- The entry of `#lastUsedAddressIndexes` at `index`. -/
def lastUsedAt (p : Int × Int) (index : Nat) : Int :=
  if index = 0 then p.1 else p.2

/-- Assignment to `#lastUsedAddressIndexes[index]`. -/
def setLastUsed (p : Int × Int) (index : Nat) (v : Int) : Int × Int :=
  if index = 0 then (v, p.2) else (p.1, v)

/-- The method `#getAddress`. -/
def getAddress (env : Env) (w : Wallet) (change : Bool) : Address :=
  let index := if change then 1 else 0
  env.deriveAddress index (lastUsedAt w.lastUsedAddressIndexes index + 1).toNat

/-- The getter `address`. -/
def address (env : Env) (w : Wallet) : Address :=
  getAddress env w false

/-- The call `Map.prototype.set`: an existing key keeps its place. -/
def mapSet (m : List (Address × (Nat × Nat))) (key : Address) (v : Nat × Nat) :
    List (Address × (Nat × Nat)) :=
  match m with
  | [] => [(key, v)]
  | (k, x) :: rest => if k = key then (k, v) :: rest else (k, x) :: mapSet rest key v

/-- The call `Map.prototype.get`. -/
def mapGet (m : List (Address × (Nat × Nat))) (key : Address) : Option (Nat × Nat) :=
  m.lookup key

/-! ## API.js -/

/-- The chunks `addresses.slice(i, i + CHUNK)` for `i = 0, CHUNK, ...`. -/
def chunks (fuel : Nat) (addresses : List Address) : List (List Address) :=
  match fuel with
  | 0 => []
  | fuel + 1 =>
    if addresses = [] then [] else
      addresses.take CHUNK :: chunks fuel (addresses.drop CHUNK)

/-- The mapping at the end of `API.utxos`. -/
def toUtxo (item : RawUtxo) : Utxo :=
  { address := item.address
    utxo :=
      { transactionId := item.transactionId
        index := item.index
        amount := item.amount
        script := item.scriptPublicKey
        daaScore := item.blockDaaScore }
    bip32DerivationPath := none }

/-- The request loop of `API.utxos`. -/
def fetchUtxos (node : Node) : List (List Address) → List RawUtxo →
    Except WalletError (List RawUtxo)
  | [], acc => .ok acc
  | c :: rest, acc =>
    match node.utxos c with
    | .error e => .error e
    | .ok res => fetchUtxos node rest (acc ++ res)

/-- The method `API.utxos`. -/
def apiUtxos (node : Node) (addresses : List Address) : Except WalletError (List Utxo) :=
  match fetchUtxos node (chunks addresses.length addresses) [] with
  | .error e => .error e
  | .ok raw => .ok (raw.map toUtxo)

/-- The method `API.submutTrandsaction`. -/
def submutTrandsaction (node : Node) (transaction : Tx) : Except WalletError TxId :=
  match node.submit transaction with
  | .error e => .error e
  | .ok none => .error (.internalWallet "empty response" transaction)
  | .ok (some res) =>
    match res.error with
    | some msg =>
      if msg ≠ "" then .error (.internalWallet msg transaction) else .ok res.transactionId
    | none => .ok res.transactionId

/-! ## Discovery and load -/

/-- The inner `for (let i = 0; i < batchSize; i++)` loop of `#discovery`:
`n` rounds left, from cursor `k`, with the batch and `#addresses` so far. -/
def deriveBatch (env : Env) (change : Nat) :
    Nat → Nat → List Address → List (Address × (Nat × Nat)) →
    List Address × List (Address × (Nat × Nat)) × Nat
  | 0, k, batch, addresses => (batch, addresses, k)
  | n + 1, k, batch, addresses =>
    let a := env.deriveAddress change k
    deriveBatch env change n (k + 1) (batch ++ [a]) (mapSet addresses a (change, k))

/-- The loop `for (const address of batch)` of `#discovery`, on the wallet and
the gap counter. The record of an address of the batch is always there (it was
set when the batch was built), so the `none` case of the lookup is never taken. -/
def processBatch (infos : List ActiveInfo) (change : Nat) :
    List Address → Wallet → Nat → Wallet × Nat
  | [], w, gap => (w, gap)
  | a :: rest, w, gap =>
    match infos.find? (fun item => item.address = a) with
    | some info =>
      if info.active then
        processBatch infos change rest
          { w with
            usedAddresses := w.usedAddresses ++ [a]
            lastUsedAddressIndexes :=
              match mapGet w.addresses a with
              | some path => setLastUsed w.lastUsedAddressIndexes change path.2
              | none => w.lastUsedAddressIndexes }
          0
      else processBatch infos change rest w (gap + 1)
    | none => processBatch infos change rest w (gap + 1)

/-- The loop `while (gap < BIP44_GAP_LIMIT)` of `#discovery` on one branch. -/
def scanBranch (env : Env) (node : Node) (change : Nat) :
    Nat → Wallet → Nat → Nat → Nat → Outcome Unit
  | 0, _, _, _, _ => .running
  | fuel + 1, w, batchSize, k, gap =>
    if gap < BIP44_GAP_LIMIT then
      let (batch, addresses, k1) := deriveBatch env change batchSize k [] w.addresses
      let w1 := { w with addresses := addresses }
      match node.active batch with
      | .error e => .thrown e w1
      | .ok infos =>
        let (w2, gap1) := processBatch infos change batch w1 gap
        scanBranch env node change fuel w2 (min (batchSize + 1) BIP44_BATCH_SIZE_MAX) k1 gap1
    else .ok () w

/-- The method `#discovery`. -/
def discovery (env : Env) (node : Node) (fuel : Nat) (w : Wallet) : Outcome Unit :=
  let w0 := { w with addresses := [], usedAddresses := [], lastUsedAddressIndexes := (-1, -1) }
  match scanBranch env node 0 fuel w0 BIP44_BATCH_SIZE 0 0 with
  | .running => .running
  | .thrown e w1 => .thrown e w1
  | .ok _ w1 =>
    match scanBranch env node 1 fuel w1 BIP44_BATCH_SIZE 0 0 with
    | .running => .running
    | .thrown e w2 => .thrown e w2
    | .ok _ w2 =>
      if w2.usedAddresses.length ≠ 0 then
        match apiUtxos node w2.usedAddresses with
        | .error e => .thrown e w2
        | .ok utxos =>
          .ok () { w2 with
            utxos := utxos.map fun item =>
              { item with bip32DerivationPath := mapGet w2.addresses item.address } }
      else .ok () w2

/-- The method `load`. -/
def load (env : Env) (node : Node) (fuel : Nat) (w : Wallet) : Outcome Unit :=
  let w0 := { w with state := WalletState.loading }
  match discovery env node fuel w0 with
  | .running => .running
  | .thrown e w1 => .thrown e { w1 with state := WalletState.error }
  | .ok _ w1 =>
    let w2 := { w1 with balance := calculateBalance w1 }
    .ok () { w2 with storage := some w2.balance, state := WalletState.loaded }

/-! ## Fee estimation -/

/-- The call `Map.prototype.get` on `#feeRates`. -/
def feeRateOf (w : Wallet) (feeRate : FeeRate) : Option Nat :=
  w.feeRates.lookup feeRate

/-- Modelled from the spec: `sortUtxos(utxos, 'amount', false)` of `kaspalib`,
which puts the largest amounts first ("select the N largest UTXOs"). -/
def sortUtxos (utxos : List Utxo) : List Utxo :=
  utxos.insertionSort (fun a b => b.utxo.amount ≤ a.utxo.amount)

/-- The inputs `#estimateMaxAmount` works with. -/
def maxInputs (env : Env) (w : Wallet) : List Utxo :=
  (sortUtxos w.utxos).take (env.estimateMaxInputsPerTx (if env.csFeeConfig.enabled then 2 else 1))

/-- The sum `inputs.reduce(...)` of `#estimateMaxAmount`. -/
def inputsTotal (inputs : List Utxo) : Int :=
  inputs.foldl (fun accum input => accum + (input.utxo.amount : Int)) 0

/-- The options of the platform-fee calls on a candidate amount. -/
def csFeeOptions (price : Price) : CsFeeOptions :=
  { dustThreshold := dustThreshold, minFee := none, price := price }

/-- The options of the platform-fee call on the waste. -/
def wasteFeeOptions (price : Price) : CsFeeOptions :=
  { dustThreshold := 1, minFee := some 0, price := price }

/-- The output amounts handed to `transactionMass` for a candidate. -/
def candidateOutputs (maxAmount : Int) (csFee : Nat) : List Int :=
  maxAmount :: (if csFee ≠ 0 then [(csFee : Int)] else [])

/-- The loop `for (let i = 0; i < 16; i++)` of `#estimateMaxAmount` with `rounds`
rounds left; the value is `bestMaxAmount` when the loop is left. -/
def refine (env : Env) (inputs : List Utxo) (total : Int) (rate : Nat) (price : Price) :
    Nat → Int → Int → Int
  | 0, _, bestMaxAmount => bestMaxAmount
  | rounds + 1, maxAmount, bestMaxAmount =>
    let csFee := env.calculateCsFee maxAmount (csFeeOptions price)
    let mass := env.transactionMass inputs (candidateOutputs maxAmount csFee)
    if mass > env.MAXIMUM_STANDARD_TRANSACTION_MASS then bestMaxAmount
    else
      let minerFee : Int := (rate : Int) * (mass : Int)
      let waste := total - maxAmount - (csFee : Int) - minerFee
      if waste < 0 then
        refine env inputs total rate price rounds (maxAmount + waste) bestMaxAmount
      else
        let best := if maxAmount > bestMaxAmount then maxAmount else bestMaxAmount
        if waste < 10 then best
        else
          refine env inputs total rate price rounds
            (maxAmount + (waste - (env.calculateCsFee waste (wasteFeeOptions price) : Int))) best

/-- The method `#estimateMaxAmount`. -/
def estimateMaxAmount (env : Env) (w : Wallet) (feeRate : FeeRate) (price : Price) :
    Except WalletError Int :=
  if w.utxos.length = 0 then .ok 0
  else
    let inputs := maxInputs env w
    let total := inputsTotal inputs
    if total < dustThreshold then .ok 0
    else
      match feeRateOf w feeRate with
      | none => .error .typeError
      | some rate =>
        let minerFee : Int := (rate : Int) * (env.MAXIMUM_STANDARD_TRANSACTION_MASS : Int)
        let csFee := env.calculateCsFee (total - minerFee) (csFeeOptions price)
        let maxAmount := total - minerFee - (csFee : Int)
        if maxAmount < dustThreshold then .ok 0
        else .ok (refine env inputs total rate price 16 maxAmount 0)

/-- The method `validateAmount`. -/
def validateAmount (env : Env) (w : Wallet) (feeRate : FeeRate) (value : Int) (price : Price) :
    Except WalletError Bool :=
  if value < dustThreshold then .error (.smallAmount dustThreshold)
  else
    match estimateMaxAmount env w feeRate price with
    | .error e => .error e
    | .ok maxAmount =>
      if value > maxAmount then .error (.bigAmount maxAmount) else .ok true

/-! ## Transactions -/

/-- The result of `#prepareTransaction`; `inputs` are the positions selected. -/
structure Prepared where
  inputs : List Nat
  outputs : List Output
  fee : Nat
  deriving DecidableEq, Repr

/-- An output object for an address, or the error of the address coder. -/
def mkOutput (env : Env) (address : Address) (amount : Nat) : Except WalletError Output :=
  match env.outScript address with
  | none => .error (.decode address)
  | some script => .ok { address := address, amount := amount, script := script }

/-- The outputs `#prepareTransaction` hands to the coin selector. -/
def requestedOutputs (env : Env) (address : Address) (value : Nat) (csFee : Nat) :
    Except WalletError (List Output) :=
  match mkOutput env address value with
  | .error e => .error e
  | .ok out =>
    if csFee > 0 then
      match mkOutput env env.csFeeConfig.address csFee with
      | .error e => .error e
      | .ok feeOut => .ok [out, feeOut]
    else .ok [out]

/-- The method `#prepareTransaction`. -/
def prepareTransaction (env : Env) (w : Wallet) (address : Address) (value : Nat)
    (feeRate : FeeRate) (price : Price) : Except WalletError Prepared :=
  let csFee := env.calculateCsFee value (csFeeOptions price)
  match requestedOutputs env address value csFee with
  | .error e => .error e
  | .ok outputs =>
    match env.select w.utxos outputs (feeRateOf w feeRate) with
    | .error e => .error e
    | .ok sel =>
      if sel.change > 0 then
        match mkOutput env (getAddress env w true) sel.change with
        | .error e => .error e
        | .ok changeOut =>
          .ok { inputs := sel.selected, outputs := outputs ++ [changeOut], fee := sel.fee + csFee }
      else .ok { inputs := sel.selected, outputs := outputs, fee := sel.fee + csFee }

/-- The method `estimateTransactionFee`. -/
def estimateTransactionFee (env : Env) (w : Wallet) (address : Address) (amount : Nat)
    (feeRate : FeeRate) (price : Price) : Except WalletError Nat :=
  match prepareTransaction env w address amount feeRate price with
  | .error e => .error e
  | .ok p => .ok p.fee

/-- The objects behind the selected references. -/
def inputUtxos (utxos : List Utxo) (selected : List Nat) : List Utxo :=
  selected.filterMap fun i => utxos[i]?

/-- The call `this.#utxos.filter((utxo) => !inputs.includes(utxo))`. -/
def removeInputs (utxos : List Utxo) (selected : List Nat) : List Utxo :=
  (utxos.enum.filter fun p => p.1 ∉ selected).map Prod.snd

/-- The object `createTransaction` pushes on `#utxos` for the output at `index`. -/
def newUtxo (id : TxId) (index : Nat) (output : Output) : Utxo :=
  { address := output.address
    utxo :=
      { transactionId := id
        index := index
        amount := output.amount
        script := output.script
        daaScore := 0 }
    bip32DerivationPath := none }

/-- The first `if` of the `forEach` callback in `createTransaction`. -/
def markUsed (addresses : List Address) (output : Output) (w : Wallet) : Wallet :=
  if output.address ∈ addresses then
    { w with
      usedAddresses := w.usedAddresses ++ [output.address]
      lastUsedAddressIndexes :=
        setLastUsed w.lastUsedAddressIndexes (addresses.indexOf output.address)
          (lastUsedAt w.lastUsedAddressIndexes (addresses.indexOf output.address) + 1) }
  else w

/-- The second `if` of the `forEach` callback in `createTransaction`. -/
def pushOwned (id : TxId) (index : Nat) (output : Output) (w : Wallet) : Wallet :=
  if output.address ∈ w.usedAddresses then
    { w with utxos := w.utxos ++ [newUtxo id index output] }
  else w

/-- The call `tx.outputs.forEach(...)` of `createTransaction`, over the outputs
from position `index` on. -/
def applyOutputs (id : TxId) (addresses : List Address) : List Output → Nat → Wallet → Wallet
  | [], _, w => w
  | output :: rest, index, w =>
    applyOutputs id addresses rest (index + 1)
      (pushOwned id index output (markUsed addresses output w))

/-- The arguments of a send. -/
structure SendRequest where
  feeRate : FeeRate
  address : Address
  amount : Nat
  price : Price
  deriving DecidableEq, Repr

/-- The method `createTransaction`. -/
def createTransaction (env : Env) (node : Node) (w : Wallet) (req : SendRequest) :
    Outcome TxId :=
  match prepareTransaction env w req.address req.amount req.feeRate req.price with
  | .error e => .thrown e w
  | .ok p =>
    let tx : Tx := { inputs := inputUtxos w.utxos p.inputs, outputs := p.outputs }
    match env.sign tx with
    | some e => .thrown e w
    | none =>
      match submutTrandsaction node tx with
      | .error e => .thrown e w
      | .ok id =>
        let w1 := { w with utxos := removeInputs w.utxos p.inputs }
        let addresses := [getAddress env w1 false, getAddress env w1 true]
        let w2 := applyOutputs id addresses tx.outputs 0 w1
        let w3 := { w2 with balance := calculateBalance w2 }
        .ok id { w3 with storage := some w3.balance }

/-- The wallets a successful load followed by successful sends can produce. -/
inductive Reachable (env : Env) : Wallet → Prop where
  | load (node : Node) (fuel : Nat) (w w1 : Wallet) :
      load env node fuel w = .ok () w1 → Reachable env w1
  | send (node : Node) (w w1 : Wallet) (req : SendRequest) (id : TxId) :
      Reachable env w → createTransaction env node w req = .ok id w1 → Reachable env w1

/-! ## Definitions used in the statements -/

/-- The sum of the amounts of a list of UTXOs. -/
def utxoSum (utxos : List Utxo) : Int :=
  (utxos.map fun u => (u.utxo.amount : Int)).sum

/-- The wallet `createTransaction` leaves once the node has accepted the
transaction prepared as `p` under the id `id`. -/
def afterSend (env : Env) (w : Wallet) (p : Prepared) (id : TxId) : Wallet :=
  let w1 := { w with utxos := removeInputs w.utxos p.inputs }
  let w2 := applyOutputs id [getAddress env w1 false, getAddress env w1 true] p.outputs 0 w1
  { w2 with balance := calculateBalance w2, storage := some (calculateBalance w2) }

/-- The coin selector conserves value: what it selects are distinct elements of
the array it was given, and their amounts add up to the requested outputs, the
network fee and the change. -/
def SelectorConservesValue (env : Env) : Prop :=
  ∀ utxos outputs rate sel, env.select utxos outputs rate = .ok sel →
    sel.selected.Nodup ∧
    utxoSum (inputUtxos utxos sel.selected) =
      (outputs.map fun o => (o.amount : Int)).sum + (sel.fee : Int) + (sel.change : Int)

/-- Both high-water marks are at least -1. -/
def MarksOk (w : Wallet) : Prop :=
  -1 ≤ w.lastUsedAddressIndexes.1 ∧ -1 ≤ w.lastUsedAddressIndexes.2


/-! ## A sample wallet

One receive address (`kaspa:r0`) is active and holds a single UTXO of 5 KAS; the
selector funds a send from the first UTXO at a mass of 2000; the platform fee is
0.5% of the amount. -/

def demoAddress : Nat → Nat → Address
  | 0, 0 => "kaspa:r0" | 0, 1 => "kaspa:r1" | 0, 2 => "kaspa:r2" | 0, 3 => "kaspa:r3"
  | 1, 0 => "kaspa:c0" | 1, 1 => "kaspa:c1" | 1, 2 => "kaspa:c2" | 1, 3 => "kaspa:c3"
  | _, _ => "kaspa:far"

def demoSelect (utxos : List Utxo) (outputs : List Output) (rate : Option Nat) :
    Except WalletError Selection :=
  match utxos, rate with
  | u :: _, some r =>
    if (outputs.map fun o => o.amount).sum + 2000 * r ≤ u.utxo.amount then
      .ok { selected := [0], fee := 2000 * r
            change := u.utxo.amount - ((outputs.map fun o => o.amount).sum + 2000 * r) }
    else .error (.selection "insufficient funds")
  | _, _ => .error (.selection "insufficient funds")

def demoEnv : Env :=
  { deriveAddress := demoAddress
    outScript := fun a => some a
    MAXIMUM_STANDARD_TRANSACTION_MASS := 100000
    estimateMaxInputsPerTx := fun _ => 84
    transactionMass := fun _ _ => 2000
    calculateCsFee := fun v _ => (v / 200).toNat
    csFeeConfig := { enabled := true, address := "kaspa:fee" }
    select := demoSelect
    sign := fun _ => none }

def demoNode : Node :=
  { active := fun batch =>
      .ok (batch.map fun a => { address := a, active := a = "kaspa:r0" })
    utxos := fun addresses =>
      .ok (if "kaspa:r0" ∈ addresses then
        [{ address := "kaspa:r0", transactionId := "aa", index := 0, amount := 500000000
           scriptPublicKey := "s", blockDaaScore := 7 }]
      else [])
    submit := fun _ => .ok (some { error := none, transactionId := "bb" }) }

/-- A wallet that has been opened and not loaded yet. -/
def demoFresh : Wallet :=
  { balance := 0, addresses := [], usedAddresses := [], lastUsedAddressIndexes := (-1, -1)
    utxos := [], feeRates := [(.default, 1)], storage := none, state := .initialized }

/-- The address records after a scan of the first batch of both branches. -/
def demoRecords : List (Address × (Nat × Nat)) :=
  [("kaspa:r0", 0, 0), ("kaspa:r1", 0, 1), ("kaspa:r2", 0, 2),
   ("kaspa:c0", 1, 0), ("kaspa:c1", 1, 1), ("kaspa:c2", 1, 2)]

/-- The sample wallet after `load`. -/
def demoLoaded : Wallet :=
  { balance := 500000000, addresses := demoRecords, usedAddresses := ["kaspa:r0"]
    lastUsedAddressIndexes := (0, -1)
    utxos := [{ address := "kaspa:r0"
                utxo := { transactionId := "aa", index := 0, amount := 500000000, script := "s"
                          daaScore := 7 }
                bip32DerivationPath := some (0, 0) }]
    feeRates := [(.default, 1)], storage := some 500000000, state := .loaded }

/-- A send of 1 KAS to an address outside the wallet. -/
def demoSend : SendRequest :=
  { feeRate := .default, address := "kaspa:dest", amount := 100000000, price := 1 }

/-- The sample wallet after `demoSend`. -/
def demoSent : Wallet :=
  { balance := 399498000, addresses := demoRecords, usedAddresses := ["kaspa:r0", "kaspa:c0"]
    lastUsedAddressIndexes := (0, 0)
    utxos := [{ address := "kaspa:c0"
                utxo := { transactionId := "bb", index := 2, amount := 399498000
                          script := "kaspa:c0", daaScore := 0 }
                bip32DerivationPath := none }]
    feeRates := [(.default, 1)], storage := some 399498000, state := .loaded }

/-- A send of 1 KAS to the current receive address of `demoLoaded`. -/
def demoSelfSend : SendRequest :=
  { feeRate := .default, address := "kaspa:r1", amount := 100000000, price := 1 }

/-- The sample wallet after `demoSelfSend`. -/
def demoSelfSent : Wallet :=
  { balance := 499498000, addresses := demoRecords
    usedAddresses := ["kaspa:r0", "kaspa:r1", "kaspa:c0"]
    lastUsedAddressIndexes := (1, 0)
    utxos := [{ address := "kaspa:r1"
                utxo := { transactionId := "bb", index := 0, amount := 100000000
                          script := "kaspa:r1", daaScore := 0 }
                bip32DerivationPath := none },
              { address := "kaspa:c0"
                utxo := { transactionId := "bb", index := 2, amount := 399498000
                          script := "kaspa:c0", daaScore := 0 }
                bip32DerivationPath := none }]
    feeRates := [(.default, 1)], storage := some 499498000, state := .loaded }

/-- An amount is sendable from `inputs` worth `total`: the mass of the transaction
that pays it and its platform fee is within the ceiling, and amount, platform fee
and network fee fit in `total`. -/
def Sendable (env : Env) (inputs : List Utxo) (total : Int) (rate : Nat) (price : Price)
    (a : Int) : Prop :=
  env.transactionMass inputs (candidateOutputs a (env.calculateCsFee a (csFeeOptions price)))
      ≤ env.MAXIMUM_STANDARD_TRANSACTION_MASS ∧
    a + (env.calculateCsFee a (csFeeOptions price) : Int) +
      (rate : Int) * (env.transactionMass inputs
        (candidateOutputs a (env.calculateCsFee a (csFeeOptions price))) : Int) ≤ total

/-- The candidates the loop of `#estimateMaxAmount` examines, in order: the values
`maxAmount` takes at the head of a round, as in `refine`. -/
def candidates (env : Env) (inputs : List Utxo) (total : Int) (rate : Nat) (price : Price) :
    Nat → Int → List Int
  | 0, _ => []
  | rounds + 1, maxAmount =>
    let csFee := env.calculateCsFee maxAmount (csFeeOptions price)
    let mass := env.transactionMass inputs (candidateOutputs maxAmount csFee)
    if mass > env.MAXIMUM_STANDARD_TRANSACTION_MASS then [maxAmount]
    else
      let waste := total - maxAmount - (csFee : Int) - (rate : Int) * (mass : Int)
      if waste < 0 then
        maxAmount :: candidates env inputs total rate price rounds (maxAmount + waste)
      else if waste < 10 then [maxAmount]
      else
        maxAmount :: candidates env inputs total rate price rounds
          (maxAmount + (waste - (env.calculateCsFee waste (wasteFeeOptions price) : Int)))

/-- The first candidate of `#estimateMaxAmount` at a fee rate. -/
def seedAmount (env : Env) (w : Wallet) (rate : Nat) (price : Price) : Int :=
  inputsTotal (maxInputs env w) - (rate : Int) * (env.MAXIMUM_STANDARD_TRANSACTION_MASS : Int) -
    (env.calculateCsFee
      (inputsTotal (maxInputs env w) - (rate : Int) * (env.MAXIMUM_STANDARD_TRANSACTION_MASS : Int))
      (csFeeOptions price) : Int)

/-- A wallet with two UTXOs of 0.5 KAS and 0.4 KAS. -/
def demoDust : Wallet :=
  { balance := 90000000, addresses := demoRecords, usedAddresses := ["kaspa:r0"]
    lastUsedAddressIndexes := (0, -1)
    utxos := [{ address := "kaspa:r0"
                utxo := { transactionId := "aa", index := 0, amount := 50000000, script := "s"
                          daaScore := 7 }
                bip32DerivationPath := some (0, 0) },
              { address := "kaspa:r0"
                utxo := { transactionId := "ab", index := 1, amount := 40000000, script := "s"
                          daaScore := 8 }
                bip32DerivationPath := some (0, 0) }]
    feeRates := [(.default, 1)], storage := some 90000000, state := .loaded }

/-- The candidates `#estimateMaxAmount` examines at a fee rate: none when the
first candidate is below the threshold, else those of the 16 rounds. -/
def examined (env : Env) (w : Wallet) (rate : Nat) (price : Price) : List Int :=
  if seedAmount env w rate price < dustThreshold then []
  else
    candidates env (maxInputs env w) (inputsTotal (maxInputs env w)) rate price 16
      (seedAmount env w rate price)

/-! ## A wallet with a platform fee that starts at a threshold

One UTXO of 5.00003 KAS; the platform fee is 0.05 KAS on amounts of 5 KAS and
more and nothing below; every transaction has mass 2000. -/

def tierEnv : Env :=
  { deriveAddress := demoAddress
    outScript := fun a => some a
    MAXIMUM_STANDARD_TRANSACTION_MASS := 100000
    estimateMaxInputsPerTx := fun _ => 84
    transactionMass := fun _ _ => 2000
    calculateCsFee := fun v _ => if 500000000 ≤ v then 5000000 else 0
    csFeeConfig := { enabled := true, address := "kaspa:fee" }
    select := demoSelect
    sign := fun _ => none }

def tierWallet : Wallet :=
  { balance := 500003000, addresses := demoRecords, usedAddresses := ["kaspa:r0"]
    lastUsedAddressIndexes := (0, -1)
    utxos := [{ address := "kaspa:r0"
                utxo := { transactionId := "aa", index := 0, amount := 500003000, script := "s"
                          daaScore := 7 }
                bip32DerivationPath := some (0, 0) }]
    feeRates := [(.default, 1), (.fastest, 2)], storage := some 500003000, state := .loaded }

/-- The same wallet with the platform fee switched off. -/
def flatEnv : Env :=
  { tierEnv with calculateCsFee := fun _ _ => 0 }

/-- The value of `#estimateMaxAmount` at fee rate `r` when the platform fee is 0
and every transaction has mass `M`: `T` is the total of the inputs and `C` the
mass ceiling. -/
def flatValue (T : Int) (r C M : Nat) : Int :=
  if T - (r : Int) * (C : Int) < dustThreshold then 0
  else if M > C then 0
  else if (r : Int) * (C : Int) - (r : Int) * (M : Int) < 10 then T - (r : Int) * (C : Int)
  else T - (r : Int) * (M : Int)

/-! ## Nodes for the reload scenarios -/

/-- A node that reports every address inactive. -/
def silentNode : Node :=
  { active := fun batch => .ok (batch.map fun a => { address := a, active := false })
    utxos := fun _ => .ok []
    submit := fun _ => .ok (some { error := none, transactionId := "bb" }) }

/-- A node whose activity endpoint fails. -/
def failingNode : Node :=
  { active := fun _ => .error (.transport "timeout")
    utxos := fun _ => .ok []
    submit := fun _ => .ok (some { error := none, transactionId := "bb" }) }

/-- The fields the scan of `#discovery` does not write. -/
def SameLedger (w w1 : Wallet) : Prop :=
  w1.utxos = w.utxos ∧ w1.balance = w.balance ∧ w1.storage = w.storage ∧
    w1.feeRates = w.feeRates ∧ w1.state = w.state

/-- The sample wallet after a reload against `silentNode`. -/
def demoStale : Wallet :=
  { demoLoaded with usedAddresses := [], lastUsedAddressIndexes := (-1, -1) }

/-- The sample wallet after a reload against `failingNode`. -/
def demoFailed : Wallet :=
  { demoLoaded with
    addresses := [("kaspa:r0", 0, 0), ("kaspa:r1", 0, 1), ("kaspa:r2", 0, 2)]
    usedAddresses := []
    lastUsedAddressIndexes := (-1, -1)
    state := .error }

/-! ## Nodes for the submission scenarios -/

/-- A node that answers a submission with an error message. -/
def rejectingNode : Node :=
  { demoNode with submit := fun _ => .ok (some { error := some "rejected", transactionId := "" }) }

/-- A node that answers a submission with an empty body. -/
def muteNode : Node :=
  { demoNode with submit := fun _ => .ok none }

/-- A node whose answer to a submission has an `error` field holding the empty
string next to the transaction id. -/
def blankErrorNode : Node :=
  { demoNode with submit := fun _ => .ok (some { error := some "", transactionId := "bb" }) }

/-- The outputs the sample wallet hands to the coin selector for `demoSend`. -/
def demoRequested : List Output :=
  [{ address := "kaspa:dest", amount := 100000000, script := "kaspa:dest" },
   { address := "kaspa:fee", amount := 500000, script := "kaspa:fee" }]

/-- The transaction the sample wallet builds for `demoSend`. -/
def demoTx : Tx :=
  { inputs := demoLoaded.utxos
    outputs := demoRequested ++
      [{ address := "kaspa:c0", amount := 399498000, script := "kaspa:c0" }] }

/-- The `estimateTransactionFee` method as a call on the wallet: the source
assigns no field on the way, so the wallet left behind is the one given. -/
def estimateTransactionFeeCall (env : Env) (w : Wallet) (address : Address) (amount : Nat)
    (feeRate : FeeRate) (price : Price) : Outcome Nat :=
  match estimateTransactionFee env w address amount feeRate price with
  | .error e => .thrown e w
  | .ok fee => .ok fee w

/-! ## Key export -/

/-- An element of the list `getPrivateKey` returns. -/
structure KeyEntry where
  address : Address
  privatekey : String
  deriving DecidableEq, Repr

/-- The account `HDKey.fromMasterSeed(seed, ...).derive(bip44)` of a seed: the
address and the private key (in hex) of `deriveChild(i).deriveChild(k)`. -/
structure SeedAccount where
  address : Nat → Nat → Address
  privateKey : Nat → Nat → String

/-- The loop `for (const utxo of this.#utxos)` of `getPrivateKey`, with the keys
of `exported` and the list `privateKey` so far. The value is `none` where the
method ends with a bare `return;`. -/
def exportKeys (account : SeedAccount) :
    List Utxo → List Address → List KeyEntry → Except WalletError (Option (List KeyEntry))
  | [], _, privateKey => .ok (some privateKey)
  | utxo :: rest, exported, privateKey =>
    if utxo.address ∈ exported then .ok none
    else
      match utxo.bip32DerivationPath with
      | none => .error .typeError
      | some path =>
        exportKeys account rest (exported ++ [utxo.address])
          (privateKey ++
            [{ address := account.address path.1 path.2
               privatekey := account.privateKey path.1 path.2 }])

/-- The method `getPrivateKey`. -/
def getPrivateKey (account : SeedAccount) (w : Wallet) :
    Except WalletError (Option (List KeyEntry)) :=
  exportKeys account w.utxos [] []

/-- The account of the seed of the sample wallet. -/
def demoAccount : SeedAccount :=
  { address := demoAddress
    privateKey := fun i k => if i = 0 ∧ k = 0 then "4af6" else "e72f" }

/-! ## Transaction history -/

/-- An input of a raw ledger entry. -/
structure RawInput where
  previous_outpoint_address : Address
  previous_outpoint_amount : Nat
  deriving DecidableEq, Repr

/-- An output of a raw ledger entry. -/
structure RawOutput where
  script_public_key_address : Address
  amount : Nat
  csfee : Bool
  deriving DecidableEq, Repr

/-- A raw ledger entry. `inputs` is `none` when the property is absent or null. -/
structure RawTx where
  transaction_id : TxId
  inputs : Option (List RawInput)
  outputs : List RawOutput
  is_accepted : Bool
  block_time : Nat
  deriving DecidableEq, Repr

/-- The values of `KaspaTransaction.STATUS_*` in use. -/
inductive TxStatus where
  | success
  | pending
  deriving DecidableEq, Repr

/-- The fields of a `KaspaTransaction` that depend on the entry. -/
structure TxRecord where
  incoming : Bool
  status : TxStatus
  id : TxId
  amount : Int
  /-- The property `to`. -/
  toAddress : Option Address
  fee : Int
  timestamp : Nat
  confirmations : Nat
  deriving DecidableEq, Repr

/-- The call `this.#addresses.has(address)`. -/
def hasAddress (w : Wallet) (a : Address) : Bool :=
  (mapGet w.addresses a).isSome

/-- The first loop of the `map` callback of `#loadTransactions`. -/
def inputValue (w : Wallet) (inputs : List RawInput) : Int :=
  inputs.foldl
    (fun acc input =>
      if hasAddress w input.previous_outpoint_address then
        acc + (input.previous_outpoint_amount : Int)
      else acc)
    0

/-- The second loop of the callback: the pair `(outputValue, csFee)`. -/
def outputValues (w : Wallet) (outputs : List RawOutput) : Int × Int :=
  outputs.foldl
    (fun acc output =>
      if hasAddress w output.script_public_key_address then
        (acc.1 + (output.amount : Int), acc.2)
      else if output.csfee = true then (acc.1, acc.2 + (output.amount : Int))
      else acc)
    (0, 0)

/-- The constant `minerFee` of the callback: the guard `tx.inputs ? ... : 0n`
holds for every array, also the empty one. -/
def minerFee (tx : RawTx) : Int :=
  match tx.inputs with
  | some inputs =>
    inputs.foldl (fun accum input => accum + (input.previous_outpoint_amount : Int)) 0 -
      tx.outputs.foldl (fun accum output => accum + (output.amount : Int)) 0
  | none => 0

/-- The `map` callback of `#loadTransactions`. The loop over `tx.inputs` throws
when the property is absent, and so does `tx.outputs[0]` on an empty array. -/
def reconcile (w : Wallet) (tx : RawTx) : Except WalletError TxRecord :=
  match tx.inputs with
  | none => .error .typeError
  | some inputs =>
    let inputValue := inputValue w inputs
    let (outputValue, csFee) := outputValues w tx.outputs
    let totalFee := csFee + minerFee tx
    let value := outputValue - inputValue
    let status := if tx.is_accepted then TxStatus.success else TxStatus.pending
    let confirmations := if tx.is_accepted then 10 else 0
    if value > 0 then
      .ok { incoming := true, status := status, id := tx.transaction_id, amount := value
            toAddress := none, fee := totalFee, timestamp := tx.block_time
            confirmations := confirmations }
    else
      match tx.outputs.head? with
      | none => .error .typeError
      | some first =>
        .ok { incoming := false, status := status, id := tx.transaction_id
              amount := -1 * value - totalFee
              toAddress := some first.script_public_key_address, fee := totalFee
              timestamp := tx.block_time, confirmations := confirmations }

/-- The comparator handed to `sort` in `#loadTransactions`. -/
def compareEntries (a b : RawTx) : Int :=
  if a.is_accepted = false then -1
  else if b.is_accepted = false then 1
  else (b.block_time : Int) - (a.block_time : Int)

/-- The call `.map(...)` of `#loadTransactions`: the first callback that throws
ends it. -/
def reconcileEach (w : Wallet) : List RawTx → Except WalletError (List TxRecord)
  | [] => .ok []
  | tx :: rest =>
    match reconcile w tx with
    | .error e => .error e
    | .ok r =>
      match reconcileEach w rest with
      | .error e => .error e
      | .ok rs => .ok (r :: rs)

/-- The request loop of `API.getTransactions`: `transactions` is the `Map`, in
insertion order, and `request` the node endpoint. -/
def fetchTransactions (request : List Address → Except WalletError (List RawTx)) :
    List (List Address) → List RawTx → Except WalletError (List RawTx)
  | [], transactions => .ok transactions
  | c :: rest, transactions =>
    match request c with
    | .error e => .error e
    | .ok res =>
      fetchTransactions request rest
        (res.foldl
          (fun m item =>
            if m.any (fun t => t.transaction_id = item.transaction_id) then
              m.map fun t => if t.transaction_id = item.transaction_id then item else t
            else m ++ [item])
          transactions)

/-- The method `API.getTransactions`. -/
def getTransactions (request : List Address → Except WalletError (List RawTx))
    (addresses : List Address) : Except WalletError (List RawTx) :=
  fetchTransactions request (chunks addresses.length addresses) []

/-- The method `#loadTransactions`; the value is the new `#transactions`.
`sort` is `Array.prototype.sort` of the runtime. -/
def loadAllTransactions (sort : (RawTx → RawTx → Int) → List RawTx → List RawTx)
    (request : List Address → Except WalletError (List RawTx)) (w : Wallet) :
    Except WalletError (List TxRecord) :=
  match getTransactions request w.usedAddresses with
  | .error e => .error e
  | .ok entries => reconcileEach w (sort compareEntries entries)

/-- The amounts of the inputs of an entry that come from an address of the
wallet. -/
def ownedInputs (w : Wallet) (tx : RawTx) : Int :=
  (((tx.inputs.getD []).filter fun i => hasAddress w i.previous_outpoint_address).map
    fun i => (i.previous_outpoint_amount : Int)).sum

/-- The amounts of the outputs of an entry that pay an address of the wallet. -/
def ownedOutputs (w : Wallet) (tx : RawTx) : Int :=
  ((tx.outputs.filter fun o => hasAddress w o.script_public_key_address).map
    fun o => (o.amount : Int)).sum

/-- The amounts of the outputs flagged as platform-fee outputs that do not pay an
address of the wallet. -/
def foreignPlatformFee (w : Wallet) (tx : RawTx) : Int :=
  ((tx.outputs.filter fun o =>
      !hasAddress w o.script_public_key_address && o.csfee).map
    fun o => (o.amount : Int)).sum

/-- The amounts of all outputs flagged as platform-fee outputs. -/
def flaggedPlatformFee (tx : RawTx) : Int :=
  ((tx.outputs.filter fun o => o.csfee).map fun o => (o.amount : Int)).sum

/-- The amounts of all inputs minus the amounts of all outputs. -/
def inputsMinusOutputs (tx : RawTx) : Int :=
  ((tx.inputs.getD []).map fun i => (i.previous_outpoint_amount : Int)).sum -
    (tx.outputs.map fun o => (o.amount : Int)).sum

/-! ## Sample ledger entries -/

/-- A payment of 5 KAS to `kaspa:r0` whose inputs the node does not show. -/
def hiddenInputsEntry : RawTx :=
  { transaction_id := "t1", inputs := none
    outputs := [{ script_public_key_address := "kaspa:r0", amount := 500000000, csfee := false }]
    is_accepted := true, block_time := 1700000000000 }

/-- The same payment with an empty input list. -/
def noInputsEntry : RawTx :=
  { hiddenInputsEntry with inputs := some [] }

/-- A send of 3 KAS from `kaspa:r0` (an input of 5 KAS) with a platform fee of
0.1 KAS, change of 1.8 KAS to `kaspa:c0` and a network fee of 0.1 KAS. -/
def sendEntry : RawTx :=
  { transaction_id := "t2"
    inputs := some [{ previous_outpoint_address := "kaspa:r0"
                      previous_outpoint_amount := 500000000 }]
    outputs := [{ script_public_key_address := "kaspa:dest", amount := 300000000, csfee := false },
                { script_public_key_address := "kaspa:fee", amount := 10000000, csfee := true },
                { script_public_key_address := "kaspa:c0", amount := 180000000, csfee := false }]
    is_accepted := true, block_time := 1700000001000 }

/-- A payment from outside: 6 KAS to `kaspa:r0`, a platform-fee output of 1 KAS
that pays the wallet address `kaspa:r1`, 2.9 KAS elsewhere, from an input of
10 KAS. -/
def feeToWalletEntry : RawTx :=
  { transaction_id := "t3"
    inputs := some [{ previous_outpoint_address := "kaspa:other"
                      previous_outpoint_amount := 1000000000 }]
    outputs := [{ script_public_key_address := "kaspa:r0", amount := 600000000, csfee := false },
                { script_public_key_address := "kaspa:r1", amount := 100000000, csfee := true },
                { script_public_key_address := "kaspa:else", amount := 290000000, csfee := false }]
    is_accepted := true, block_time := 1700000002000 }

/-! ## The sort of the runtime -/

/-- What is assumed of `Array.prototype.sort`: for a comparator that never asks
for `a` after `b` and for `b` after `a` at once (`compare(a, b) ≥ 0` implies
`compare(b, a) ≤ 0`) and for which `compare(a, b) ≤ 0` is transitive, the result
is a permutation of the array in which `compare(a, b) ≤ 0` holds for every `a`
that stands before a `b`. The comparator may answer below 0 in both directions,
as the one of `#loadTransactions` does. -/
def SortsByComparator (sort : (RawTx → RawTx → Int) → List RawTx → List RawTx) : Prop :=
  ∀ (cmp : RawTx → RawTx → Int) (l : List RawTx),
    (∀ a b, 0 ≤ cmp a b → cmp b a ≤ 0) →
    (∀ a b c, cmp a b ≤ 0 → cmp b c ≤ 0 → cmp a c ≤ 0) →
    (sort cmp l).Perm l ∧ (sort cmp l).Pairwise (fun a b => cmp a b ≤ 0)

/-- The runtime sort returns the elements of the array in some order, whatever
the comparator. -/
def SortPermutes (sort : (RawTx → RawTx → Int) → List RawTx → List RawTx) : Prop :=
  ∀ (cmp : RawTx → RawTx → Int) (l : List RawTx), (sort cmp l).Perm l

/-- A sort that keeps the input order of elements the comparator does not
separate. -/
def stableSort (cmp : RawTx → RawTx → Int) (l : List RawTx) : List RawTx :=
  l.insertionSort (fun a b => cmp a b ≤ 0)

/-- The insertion step of a sort that asks `compare(x, y) < 0` to put `x` before
`y`: `x` goes before the first element it compares below. -/
def insertBelow (cmp : RawTx → RawTx → Int) (x : RawTx) : List RawTx → List RawTx
  | [] => [x]
  | y :: rest => if cmp x y < 0 then x :: y :: rest else y :: insertBelow cmp x rest

/-- The insertion sort built on `insertBelow`, taking the elements from left to
right. -/
def insertionSortBelow (cmp : RawTx → RawTx → Int) (l : List RawTx) : List RawTx :=
  l.foldl (fun sorted x => insertBelow cmp x sorted) []

/-- The order the history is to have: nothing accepted before something not yet
accepted, and accepted records in non-increasing time. -/
def HistoryOrder (a b : TxRecord) : Prop :=
  a.status = TxStatus.pending ∨
    (a.status = TxStatus.success ∧ b.status = TxStatus.success ∧ b.timestamp ≤ a.timestamp)

/-- The order of the entries after the sort: an entry that is not accepted yet
stands before every accepted one, and the accepted ones are in non-increasing
time. -/
def EntryOrder (a b : RawTx) : Prop :=
  a.is_accepted = false ∨
    (a.is_accepted = true ∧ b.is_accepted = true ∧ b.block_time ≤ a.block_time)

/-- An entry that is not accepted yet. -/
def pendingEntryA : RawTx :=
  { sendEntry with transaction_id := "p1", is_accepted := false, block_time := 0 }

/-- A second entry that is not accepted yet. -/
def pendingEntryB : RawTx :=
  { sendEntry with transaction_id := "p2", is_accepted := false, block_time := 0 }

/-- The answer of the history endpoint in the sample. -/
def demoHistory (_ : List Address) : Except WalletError (List RawTx) :=
  .ok [sendEntry, pendingEntryA, feeToWalletEntry]

/-- The records of the sample history. -/
def demoHistoryRecords : List TxRecord :=
  [{ incoming := false, status := .pending, id := "p1", amount := 300000000
     toAddress := some "kaspa:dest", fee := 20000000, timestamp := 0, confirmations := 0 },
   { incoming := true, status := .success, id := "t3", amount := 700000000
     toAddress := none, fee := 10000000, timestamp := 1700000002000, confirmations := 10 },
   { incoming := false, status := .success, id := "t2", amount := 300000000
     toAddress := some "kaspa:dest", fee := 20000000, timestamp := 1700000001000
     confirmations := 10 }]

/-! ## Definitions for the discovery properties -/

/-- The wallet `l` with the address records, the used addresses and the marks of
`w`. -/
def graft (l w : Wallet) : Wallet :=
  { l with
    addresses := w.addresses
    usedAddresses := w.usedAddresses
    lastUsedAddressIndexes := w.lastUsedAddressIndexes }

/-- Distinct derivation paths give distinct addresses. -/
def DerivationInjective (env : Env) : Prop :=
  ∀ b k b1 k1, env.deriveAddress b k = env.deriveAddress b1 k1 → b = b1 ∧ k = k1

/-- Every address of branch `b` below index `K` has its record. -/
def Recorded (env : Env) (b K : Nat) (w : Wallet) : Prop :=
  ∀ j, j < K → mapGet w.addresses (env.deriveAddress b j) = some (b, j)

/-- Every used address of branch `b` has an index below `K`. -/
def UsedBelow (env : Env) (b K : Nat) (w : Wallet) : Prop :=
  ∀ k, env.deriveAddress b k ∈ w.usedAddresses → k < K

/-- The mark of branch `b` is the greatest index of a used address of the branch,
and -1 when the branch has none. -/
def MarkIsGreatest (env : Env) (b : Nat) (w : Wallet) : Prop :=
  (∀ k, env.deriveAddress b k ∈ w.usedAddresses →
    (k : Int) ≤ lastUsedAt w.lastUsedAddressIndexes b) ∧
  (lastUsedAt w.lastUsedAddressIndexes b = -1 ∨
    ∃ k : Nat, lastUsedAt w.lastUsedAddressIndexes b = (k : Int) ∧
      env.deriveAddress b k ∈ w.usedAddresses)

/-! ## A wallet with a gap inside the first batch -/

/-- An address for every path: `kaspa:` followed by one `c` per branch number and
one `i` per index. -/
def unaryAddress (b k : Nat) : Address :=
  String.mk (['k', 'a', 's', 'p', 'a', ':'] ++ List.replicate b 'c' ++ List.replicate k 'i')

def gapEnv : Env :=
  { demoEnv with deriveAddress := unaryAddress }

/-- A node for which the receive addresses 0 and 2 are active and nothing else. -/
def gapNode : Node :=
  { active := fun batch =>
      .ok (batch.map fun a =>
        { address := a, active := a = unaryAddress 0 0 ∨ a = unaryAddress 0 2 })
    utxos := fun _ => .ok []
    submit := fun _ => .ok none }

/-- The wallet a discovery against `gapNode` leaves. -/
def gapScanned : Wallet :=
  { demoFresh with
    addresses :=
      [("kaspa:", 0, 0), ("kaspa:i", 0, 1), ("kaspa:ii", 0, 2), ("kaspa:iii", 0, 3),
       ("kaspa:iiii", 0, 4), ("kaspa:iiiii", 0, 5), ("kaspa:iiiiii", 0, 6),
       ("kaspa:c", 1, 0), ("kaspa:ci", 1, 1), ("kaspa:cii", 1, 2)]
    usedAddresses := ["kaspa:", "kaspa:ii"]
    lastUsedAddressIndexes := (2, -1) }

/-! ## Sends in sequence and reloads -/

/-- The wallet after the sends of a list, one after the other, `none` when one of
them does not succeed. -/
def sendAll (env : Env) (node : Node) : Wallet → List SendRequest → Option Wallet
  | w, [] => some w
  | w, req :: rest =>
    match createTransaction env node w req with
    | .ok _ w1 => sendAll env node w1 rest
    | _ => none

/-- The sample wallet after its send, loaded again from a node that still
reports only `kaspa:r0` active. -/
def demoResynced : Wallet :=
  { demoSent with
    usedAddresses := ["kaspa:r0"]
    lastUsedAddressIndexes := (0, -1)
    utxos := demoLoaded.utxos
    balance := 500000000
    storage := some 500000000 }

/-- A send of 1 KAS to the current change address of `demoLoaded`. -/
def demoChangeSend : SendRequest :=
  { feeRate := .default, address := "kaspa:c0", amount := 100000000, price := 1 }

/-- The sample wallet after `demoChangeSend`. -/
def demoChangeSent : Wallet :=
  { balance := 499498000, addresses := demoRecords
    usedAddresses := ["kaspa:r0", "kaspa:c0", "kaspa:c0"]
    lastUsedAddressIndexes := (0, 1)
    utxos := [{ address := "kaspa:c0"
                utxo := { transactionId := "bb", index := 0, amount := 100000000
                          script := "kaspa:c0", daaScore := 0 }
                bip32DerivationPath := none },
              { address := "kaspa:c0"
                utxo := { transactionId := "bb", index := 2, amount := 399498000
                          script := "kaspa:c0", daaScore := 0 }
                bip32DerivationPath := none }]
    feeRates := [(.default, 1)], storage := some 499498000, state := .loaded }

/-! ## The requests of a discovery pass -/

/-- The loop `while (gap < BIP44_GAP_LIMIT)` of `#discovery` on one branch, as
`scanBranch` has it, together with the batches it hands to `active`, in the
order of the requests. -/
def scanBranchLog (env : Env) (node : Node) (change : Nat) :
    Nat → Wallet → Nat → Nat → Nat → Outcome Unit × List (List Address)
  | 0, _, _, _, _ => (.running, [])
  | fuel + 1, w, batchSize, k, gap =>
    if gap < BIP44_GAP_LIMIT then
      let (batch, addresses, k1) := deriveBatch env change batchSize k [] w.addresses
      let w1 := { w with addresses := addresses }
      match node.active batch with
      | .error e => (.thrown e w1, [batch])
      | .ok infos =>
        let (w2, gap1) := processBatch infos change batch w1 gap
        let (outcome, log) :=
          scanBranchLog env node change fuel w2 (min (batchSize + 1) BIP44_BATCH_SIZE_MAX) k1 gap1
        (outcome, batch :: log)
    else (.ok () w, [])

/-- The batches a discovery pass hands to `active`, those of the receive branch
and those of the change branch; the change branch is scanned when the scan of the
receive branch has ended without an error. -/
def discoveryLog (env : Env) (node : Node) (fuel : Nat) (w : Wallet) :
    List (List Address) × List (List Address) :=
  let w0 := { w with addresses := [], usedAddresses := [], lastUsedAddressIndexes := (-1, -1) }
  match scanBranchLog env node 0 fuel w0 BIP44_BATCH_SIZE 0 0 with
  | (.ok _ w1, log0) => (log0, (scanBranchLog env node 1 fuel w1 BIP44_BATCH_SIZE 0 0).2)
  | (_, log0) => (log0, [])

/-- The index at which batch `j` of a branch starts when batch `i` holds
`min (3 + i) 10` addresses. -/
def batchStart : Nat → Nat
  | 0 => 0
  | j + 1 => batchStart j + min (3 + j) 10

/-- The test `info?.active` of `#discovery` for an address, on the answer to the
request of its batch. -/
def activeIn (infos : List ActiveInfo) (a : Address) : Bool :=
  match infos.find? (fun item => item.address = a) with
  | some info => info.active
  | none => false

/-- An address of a batch is active: the node answers the request of the batch
and the test `info?.active` holds. -/
def isActive (node : Node) (batch : List Address) (a : Address) : Bool :=
  match node.active batch with
  | .ok infos => activeIn infos a
  | .error _ => false

/-! ## Platform-fee schedules -/

/-- The platform fee does not go down when the amount goes up. -/
def CsFeeMonotone (env : Env) (price : Price) : Prop :=
  ∀ a b : Int, a ≤ b →
    env.calculateCsFee a (csFeeOptions price) ≤ env.calculateCsFee b (csFeeOptions price)

/-- A platform fee that is waived from 2 KAS on: 1.5 KAS on amounts below 2 KAS
and 0.00001 KAS on the others. -/
def waivedEnv : Env :=
  { tierEnv with calculateCsFee := fun v _ => if v < 200000000 then 150000000 else 1000 }

/-- A wallet with one UTXO of 2.001 KAS. -/
def waivedWallet : Wallet :=
  { balance := 200100000, addresses := demoRecords, usedAddresses := ["kaspa:r0"]
    lastUsedAddressIndexes := (0, -1)
    utxos := [{ address := "kaspa:r0"
                utxo := { transactionId := "aa", index := 0, amount := 200100000, script := "s"
                          daaScore := 7 }
                bip32DerivationPath := some (0, 0) }]
    feeRates := [(.default, 1)], storage := some 200100000, state := .loaded }

/-! ## History requests and pages -/

/-- Twelve used addresses, which make a chunk of ten and a chunk of two. -/
def demoTwelve : List Address :=
  ["a0", "a1", "a2", "a3", "a4", "a5", "a6", "a7", "a8", "a9", "a10", "a11"]

/-- The amounts of the outputs of an entry that neither pay an address of the
wallet nor are flagged as platform-fee outputs. -/
def foreignUnflagged (w : Wallet) (tx : RawTx) : Int :=
  ((tx.outputs.filter fun o =>
      !hasAddress w o.script_public_key_address && !o.csfee).map
    fun o => (o.amount : Int)).sum

/-- The object `loadTransactions` returns. -/
structure Page where
  transactions : List TxRecord
  hasMore : Bool
  cursor : Nat
  deriving DecidableEq, Repr

/-- The method `loadTransactions` with the page size `txPerPage`. `transactions`
is the field `#transactions` before the call; the value is the page with the
field after the call. -/
def loadTransactions (sort : (RawTx → RawTx → Int) → List RawTx → List RawTx)
    (request : List Address → Except WalletError (List RawTx)) (w : Wallet) (txPerPage : Nat)
    (transactions : List TxRecord) (cursor : Nat) :
    Except WalletError (Page × List TxRecord) :=
  match (if cursor = 0 then loadAllTransactions sort request w else .ok transactions) with
  | .error e => .error e
  | .ok transactions1 =>
    .ok ({ transactions := (transactions1.drop cursor).take txPerPage
           hasMore := decide (transactions1.length > cursor + txPerPage)
           cursor := cursor + txPerPage }, transactions1)

/-- A caller that calls `loadTransactions` with a cursor and again with the
cursor returned for as long as `hasMore` is true, at most `fuel` times; the value
is the list of the pages. -/
def followPages (sort : (RawTx → RawTx → Int) → List RawTx → List RawTx)
    (request : List Address → Except WalletError (List RawTx)) (w : Wallet) (txPerPage : Nat) :
    Nat → List TxRecord → Nat → Except WalletError (List Page)
  | 0, _, _ => .ok []
  | fuel + 1, transactions, cursor =>
    match loadTransactions sort request w txPerPage transactions cursor with
    | .error e => .error e
    | .ok (page, transactions1) =>
      if page.hasMore then
        match followPages sort request w txPerPage fuel transactions1 page.cursor with
        | .error e => .error e
        | .ok pages => .ok (page :: pages)
      else .ok [page]

/-! # Properties -/

theorem foldl_amount_eq (utxos : List Utxo) (a : Int) :
    utxos.foldl (fun balance u => balance + (u.utxo.amount : Int)) a = a + utxoSum utxos := by
  induction utxos generalizing a with
  | nil => simp [utxoSum]
  | cons u us ih =>
    simp only [List.foldl_cons, ih, utxoSum, List.map_cons, List.sum_cons]
    ring

theorem calculateBalance_eq_utxoSum (w : Wallet) : calculateBalance w = utxoSum w.utxos := by
  simp [calculateBalance, foldl_amount_eq]

theorem load_ok_balance {env : Env} {node : Node} {fuel : Nat} {w w1 : Wallet}
    (h : load env node fuel w = .ok () w1) : w1.balance = calculateBalance w1 := by
  unfold load at h
  simp only at h
  split at h
  · cases h
  · cases h
  · cases h
    rfl

theorem createTransaction_ok {env : Env} {node : Node} {w w1 : Wallet}
    {req : SendRequest} {id : TxId}
    (h : createTransaction env node w req = .ok id w1) :
    ∃ p, prepareTransaction env w req.address req.amount req.feeRate req.price = .ok p ∧
      submutTrandsaction node { inputs := inputUtxos w.utxos p.inputs, outputs := p.outputs }
        = .ok id ∧
      w1 = afterSend env w p id := by
  unfold createTransaction at h
  split at h
  · cases h
  · rename_i p hp
    simp only at h
    split at h
    · cases h
    · split at h
      · cases h
      · rename_i id1 hs
        cases h
        exact ⟨p, hp, hs, rfl⟩

theorem createTransaction_ok_balance {env : Env} {node : Node} {w w1 : Wallet}
    {req : SendRequest} {id : TxId}
    (h : createTransaction env node w req = .ok id w1) : w1.balance = calculateBalance w1 := by
  obtain ⟨p, -, -, rfl⟩ := createTransaction_ok h
  rfl

/-- C1: after a successful `load` and after a successful `createTransaction`,
from any wallet, the balance is the sum of the amounts of the UTXOs the ledger
holds. -/
theorem balance_is_utxo_sum (env : Env) (node : Node) (fuel : Nat) (w w1 : Wallet)
    (req : SendRequest) (id : TxId)
    (h : load env node fuel w = .ok () w1 ∨ createTransaction env node w req = .ok id w1) :
    w1.balance = utxoSum w1.utxos := by
  rw [← calculateBalance_eq_utxoSum]
  rcases h with h | h
  · exact load_ok_balance h
  · exact createTransaction_ok_balance h

theorem utxoSum_append (a b : List Utxo) : utxoSum (a ++ b) = utxoSum a + utxoSum b := by
  simp [utxoSum]

theorem utxoSum_perm {a b : List Utxo} (h : a.Perm b) : utxoSum a = utxoSum b := by
  unfold utxoSum
  exact (h.map _).sum_eq

theorem inputUtxos_perm (utxos : List Utxo) (selected : List Nat) (hnd : selected.Nodup) :
    (inputUtxos utxos selected).Perm ((utxos.enum.filter fun p => p.1 ∈ selected).map Prod.snd) := by
  have h1 : inputUtxos utxos selected =
      (selected.filterMap fun i => (utxos[i]?).map fun u => (i, u)).map Prod.snd := by
    unfold inputUtxos
    rw [List.map_filterMap]
    congr 1
    funext i
    cases utxos[i]? <;> rfl
  rw [h1]
  apply List.Perm.map
  rw [List.perm_ext_iff_of_nodup]
  · rintro ⟨i, u⟩
    simp only [List.mem_filterMap, Option.map_eq_some', List.mem_filter,
      List.mk_mem_enum_iff_getElem?, decide_eq_true_eq]
    constructor
    · rintro ⟨j, hj, v, hv, hjv⟩
      cases hjv
      exact ⟨hv, hj⟩
    · rintro ⟨hu, hi⟩
      exact ⟨i, hi, u, hu, rfl⟩
  · apply hnd.filterMap
    intro a a' b hb hb'
    simp only [Option.mem_def, Option.map_eq_some'] at hb hb'
    obtain ⟨_, _, rfl⟩ := hb
    obtain ⟨_, _, h⟩ := hb'
    exact (congrArg Prod.fst h).symm
  · apply List.Nodup.filter
    exact List.Nodup.of_map Prod.fst (List.nodup_enum_map_fst utxos)

theorem utxoSum_removeInputs (utxos : List Utxo) (selected : List Nat) (hnd : selected.Nodup) :
    utxoSum (removeInputs utxos selected) + utxoSum (inputUtxos utxos selected) =
      utxoSum utxos := by
  rw [utxoSum_perm (inputUtxos_perm utxos selected hnd), add_comm]
  unfold removeInputs
  have h := List.filter_append_perm (fun p : Nat × Utxo => decide (p.1 ∈ selected)) utxos.enum
  have h2 := utxoSum_perm (h.map Prod.snd)
  rw [List.map_append, utxoSum_append] at h2
  have h3 : List.map Prod.snd utxos.enum = utxos := by
    rw [List.enum_map_snd]
  rw [h3] at h2
  have h4 : (fun p : Nat × Utxo => decide (p.1 ∉ selected)) =
      (fun x => !decide (x.1 ∈ selected)) := by
    funext p
    simp
  rw [← h2, h4]

theorem mkOutput_ok {env : Env} {a : Address} {v : Nat} {o : Output}
    (h : mkOutput env a v = .ok o) : o.address = a ∧ o.amount = v := by
  unfold mkOutput at h
  split at h
  · cases h
  · cases h
    exact ⟨rfl, rfl⟩

theorem requestedOutputs_ok {env : Env} {a : Address} {v c : Nat} {outs : List Output}
    (h : requestedOutputs env a v c = .ok outs) :
    ∃ o, o.address = a ∧ o.amount = v ∧
      ((c = 0 ∧ outs = [o]) ∨
        (0 < c ∧ ∃ f, f.address = env.csFeeConfig.address ∧ f.amount = c ∧ outs = [o, f])) := by
  unfold requestedOutputs at h
  split at h
  · cases h
  · rename_i o ho
    obtain ⟨h1, h2⟩ := mkOutput_ok ho
    refine ⟨o, h1, h2, ?_⟩
    split at h
    · rename_i hc
      split at h
      · cases h
      · rename_i f hf
        obtain ⟨h3, h4⟩ := mkOutput_ok hf
        cases h
        exact Or.inr ⟨hc, f, h3, h4, rfl⟩
    · rename_i hc
      cases h
      exact Or.inl ⟨by omega, rfl⟩

theorem prepareTransaction_ok {env : Env} {w : Wallet} {a : Address} {v : Nat}
    {feeRate : FeeRate} {price : Price} {p : Prepared}
    (h : prepareTransaction env w a v feeRate price = .ok p) :
    ∃ outs sel,
      requestedOutputs env a v (env.calculateCsFee v (csFeeOptions price)) = .ok outs ∧
      env.select w.utxos outs (feeRateOf w feeRate) = .ok sel ∧
      p.inputs = sel.selected ∧
      p.fee = sel.fee + env.calculateCsFee v (csFeeOptions price) ∧
      ((sel.change = 0 ∧ p.outputs = outs) ∨
        (0 < sel.change ∧ ∃ c, c.address = getAddress env w true ∧ c.amount = sel.change ∧
          p.outputs = outs ++ [c])) := by
  unfold prepareTransaction at h
  simp only at h
  split at h
  · cases h
  · rename_i outs ho
    split at h
    · cases h
    · rename_i sel hs
      refine ⟨outs, sel, ho, hs, ?_⟩
      split at h
      · rename_i hc
        split at h
        · cases h
        · rename_i c hco
          obtain ⟨h1, h2⟩ := mkOutput_ok hco
          cases h
          exact ⟨rfl, rfl, Or.inr ⟨hc, c, h1, h2, rfl⟩⟩
      · rename_i hc
        cases h
        exact ⟨rfl, rfl, Or.inl ⟨by omega, rfl⟩⟩

theorem reachable_balance {env : Env} {w : Wallet} (h : Reachable env w) :
    w.balance = utxoSum w.utxos := by
  rw [← calculateBalance_eq_utxoSum]
  cases h with
  | load node fuel w0 _ h => exact load_ok_balance h
  | send node w0 _ req id _ h => exact createTransaction_ok_balance h

theorem afterSend_balance (env : Env) (w : Wallet) (p : Prepared) (id : TxId) :
    (afterSend env w p id).balance =
      utxoSum (applyOutputs id [getAddress env w false, getAddress env w true] p.outputs 0
        { w with utxos := removeInputs w.utxos p.inputs }).utxos := by
  rw [← calculateBalance_eq_utxoSum]
  rfl

theorem applyOutputs_foreign (id : TxId) (addresses : List Address) (o : Output)
    (rest : List Output) (i : Nat) (w : Wallet)
    (h1 : o.address ∉ addresses) (h2 : o.address ∉ w.usedAddresses) :
    applyOutputs id addresses (o :: rest) i w = applyOutputs id addresses rest (i + 1) w := by
  simp [applyOutputs, markUsed, pushOwned, h1, h2]

theorem applyOutputs_own (id : TxId) (addresses : List Address) (o : Output)
    (rest : List Output) (i : Nat) (w : Wallet) (h1 : o.address ∈ addresses) :
    applyOutputs id addresses (o :: rest) i w =
      applyOutputs id addresses rest (i + 1)
        { w with
          usedAddresses := w.usedAddresses ++ [o.address]
          lastUsedAddressIndexes :=
            setLastUsed w.lastUsedAddressIndexes (addresses.indexOf o.address)
              (lastUsedAt w.lastUsedAddressIndexes (addresses.indexOf o.address) + 1)
          utxos := w.utxos ++ [newUtxo id i o] } := by
  simp [applyOutputs, markUsed, pushOwned, h1]

theorem utxoSum_snoc (utxos : List Utxo) (id : TxId) (i : Nat) (o : Output) :
    utxoSum (utxos ++ [newUtxo id i o]) = utxoSum utxos + (o.amount : Int) := by
  simp [utxoSum, newUtxo]

theorem utxoSum_cons (u : Utxo) (utxos : List Utxo) :
    utxoSum (u :: utxos) = (u.utxo.amount : Int) + utxoSum utxos := by
  simp [utxoSum]

theorem utxoSum_nil : utxoSum [] = 0 := rfl

theorem newUtxo_amount (id : TxId) (i : Nat) (o : Output) :
    (newUtxo id i o).utxo.amount = o.amount := rfl

/-- C2: in a wallet reached by a load and any number of sends, with a coin
selector that conserves value, a successful send of `amount` to an address that is
neither a used address nor the current receive or change address (the
platform-fee address neither) leaves the balance at the balance before minus
`amount` minus the fee `estimateTransactionFee` returns for the same arguments in
the wallet before the send. -/
theorem send_to_foreign_address_balance (env : Env) (node : Node) (w w1 : Wallet)
    (req : SendRequest) (id : TxId)
    (hw : Reachable env w) (hsel : SelectorConservesValue env)
    (hdest : req.address ∉ w.usedAddresses ∧ req.address ≠ getAddress env w false ∧
      req.address ≠ getAddress env w true)
    (hfee : env.csFeeConfig.address ∉ w.usedAddresses ∧
      env.csFeeConfig.address ≠ getAddress env w false ∧
      env.csFeeConfig.address ≠ getAddress env w true)
    (h : createTransaction env node w req = .ok id w1) :
    ∃ F, estimateTransactionFee env w req.address req.amount req.feeRate req.price = .ok F ∧
      w1.balance = w.balance - (req.amount : Int) - (F : Int) := by
  obtain ⟨p, hp, -, rfl⟩ := createTransaction_ok h
  refine ⟨p.fee, by simp [estimateTransactionFee, hp], ?_⟩
  obtain ⟨outs, sel, ho, hs, hin, hf, hch⟩ := prepareTransaction_ok hp
  obtain ⟨hnd, hcons⟩ := hsel _ _ _ _ hs
  have hrem := utxoSum_removeInputs w.utxos sel.selected hnd
  obtain ⟨o, hoa, hov, hout⟩ := requestedOutputs_ok ho
  obtain ⟨hd1, hd2, hd3⟩ := hdest
  obtain ⟨hf1, hf2, hf3⟩ := hfee
  have hb := reachable_balance hw
  rw [afterSend_balance, hf, hin]
  have ho1 : o.address ∉ [getAddress env w false, getAddress env w true] := by
    simp [hoa, hd2, hd3]
  rcases hout with ⟨hc0, rfl⟩ | ⟨hc, f, hfa, hfv, rfl⟩
  · rcases hch with ⟨hz, hpo⟩ | ⟨hz, c, hca, hcv, hpo⟩
    · rw [hpo, applyOutputs_foreign _ _ _ _ _ _ ho1 (by simpa [hoa] using hd1)]
      simp [applyOutputs, hov] at hcons ⊢
      omega
    · rw [hpo, List.singleton_append,
        applyOutputs_foreign _ _ _ _ _ _ ho1 (by simpa [hoa] using hd1),
        applyOutputs_own _ _ _ _ _ _ (by simp [hca])]
      simp [applyOutputs, hov, utxoSum_snoc, hcv] at hcons ⊢
      omega
  · have hf0 : f.address ∉ [getAddress env w false, getAddress env w true] := by
      simp [hfa, hf2, hf3]
    rcases hch with ⟨hz, hpo⟩ | ⟨hz, c, hca, hcv, hpo⟩
    · rw [hpo, applyOutputs_foreign _ _ _ _ _ _ ho1 (by simpa [hoa] using hd1),
        applyOutputs_foreign _ _ _ _ _ _ hf0 (by simpa [hfa] using hf1)]
      simp [applyOutputs, hov, hfv] at hcons ⊢
      omega
    · rw [hpo, List.cons_append, List.cons_append, List.nil_append,
        applyOutputs_foreign _ _ _ _ _ _ ho1 (by simpa [hoa] using hd1),
        applyOutputs_foreign _ _ _ _ _ _ hf0 (by simpa [hfa] using hf1),
        applyOutputs_own _ _ _ _ _ _ (by simp [hca])]
      simp [applyOutputs, hov, hfv, utxoSum_snoc, hcv] at hcons ⊢
      omega

theorem processBatch_marks (infos : List ActiveInfo) (change : Nat) (batch : List Address)
    (w : Wallet) (gap : Nat) (h : MarksOk w) : MarksOk (processBatch infos change batch w gap).1 := by
  induction batch generalizing w gap with
  | nil => exact h
  | cons a rest ih =>
    unfold processBatch
    split
    · split
      · apply ih
        cases hget : mapGet w.addresses a with
        | none => exact h
        | some path =>
          obtain ⟨h1, h2⟩ := h
          unfold MarksOk setLastUsed
          simp only
          split
          · exact ⟨by simp only; omega, h2⟩
          · exact ⟨h1, by simp only; omega⟩
      · exact ih _ _ h
    · exact ih _ _ h

theorem scanBranch_marks (env : Env) (node : Node) (change : Nat) (fuel : Nat) (w w1 : Wallet)
    (batchSize k gap : Nat) (h : MarksOk w)
    (hs : scanBranch env node change fuel w batchSize k gap = .ok () w1) : MarksOk w1 := by
  induction fuel generalizing w batchSize k gap with
  | zero => cases hs
  | succ fuel ih =>
    unfold scanBranch at hs
    split at hs
    · simp only at hs
      split at hs
      · cases hs
      · rename_i infos _
        refine ih _ _ _ _ ?_ hs
        exact processBatch_marks _ _ _ _ _ h
    · cases hs
      exact h

theorem discovery_marks (env : Env) (node : Node) (fuel : Nat) (w w1 : Wallet)
    (hd : discovery env node fuel w = .ok () w1) : MarksOk w1 := by
  unfold discovery at hd
  simp only at hd
  split at hd
  · cases hd
  · cases hd
  · rename_i u wa ha
    have h1 : MarksOk wa := scanBranch_marks _ _ _ _ _ _ _ _ _ (by constructor <;> simp) ha
    split at hd
    · cases hd
    · cases hd
    · rename_i u2 wb hb
      have h2 : MarksOk wb := scanBranch_marks _ _ _ _ _ _ _ _ _ h1 hb
      split at hd
      · split at hd
        · cases hd
        · cases hd
          exact h2
      · cases hd
        exact h2

theorem load_marks {env : Env} {node : Node} {fuel : Nat} {w w1 : Wallet}
    (h : load env node fuel w = .ok () w1) : MarksOk w1 := by
  unfold load at h
  simp only at h
  split at h
  · cases h
  · cases h
  · rename_i u wa ha
    cases h
    have hm := discovery_marks _ _ _ _ _ ha
    exact hm

theorem applyOutputs_marks (id : TxId) (addresses : List Address) (outs : List Output) (i : Nat)
    (w : Wallet) (h : MarksOk w) : MarksOk (applyOutputs id addresses outs i w) := by
  induction outs generalizing i w with
  | nil => exact h
  | cons o rest ih =>
    unfold applyOutputs
    apply ih
    unfold pushOwned markUsed
    obtain ⟨h1, h2⟩ := h
    split <;> split <;> simp only [MarksOk, setLastUsed, lastUsedAt] <;>
      first
        | exact ⟨h1, h2⟩
        | (split <;> constructor <;> simp only <;> omega)

theorem reachable_marks {env : Env} {w : Wallet} (h : Reachable env w) : MarksOk w := by
  induction h with
  | load node fuel w0 w1 h => exact load_marks h
  | send node w0 w1 req id _ h ih =>
    obtain ⟨p, -, -, rfl⟩ := createTransaction_ok h
    exact applyOutputs_marks _ _ _ _ _ ih

/-- C3: in a wallet reached by a load and any number of sends, with a coin
selector that conserves value, distinct current receive and change addresses and
a platform-fee address outside the wallet, a successful send of `amount` to the
current receive address raises the receive mark by one, moves the `address`
getter from index `mark + 1` to index `mark + 2`, and lowers the balance by the fee of
`estimateTransactionFee` (network fee plus platform fee) and nothing else. -/
theorem send_to_own_receive_address (env : Env) (node : Node) (w w1 : Wallet)
    (req : SendRequest) (id : TxId)
    (hw : Reachable env w) (hsel : SelectorConservesValue env)
    (hdest : req.address = address env w)
    (hrc : getAddress env w false ≠ getAddress env w true)
    (hfee : env.csFeeConfig.address ∉ w.usedAddresses ∧
      env.csFeeConfig.address ≠ getAddress env w false ∧
      env.csFeeConfig.address ≠ getAddress env w true)
    (h : createTransaction env node w req = .ok id w1) :
    lastUsedAt w1.lastUsedAddressIndexes 0 = lastUsedAt w.lastUsedAddressIndexes 0 + 1 ∧
    address env w1 =
      env.deriveAddress 0 ((lastUsedAt w.lastUsedAddressIndexes 0 + 1).toNat + 1) ∧
    ∃ F, estimateTransactionFee env w req.address req.amount req.feeRate req.price = .ok F ∧
      w1.balance = w.balance - (F : Int) := by
  obtain ⟨p, hp, -, rfl⟩ := createTransaction_ok h
  obtain ⟨outs, sel, ho, hs, hin, hf, hch⟩ := prepareTransaction_ok hp
  obtain ⟨hnd, hcons⟩ := hsel _ _ _ _ hs
  have hrem := utxoSum_removeInputs w.utxos sel.selected hnd
  obtain ⟨o, hoa, hov, hout⟩ := requestedOutputs_ok ho
  obtain ⟨hf1, hf2, hf3⟩ := hfee
  have hb := reachable_balance hw
  obtain ⟨hm1, -⟩ := reachable_marks hw
  have hoa1 : o.address = getAddress env w false := by rw [hoa, hdest]; rfl
  have ho1 : o.address ∈ [getAddress env w false, getAddress env w true] := by simp [hoa1]
  have hi0 : List.indexOf o.address [getAddress env w false, getAddress env w true] = 0 := by
    simp [hoa1]
  have hmark : ∀ ws : Wallet,
      lastUsedAt ws.lastUsedAddressIndexes 0 = lastUsedAt w.lastUsedAddressIndexes 0 + 1 →
      address env ws =
        env.deriveAddress 0 ((lastUsedAt w.lastUsedAddressIndexes 0 + 1).toNat + 1) := by
    intro ws hws
    unfold address getAddress
    simp only [Bool.false_eq_true, if_false, hws]
    congr 1
    have : -1 ≤ lastUsedAt w.lastUsedAddressIndexes 0 := by simpa [lastUsedAt] using hm1
    omega
  have key : lastUsedAt (afterSend env w p id).lastUsedAddressIndexes 0 =
        lastUsedAt w.lastUsedAddressIndexes 0 + 1 ∧
      (afterSend env w p id).balance = w.balance - (p.fee : Int) := by
    rw [afterSend_balance, hf, hin]
    change lastUsedAt (applyOutputs id [getAddress env w false, getAddress env w true] p.outputs 0
      { w with utxos := removeInputs w.utxos p.inputs }).lastUsedAddressIndexes 0 = _ ∧ _
    rw [hin]
    rcases hout with ⟨hc0, rfl⟩ | ⟨hc, f, hfa, hfv, rfl⟩
    · rcases hch with ⟨hz, hpo⟩ | ⟨hz, c, hca, hcv, hpo⟩
      · rw [hpo, applyOutputs_own _ _ _ _ _ _ ho1, hi0]
        simp [applyOutputs, hov, utxoSum_append, utxoSum_cons, utxoSum_nil, newUtxo_amount, lastUsedAt, setLastUsed] at hcons ⊢
        omega
      · have hi1 : List.indexOf c.address [getAddress env w false, getAddress env w true] = 1 := by
          have hne : (getAddress env w false == getAddress env w true) = false := by
            simpa using hrc
          rw [hca]
          simp [List.indexOf_cons, hne]
        rw [hpo, List.singleton_append, applyOutputs_own _ _ _ _ _ _ ho1, hi0,
          applyOutputs_own _ _ _ _ _ _ (by simp [hca]), hi1]
        simp [applyOutputs, hov, utxoSum_append, utxoSum_cons, utxoSum_nil, newUtxo_amount, hcv, lastUsedAt, setLastUsed] at hcons ⊢
        omega
    · have hf0 : f.address ∉ [getAddress env w false, getAddress env w true] := by
        simp [hfa, hf2, hf3]
      have hfu : f.address ∉ w.usedAddresses ++ [o.address] := by
        simp [hfa, hf1, hoa1, hf2]
      rcases hch with ⟨hz, hpo⟩ | ⟨hz, c, hca, hcv, hpo⟩
      · rw [hpo, applyOutputs_own _ _ _ _ _ _ ho1, hi0,
          applyOutputs_foreign _ _ _ _ _ _ hf0 hfu]
        simp [applyOutputs, hov, hfv, utxoSum_append, utxoSum_cons, utxoSum_nil, newUtxo_amount, lastUsedAt, setLastUsed] at hcons ⊢
        omega
      · have hi1 : List.indexOf c.address [getAddress env w false, getAddress env w true] = 1 := by
          have hne : (getAddress env w false == getAddress env w true) = false := by
            simpa using hrc
          rw [hca]
          simp [List.indexOf_cons, hne]
        rw [hpo, List.cons_append, List.cons_append, List.nil_append,
          applyOutputs_own _ _ _ _ _ _ ho1, hi0,
          applyOutputs_foreign _ _ _ _ _ _ hf0 hfu,
          applyOutputs_own _ _ _ _ _ _ (by simp [hca]), hi1]
        simp [applyOutputs, hov, hfv, utxoSum_append, utxoSum_cons, utxoSum_nil, newUtxo_amount, hcv, lastUsedAt, setLastUsed] at hcons ⊢
        omega
  exact ⟨key.1, hmark _ key.1, p.fee, by simp [estimateTransactionFee, hp], key.2⟩

theorem demoLoaded_reachable : Reachable demoEnv demoLoaded :=
  Reachable.load demoNode 5 demoFresh demoLoaded rfl

theorem demoEnv_conserves : SelectorConservesValue demoEnv := by
  intro utxos outputs rate sel h
  change demoSelect utxos outputs rate = .ok sel at h
  unfold demoSelect at h
  split at h
  · rename_i u rest r
    split at h
    · rename_i hle
      cases h
      refine ⟨by simp, ?_⟩
      simp only [inputUtxos, List.filterMap_cons, List.getElem?_cons_zero, List.filterMap_nil,
        utxoSum, List.map_cons, List.map_nil, List.sum_cons, List.sum_nil, add_zero]
      have hcast : ∀ os : List Output, ((os.map fun o => (o.amount : Int)).sum) =
          (((os.map fun o => o.amount).sum : Nat) : Int) := by
        intro os
        induction os with
        | nil => rfl
        | cons o os ih => simp only [List.map_cons, List.sum_cons, Nat.cast_add, ih]
      rw [hcast]
      omega
    · cases h
  · cases h


/-- Witness of `balance_is_utxo_sum`: the sample wallet after its load and after
a send. -/
theorem balance_is_utxo_sum_witness :
    (load demoEnv demoNode 5 demoFresh = .ok () demoLoaded ∧
      demoLoaded.balance = utxoSum demoLoaded.utxos) ∧
    (createTransaction demoEnv demoNode demoLoaded demoSend = .ok "bb" demoSent ∧
      demoSent.balance = utxoSum demoSent.utxos) :=
  ⟨⟨rfl, balance_is_utxo_sum demoEnv demoNode 5 demoFresh demoLoaded demoSend "bb" (Or.inl rfl)⟩,
    ⟨rfl, balance_is_utxo_sum demoEnv demoNode 5 demoLoaded demoSent demoSend "bb" (Or.inr rfl)⟩⟩

/-- Witness of `send_to_foreign_address_balance`: 1 KAS sent from the sample
wallet costs 1 KAS and the fee of 502000. -/
theorem send_to_foreign_address_balance_witness :
    createTransaction demoEnv demoNode demoLoaded demoSend = .ok "bb" demoSent ∧
    ∃ F, estimateTransactionFee demoEnv demoLoaded demoSend.address demoSend.amount
        demoSend.feeRate demoSend.price = .ok F ∧
      demoSent.balance = demoLoaded.balance - (demoSend.amount : Int) - (F : Int) :=
  ⟨rfl, send_to_foreign_address_balance demoEnv demoNode demoLoaded demoSent demoSend "bb"
    demoLoaded_reachable demoEnv_conserves
    ⟨by decide, by decide, by decide⟩ ⟨by decide, by decide, by decide⟩ rfl⟩

/-- Witness of `send_to_own_receive_address`: 1 KAS sent from the sample wallet
to its own receive address `kaspa:r1`. -/
theorem send_to_own_receive_address_witness :
    createTransaction demoEnv demoNode demoLoaded demoSelfSend = .ok "bb" demoSelfSent ∧
    lastUsedAt demoSelfSent.lastUsedAddressIndexes 0 =
      lastUsedAt demoLoaded.lastUsedAddressIndexes 0 + 1 ∧
    address demoEnv demoSelfSent =
      demoEnv.deriveAddress 0 ((lastUsedAt demoLoaded.lastUsedAddressIndexes 0 + 1).toNat + 1) ∧
    ∃ F, estimateTransactionFee demoEnv demoLoaded demoSelfSend.address demoSelfSend.amount
        demoSelfSend.feeRate demoSelfSend.price = .ok F ∧
      demoSelfSent.balance = demoLoaded.balance - (F : Int) :=
  ⟨rfl, send_to_own_receive_address demoEnv demoNode demoLoaded demoSelfSent demoSelfSend "bb"
    demoLoaded_reachable demoEnv_conserves rfl (by decide)
    ⟨by decide, by decide, by decide⟩ rfl⟩

theorem estimateMaxAmount_ok {env : Env} {w : Wallet} {feeRate : FeeRate} {price : Price}
    {m : Int} (h : estimateMaxAmount env w feeRate price = .ok m) :
    m = 0 ∨ ∃ rate, feeRateOf w feeRate = some rate ∧
      dustThreshold ≤ seedAmount env w rate price ∧
      m = refine env (maxInputs env w) (inputsTotal (maxInputs env w)) rate price 16
        (seedAmount env w rate price) 0 := by
  unfold estimateMaxAmount at h
  split at h
  · cases h; exact Or.inl rfl
  · simp only at h
    split at h
    · cases h; exact Or.inl rfl
    · split at h
      · cases h
      · rename_i rate hr
        split at h
        · cases h; exact Or.inl rfl
        · rename_i hs
          cases h
          exact Or.inr ⟨rate, hr, not_lt.mp hs, rfl⟩

theorem refine_sendable (env : Env) (inputs : List Utxo) (total : Int) (rate : Nat)
    (price : Price) (rounds : Nat) (a best : Int) :
    refine env inputs total rate price rounds a best = best ∨
      Sendable env inputs total rate price (refine env inputs total rate price rounds a best) := by
  induction rounds generalizing a best with
  | zero => exact Or.inl rfl
  | succ n ih =>
    unfold refine
    simp only
    split
    · exact Or.inl rfl
    · rename_i hm
      split
      · exact ih _ _
      · rename_i hw
        have hs : Sendable env inputs total rate price a := ⟨not_lt.mp hm, by omega⟩
        split
        · split
          · exact Or.inr hs
          · exact Or.inl rfl
        · rcases ih (a + (total - a - (env.calculateCsFee a (csFeeOptions price) : Int) -
              (rate : Int) * (env.transactionMass inputs (candidateOutputs a
                (env.calculateCsFee a (csFeeOptions price))) : Int) -
              (env.calculateCsFee (total - a - (env.calculateCsFee a (csFeeOptions price) : Int) -
                (rate : Int) * (env.transactionMass inputs (candidateOutputs a
                  (env.calculateCsFee a (csFeeOptions price))) : Int))
                (wasteFeeOptions price) : Int)))
            (if a > best then a else best) with h | h
          · rw [h]
            split
            · exact Or.inr hs
            · exact Or.inl rfl
          · exact Or.inr h

theorem inputsTotal_eq_utxoSum (inputs : List Utxo) : inputsTotal inputs = utxoSum inputs := by
  simp [inputsTotal, foldl_amount_eq]

theorem utxoSum_nonneg (utxos : List Utxo) : 0 ≤ utxoSum utxos := by
  induction utxos with
  | nil => simp [utxoSum]
  | cons u us ih =>
    rw [utxoSum_cons]
    omega

theorem utxoSum_take_le (utxos : List Utxo) (n : Nat) :
    utxoSum (utxos.take n) ≤ utxoSum utxos := by
  have h := utxoSum_append (utxos.take n) (utxos.drop n)
  rw [List.take_append_drop] at h
  have h2 := utxoSum_nonneg (utxos.drop n)
  omega

theorem maxInputs_total_le (env : Env) (w : Wallet) :
    inputsTotal (maxInputs env w) ≤ calculateBalance w := by
  rw [inputsTotal_eq_utxoSum, calculateBalance_eq_utxoSum]
  unfold maxInputs
  refine le_trans (utxoSum_take_le _ _) (le_of_eq ?_)
  exact utxoSum_perm (List.perm_insertionSort _ _)

/-- C4: when `estimateMaxAmount` returns a positive amount `m`, then `m`, the
platform fee on `m` and the network fee (fee rate times the mass of the inputs
with the outputs built for `m`) fit in the total of the inputs selected, which is
at most the sum of all UTXO amounts, the balance of every wallet reached by a load
and sends, and that mass is within the ceiling. -/
theorem max_amount_within_balance (env : Env) (w : Wallet) (feeRate : FeeRate) (price : Price)
    (m : Int) (h : estimateMaxAmount env w feeRate price = .ok m) (hpos : 0 < m) :
    ∃ rate, feeRateOf w feeRate = some rate ∧
      m + (env.calculateCsFee m (csFeeOptions price) : Int) +
          (rate : Int) * (env.transactionMass (maxInputs env w)
            (candidateOutputs m (env.calculateCsFee m (csFeeOptions price))) : Int)
        ≤ inputsTotal (maxInputs env w) ∧
      inputsTotal (maxInputs env w) ≤ calculateBalance w ∧
      (Reachable env w → inputsTotal (maxInputs env w) ≤ w.balance) ∧
      env.transactionMass (maxInputs env w)
          (candidateOutputs m (env.calculateCsFee m (csFeeOptions price)))
        ≤ env.MAXIMUM_STANDARD_TRANSACTION_MASS := by
  rcases estimateMaxAmount_ok h with h0 | ⟨rate, hr, -, hm⟩
  · omega
  · refine ⟨rate, hr, ?_⟩
    rcases refine_sendable env (maxInputs env w) (inputsTotal (maxInputs env w)) rate price 16
      (seedAmount env w rate price) 0 with h0 | hs
    · omega
    · rw [← hm] at hs
      refine ⟨hs.2, maxInputs_total_le env w, ?_, hs.1⟩
      intro hw
      rw [reachable_balance hw, ← calculateBalance_eq_utxoSum]
      exact maxInputs_total_le env w

/-- Witness of `max_amount_within_balance`: the sample wallet of 5 KAS at fee
rate 1 has the maximum amount 497510446. -/
theorem max_amount_within_balance_witness :
    estimateMaxAmount demoEnv demoLoaded .default 1 = .ok 497510446 ∧
    ∃ rate, feeRateOf demoLoaded .default = some rate ∧
      497510446 + (demoEnv.calculateCsFee 497510446 (csFeeOptions 1) : Int) +
          (rate : Int) * (demoEnv.transactionMass (maxInputs demoEnv demoLoaded)
            (candidateOutputs 497510446 (demoEnv.calculateCsFee 497510446 (csFeeOptions 1))) : Int)
        ≤ inputsTotal (maxInputs demoEnv demoLoaded) ∧
      inputsTotal (maxInputs demoEnv demoLoaded) ≤ calculateBalance demoLoaded ∧
      (Reachable demoEnv demoLoaded →
        inputsTotal (maxInputs demoEnv demoLoaded) ≤ demoLoaded.balance) ∧
      demoEnv.transactionMass (maxInputs demoEnv demoLoaded)
          (candidateOutputs 497510446 (demoEnv.calculateCsFee 497510446 (csFeeOptions 1)))
        ≤ demoEnv.MAXIMUM_STANDARD_TRANSACTION_MASS :=
  ⟨rfl, max_amount_within_balance demoEnv demoLoaded .default 1 497510446 rfl (by decide)⟩

/-- C6: when the amounts of all UTXOs add up to less than 100000000 (the empty
ledger included), `estimateMaxAmount` returns 0 for every tier, also one the
fee-rate table lacks, every price and every environment. -/
theorem max_amount_zero_below_threshold (env : Env) (w : Wallet) (feeRate : FeeRate)
    (price : Price) (h : utxoSum w.utxos < 100000000) :
    estimateMaxAmount env w feeRate price = .ok 0 := by
  unfold estimateMaxAmount
  split
  · rfl
  · have h1 := maxInputs_total_le env w
    rw [calculateBalance_eq_utxoSum] at h1
    have h2 : inputsTotal (maxInputs env w) < dustThreshold := by
      unfold dustThreshold SOMPI_PER_KASPA
      omega
    simp only [h2, if_true]

/-- Witness of `max_amount_zero_below_threshold`: a wallet whose UTXOs add up to
0.9 KAS, asked for a tier without a fee rate. -/
theorem max_amount_zero_below_threshold_witness :
    utxoSum demoDust.utxos < 100000000 ∧
    estimateMaxAmount demoEnv demoDust .fastest 1 = .ok 0 ∧
    estimateMaxAmount demoEnv demoFresh .default 1 = .ok 0 :=
  ⟨by decide, max_amount_zero_below_threshold demoEnv demoDust .fastest 1 (by decide), rfl⟩

theorem estimateMaxAmount_error {env : Env} {w : Wallet} {feeRate : FeeRate} {price : Price}
    {e : WalletError} (h : estimateMaxAmount env w feeRate price = .error e) :
    e = .typeError := by
  unfold estimateMaxAmount at h
  split at h
  · cases h
  · simp only at h
    split at h
    · cases h
    · split at h
      · cases h; rfl
      · split at h <;> cases h

/-- C8: `validateAmount` throws the small-amount error, which carries 100000000,
exactly when the value is below 100000000; from 100000000 on, with `M` the value
of `estimateMaxAmount`, it throws the big-amount error, which carries `M`,
exactly when the value exceeds `M`, and returns `true` exactly when it does not. -/
theorem validateAmount_spec (env : Env) (w : Wallet) (feeRate : FeeRate) (v : Int)
    (price : Price) :
    (validateAmount env w feeRate v price = .error (.smallAmount 100000000) ↔ v < 100000000) ∧
    ∀ M, estimateMaxAmount env w feeRate price = .ok M →
      (validateAmount env w feeRate v price = .error (.bigAmount M) ↔
        100000000 ≤ v ∧ M < v) ∧
      (validateAmount env w feeRate v price = .ok true ↔ 100000000 ≤ v ∧ v ≤ M) := by
  have hd : dustThreshold = 100000000 := rfl
  constructor
  · constructor
    · intro h
      by_contra hv
      unfold validateAmount at h
      rw [hd, if_neg hv] at h
      split at h
      · rename_i e he
        have := estimateMaxAmount_error he
        subst this
        cases h
      · split at h <;> cases h
    · intro hv
      unfold validateAmount
      rw [hd, if_pos hv]
  · intro M hM
    unfold validateAmount
    rw [hd, hM]
    by_cases hv : v < 100000000
    · rw [if_pos hv]
      constructor
      · constructor
        · intro h; cases h
        · intro h; omega
      · constructor
        · intro h; cases h
        · intro h; omega
    · rw [if_neg hv]
      simp only
      by_cases hb : v > M
      · rw [if_pos hb]
        constructor
        · exact ⟨fun _ => ⟨not_lt.mp hv, hb⟩, fun _ => rfl⟩
        · constructor
          · intro h; cases h
          · intro h; omega
      · rw [if_neg hb]
        constructor
        · constructor
          · intro h; cases h
          · intro h; omega
        · exact ⟨fun _ => ⟨not_lt.mp hv, not_lt.mp hb⟩, fun _ => rfl⟩

/-- Witness of `validateAmount_spec`: the sample wallet, whose maximum amount is
497510446, accepts 2 KAS and rejects 0.5 KAS and 5 KAS. -/
theorem validateAmount_spec_witness :
    estimateMaxAmount demoEnv demoLoaded .default 1 = .ok 497510446 ∧
    validateAmount demoEnv demoLoaded .default 200000000 1 = .ok true ∧
    validateAmount demoEnv demoLoaded .default 500000000 1 = .error (.bigAmount 497510446) ∧
    validateAmount demoEnv demoLoaded .default 50000000 1 = .error (.smallAmount 100000000) :=
  ⟨rfl,
    (((validateAmount_spec demoEnv demoLoaded .default 200000000 1).2 497510446 rfl).2).2
      ⟨by decide, by decide⟩,
    (((validateAmount_spec demoEnv demoLoaded .default 500000000 1).2 497510446 rfl).1).2
      ⟨by decide, by decide⟩,
    ((validateAmount_spec demoEnv demoLoaded .default 50000000 1).1).2 (by decide)⟩

theorem refine_greatest (env : Env) (inputs : List Utxo) (total : Int) (rate : Nat)
    (price : Price) (rounds : Nat) (a best : Int) :
    best ≤ refine env inputs total rate price rounds a best ∧
    (∀ c ∈ candidates env inputs total rate price rounds a,
      Sendable env inputs total rate price c →
        c ≤ refine env inputs total rate price rounds a best) ∧
    (refine env inputs total rate price rounds a best = best ∨
      (refine env inputs total rate price rounds a best ∈
          candidates env inputs total rate price rounds a ∧
        Sendable env inputs total rate price
          (refine env inputs total rate price rounds a best))) := by
  induction rounds generalizing a best with
  | zero => exact ⟨le_refl _, by simp [candidates], Or.inl rfl⟩
  | succ n ih =>
    unfold refine candidates
    simp only
    split
    · rename_i hm
      refine ⟨le_refl _, ?_, Or.inl rfl⟩
      intro c hc hs
      rw [List.mem_singleton] at hc
      subst hc
      exact absurd hs.1 (by omega)
    · rename_i hm
      split
      · rename_i hw
        obtain ⟨h1, h2, h3⟩ := ih (a + (total - a - (env.calculateCsFee a (csFeeOptions price) : Int) -
              (rate : Int) * (env.transactionMass inputs (candidateOutputs a
                (env.calculateCsFee a (csFeeOptions price))) : Int))) best
        refine ⟨h1, ?_, ?_⟩
        · intro c hc hs
          rcases List.mem_cons.mp hc with rfl | hc
          · exact absurd hs.2 (by omega)
          · exact h2 c hc hs
        · rcases h3 with h3 | ⟨h3, h4⟩
          · exact Or.inl h3
          · exact Or.inr ⟨List.mem_cons_of_mem _ h3, h4⟩
      · rename_i hw
        have hs : Sendable env inputs total rate price a := ⟨not_lt.mp hm, by omega⟩
        split
        · refine ⟨by split <;> omega, ?_, ?_⟩
          · intro c hc _
            rw [List.mem_singleton] at hc
            subst hc
            split <;> omega
          · split
            · exact Or.inr ⟨List.mem_singleton.mpr rfl, hs⟩
            · exact Or.inl rfl
        · obtain ⟨h1, h2, h3⟩ := ih (a + (total - a - (env.calculateCsFee a (csFeeOptions price) : Int) -
              (rate : Int) * (env.transactionMass inputs (candidateOutputs a
                (env.calculateCsFee a (csFeeOptions price))) : Int) -
              (env.calculateCsFee (total - a - (env.calculateCsFee a (csFeeOptions price) : Int) -
                (rate : Int) * (env.transactionMass inputs (candidateOutputs a
                  (env.calculateCsFee a (csFeeOptions price))) : Int))
                (wasteFeeOptions price) : Int)))
            (if a > best then a else best)
          have hb : best ≤ (if a > best then a else best) ∧ a ≤ (if a > best then a else best) := by
            split <;> omega
          refine ⟨le_trans hb.1 h1, ?_, ?_⟩
          · intro c hc hsc
            rcases List.mem_cons.mp hc with rfl | hc
            · exact le_trans hb.2 h1
            · exact h2 c hc hsc
          · rcases h3 with h3 | ⟨h3, h4⟩
            · rw [h3]
              split
              · exact Or.inr ⟨List.mem_cons_self _ _, hs⟩
              · exact Or.inl rfl
            · exact Or.inr ⟨List.mem_cons_of_mem _ h3, h4⟩

/-- C5, counterexample: the sample wallet (one UTXO of 5 KAS, fee rate 1, mass
2000, platform fee 0.5%) gets 497510446 from `estimateMaxAmount`, which stops at
a waste of 2, while 497510447 is sendable as well. -/
theorem max_amount_not_largest :
    estimateMaxAmount demoEnv demoLoaded .default 1 = .ok 497510446 ∧
    (497510446 : Int) < 497510447 ∧
    Sendable demoEnv (maxInputs demoEnv demoLoaded) (inputsTotal (maxInputs demoEnv demoLoaded))
      1 1 497510447 :=
  ⟨rfl, by decide, by unfold Sendable; decide⟩

/-- C5, amended: the amount `estimateMaxAmount` returns is 0 or a sendable
candidate its loop examined, and no sendable candidate the loop examined is
greater. -/
theorem max_amount_greatest_examined (env : Env) (w : Wallet) (feeRate : FeeRate)
    (price : Price) (m : Int) (rate : Nat)
    (h : estimateMaxAmount env w feeRate price = .ok m)
    (hr : feeRateOf w feeRate = some rate) :
    (m = 0 ∨ (m ∈ examined env w rate price ∧
      Sendable env (maxInputs env w) (inputsTotal (maxInputs env w)) rate price m)) ∧
    ∀ c ∈ examined env w rate price,
      Sendable env (maxInputs env w) (inputsTotal (maxInputs env w)) rate price c → c ≤ m := by
  unfold estimateMaxAmount at h
  split at h
  · rename_i h0
    cases h
    refine ⟨Or.inl rfl, ?_⟩
    have ht : inputsTotal (maxInputs env w) = 0 := by
      have hu : w.utxos = [] := List.length_eq_zero.mp h0
      simp [maxInputs, sortUtxos, hu, inputsTotal]
    have hseed : seedAmount env w rate price < dustThreshold := by
      unfold seedAmount dustThreshold SOMPI_PER_KASPA
      rw [ht]
      have h1 : (0 : Int) ≤ (rate : Int) * (env.MAXIMUM_STANDARD_TRANSACTION_MASS : Int) := by
        positivity
      omega
    simp [examined, hseed]
  · simp only at h
    split at h
    · rename_i ht
      cases h
      refine ⟨Or.inl rfl, ?_⟩
      have hseed : seedAmount env w rate price < dustThreshold := by
        unfold seedAmount
        have h1 : (0 : Int) ≤ (rate : Int) * (env.MAXIMUM_STANDARD_TRANSACTION_MASS : Int) := by
          positivity
        omega
      simp [examined, hseed]
    · rw [hr] at h
      simp only at h
      split at h
      · rename_i hseed
        cases h
        have hseed2 : seedAmount env w rate price < dustThreshold := hseed
        simp [examined, hseed2]
      · rename_i hseed
        cases h
        have hseed2 : ¬ seedAmount env w rate price < dustThreshold := hseed
        obtain ⟨-, h2, h3⟩ := refine_greatest env (maxInputs env w)
          (inputsTotal (maxInputs env w)) rate price 16 (seedAmount env w rate price) 0
        simp only [examined, hseed2, if_false]
        exact ⟨h3, h2⟩

/-- Witness of `max_amount_greatest_examined`: the sample wallet examines
497400500 and 497510446 and returns the second. -/
theorem max_amount_greatest_examined_witness :
    examined demoEnv demoLoaded 1 1 = [497400500, 497510446] ∧
    ((497510446 : Int) = 0 ∨ ((497510446 : Int) ∈ examined demoEnv demoLoaded 1 1 ∧
      Sendable demoEnv (maxInputs demoEnv demoLoaded)
        (inputsTotal (maxInputs demoEnv demoLoaded)) 1 1 497510446)) ∧
    ∀ c ∈ examined demoEnv demoLoaded 1 1,
      Sendable demoEnv (maxInputs demoEnv demoLoaded)
        (inputsTotal (maxInputs demoEnv demoLoaded)) 1 1 c → c ≤ 497510446 :=
  ⟨by decide, max_amount_greatest_examined demoEnv demoLoaded .default 1 497510446 1 rfl rfl⟩

theorem refine_flat (env : Env) (inputs : List Utxo) (T : Int) (r : Nat) (price : Price)
    (M : Nat) (hfee : ∀ v opts, env.calculateCsFee v opts = 0)
    (hmass : ∀ outs, env.transactionMass inputs outs = M)
    (hM : M ≤ env.MAXIMUM_STANDARD_TRANSACTION_MASS) (n : Nat) (a : Int) (ha : 0 < a)
    (hle : 0 ≤ T - a - (r : Int) * (M : Int)) :
    refine env inputs T r price (n + 2) a 0 =
      if T - a - (r : Int) * (M : Int) < 10 then a else T - (r : Int) * (M : Int) := by
  unfold refine
  simp only [hfee, hmass, Nat.cast_zero, sub_zero]
  rw [if_neg (by omega), if_neg (by omega), if_pos ha]
  split
  · rfl
  · unfold refine
    simp only [hfee, hmass, Nat.cast_zero, sub_zero]
    rw [if_neg (by omega), if_neg (by omega), if_pos (by omega)]
    split
    · omega
    · omega

theorem estimateMaxAmount_flat (env : Env) (w : Wallet) (feeRate : FeeRate) (price : Price)
    (r M : Nat) (m : Int) (hfee : ∀ v opts, env.calculateCsFee v opts = 0)
    (hmass : ∀ outs, env.transactionMass (maxInputs env w) outs = M)
    (hr : feeRateOf w feeRate = some r)
    (h : estimateMaxAmount env w feeRate price = .ok m) :
    m = flatValue (inputsTotal (maxInputs env w)) r env.MAXIMUM_STANDARD_TRANSACTION_MASS M := by
  have hp : (0 : Int) ≤ (r : Int) * (env.MAXIMUM_STANDARD_TRANSACTION_MASS : Int) := by
    positivity
  have hd : dustThreshold = 100000000 := rfl
  unfold estimateMaxAmount at h
  unfold flatValue
  split at h
  · rename_i h0
    cases h
    have ht : inputsTotal (maxInputs env w) = 0 := by
      have hu : w.utxos = [] := List.length_eq_zero.mp h0
      simp [maxInputs, sortUtxos, hu, inputsTotal]
    rw [ht, if_pos (by omega)]
  · simp only at h
    split at h
    · rename_i ht
      cases h
      rw [if_pos (by omega)]
    · rw [hr] at h
      simp only [hfee, Nat.cast_zero, sub_zero] at h
      split at h
      · rename_i hs
        cases h
        rw [if_pos hs]
      · rename_i hs
        cases h
        rw [if_neg hs]
        by_cases hMM : M > env.MAXIMUM_STANDARD_TRANSACTION_MASS
        · rw [if_pos hMM]
          unfold refine
          simp only [hfee, hmass]
          rw [if_pos hMM]
        · rw [if_neg hMM]
          have hq : (r : Int) * (M : Int) ≤
              (r : Int) * (env.MAXIMUM_STANDARD_TRANSACTION_MASS : Int) := by
            apply mul_le_mul_of_nonneg_left
            · exact_mod_cast not_lt.mp hMM
            · positivity
          rw [refine_flat env _ _ r price M hfee hmass (not_lt.mp hMM) 14 _ (by omega) (by omega)]
          split <;> split <;> omega

theorem flatValue_antitone (T : Int) (r1 r2 C M : Nat) (hM : 10 ≤ M) (hr : r1 ≤ r2) :
    flatValue T r2 C M ≤ flatValue T r1 C M := by
  have hd : dustThreshold = 100000000 := rfl
  have f3 : (r1 : Int) * (C : Int) ≤ (r2 : Int) * (C : Int) := by
    apply mul_le_mul_of_nonneg_right
    · exact_mod_cast hr
    · positivity
  have f4 : (r1 : Int) * (M : Int) ≤ (r2 : Int) * (M : Int) := by
    apply mul_le_mul_of_nonneg_right
    · exact_mod_cast hr
    · positivity
  unfold flatValue
  by_cases hMC : M > C
  · simp only [hMC, if_true]
    split <;> split <;> omega
  · have f1 : (r1 : Int) * (M : Int) ≤ (r1 : Int) * (C : Int) := by
      apply mul_le_mul_of_nonneg_left
      · exact_mod_cast not_lt.mp hMC
      · positivity
    have f2 : (r2 : Int) * (M : Int) ≤ (r2 : Int) * (C : Int) := by
      apply mul_le_mul_of_nonneg_left
      · exact_mod_cast not_lt.mp hMC
      · positivity
    have f5 : r1 < r2 → (r1 : Int) * (M : Int) + (M : Int) ≤ (r2 : Int) * (M : Int) := by
      intro hlt
      have h6 : ((r1 : Int) + 1) * (M : Int) ≤ (r2 : Int) * (M : Int) := by
        apply mul_le_mul_of_nonneg_right
        · exact_mod_cast hlt
        · positivity
      linarith
    simp only [hMC, if_false]
    rcases Nat.eq_or_lt_of_le hr with heq | hlt
    · subst heq
      exact le_refl _
    · have f6 := f5 hlt
      split_ifs <;> omega

/-- C7, counterexample: with a platform fee of 0.05 KAS charged on amounts of
5 KAS and more, a mass of 2000 and one UTXO of 5.00003 KAS, `estimateMaxAmount`
gives 499903000 at fee rate 1 and 499999000 at fee rate 2. -/
theorem max_amount_not_antitone :
    feeRateOf tierWallet .default = some 1 ∧ feeRateOf tierWallet .fastest = some 2 ∧
    estimateMaxAmount tierEnv tierWallet .default 1 = .ok 499903000 ∧
    estimateMaxAmount tierEnv tierWallet .fastest 1 = .ok 499999000 ∧
    (499903000 : Int) < 499999000 :=
  ⟨rfl, rfl, rfl, rfl, by decide⟩

/-- Without a platform fee: when the platform-fee calculator returns 0 and the
mass of the transaction is the same number, at least 10, whatever the outputs,
`estimateMaxAmount` at a higher fee rate is at most its value at a lower one,
whether the refinement converges or not. -/
theorem max_amount_antitone_flat (env : Env) (w : Wallet) (t1 t2 : FeeRate) (price : Price)
    (r1 r2 M : Nat) (m1 m2 : Int)
    (hfee : ∀ v opts, env.calculateCsFee v opts = 0)
    (hmass : ∀ outs, env.transactionMass (maxInputs env w) outs = M) (hM : 10 ≤ M)
    (h1 : feeRateOf w t1 = some r1) (h2 : feeRateOf w t2 = some r2) (hr : r1 ≤ r2)
    (e1 : estimateMaxAmount env w t1 price = .ok m1)
    (e2 : estimateMaxAmount env w t2 price = .ok m2) : m2 ≤ m1 := by
  rw [estimateMaxAmount_flat env w t1 price r1 M m1 hfee hmass h1 e1,
    estimateMaxAmount_flat env w t2 price r2 M m2 hfee hmass h2 e2]
  exact flatValue_antitone _ _ _ _ _ hM hr

/-- An instance of `max_amount_antitone_flat`: the wallet of 5.00003 KAS without a
platform fee has 500001000 at fee rate 1 and 499999000 at fee rate 2. -/
theorem max_amount_antitone_flat_witness :
    estimateMaxAmount flatEnv tierWallet .default 1 = .ok 500001000 ∧
    estimateMaxAmount flatEnv tierWallet .fastest 1 = .ok 499999000 ∧
    (499999000 : Int) ≤ 500001000 :=
  ⟨rfl, rfl, max_amount_antitone_flat flatEnv tierWallet .default .fastest 1 1 2 2000
    500001000 499999000 (fun _ _ => rfl) (fun _ => rfl) (by decide) rfl rfl (by decide) rfl rfl⟩

theorem SameLedger.refl (w : Wallet) : SameLedger w w := ⟨rfl, rfl, rfl, rfl, rfl⟩

theorem SameLedger.trans {a b c : Wallet} (h1 : SameLedger a b) (h2 : SameLedger b c) :
    SameLedger a c := by
  obtain ⟨a1, a2, a3, a4, a5⟩ := h1
  obtain ⟨b1, b2, b3, b4, b5⟩ := h2
  exact ⟨b1.trans a1, b2.trans a2, b3.trans a3, b4.trans a4, b5.trans a5⟩

theorem processBatch_sameLedger (infos : List ActiveInfo) (change : Nat) (batch : List Address)
    (w : Wallet) (gap : Nat) : SameLedger w (processBatch infos change batch w gap).1 := by
  induction batch generalizing w gap with
  | nil => exact SameLedger.refl w
  | cons a rest ih =>
    unfold processBatch
    split
    · split
      · exact SameLedger.trans ⟨rfl, rfl, rfl, rfl, rfl⟩ (ih _ _)
      · exact ih _ _
    · exact ih _ _

theorem scanBranch_ok_sameLedger (env : Env) (node : Node) (change : Nat) (fuel : Nat)
    (w w1 : Wallet) (batchSize k gap : Nat)
    (hs : scanBranch env node change fuel w batchSize k gap = .ok () w1) : SameLedger w w1 := by
  induction fuel generalizing w batchSize k gap with
  | zero => cases hs
  | succ fuel ih =>
    unfold scanBranch at hs
    split at hs
    · simp only at hs
      split at hs
      · cases hs
      · have h2 := ih _ _ _ _ hs
        refine SameLedger.trans ?_ h2
        refine SameLedger.trans ?_ (processBatch_sameLedger _ _ _ _ _)
        exact ⟨rfl, rfl, rfl, rfl, rfl⟩
    · cases hs
      exact SameLedger.refl _

theorem scanBranch_thrown_sameLedger (env : Env) (node : Node) (change : Nat) (fuel : Nat)
    (w w1 : Wallet) (batchSize k gap : Nat) (e : WalletError)
    (hs : scanBranch env node change fuel w batchSize k gap = .thrown e w1) :
    SameLedger w w1 ∧ ∃ batch, node.active batch = .error e := by
  induction fuel generalizing w batchSize k gap with
  | zero => cases hs
  | succ fuel ih =>
    unfold scanBranch at hs
    split at hs
    · simp only at hs
      split at hs
      · rename_i e1 he
        cases hs
        exact ⟨⟨rfl, rfl, rfl, rfl, rfl⟩, _, he⟩
      · obtain ⟨h1, h2⟩ := ih _ _ _ _ hs
        refine ⟨SameLedger.trans ?_ h1, h2⟩
        refine SameLedger.trans ?_ (processBatch_sameLedger _ _ _ _ _)
        exact ⟨rfl, rfl, rfl, rfl, rfl⟩
    · cases hs

theorem fetchUtxos_error (node : Node) (cs : List (List Address)) (acc : List RawUtxo)
    (e : WalletError) (h : fetchUtxos node cs acc = .error e) :
    ∃ chunk, node.utxos chunk = .error e := by
  induction cs generalizing acc with
  | nil => cases h
  | cons c rest ih =>
    unfold fetchUtxos at h
    split at h
    · rename_i e1 he
      cases h
      exact ⟨c, he⟩
    · exact ih _ h

theorem apiUtxos_error (node : Node) (addresses : List Address) (e : WalletError)
    (h : apiUtxos node addresses = .error e) : ∃ chunk, node.utxos chunk = .error e := by
  unfold apiUtxos at h
  split at h
  · rename_i e1 he
    cases h
    exact fetchUtxos_error _ _ _ _ he
  · cases h

theorem discovery_thrown (env : Env) (node : Node) (fuel : Nat) (w w1 : Wallet)
    (e : WalletError) (h : discovery env node fuel w = .thrown e w1) :
    SameLedger w w1 ∧
      ((∃ batch, node.active batch = .error e) ∨ ∃ chunk, node.utxos chunk = .error e) := by
  unfold discovery at h
  simp only at h
  split at h
  · cases h
  · rename_i e1 wa ha
    cases h
    obtain ⟨h1, h2⟩ := scanBranch_thrown_sameLedger _ _ _ _ _ _ _ _ _ _ ha
    refine ⟨SameLedger.trans ?_ h1, Or.inl h2⟩
    exact ⟨rfl, rfl, rfl, rfl, rfl⟩
  · rename_i u wa ha
    have h1 : SameLedger w wa := by
      refine SameLedger.trans ?_ (scanBranch_ok_sameLedger _ _ _ _ _ _ _ _ _ ha)
      exact ⟨rfl, rfl, rfl, rfl, rfl⟩
    split at h
    · cases h
    · rename_i e2 wb hb
      cases h
      obtain ⟨h2, h3⟩ := scanBranch_thrown_sameLedger _ _ _ _ _ _ _ _ _ _ hb
      exact ⟨SameLedger.trans h1 h2, Or.inl h3⟩
    · rename_i u2 wb hb
      have h2 : SameLedger w wb :=
        SameLedger.trans h1 (scanBranch_ok_sameLedger _ _ _ _ _ _ _ _ _ hb)
      split at h
      · split at h
        · rename_i e3 he
          cases h
          exact ⟨h2, Or.inr (apiUtxos_error _ _ _ he)⟩
        · cases h
      · cases h

/-- C9: the code at the failing input. The sample wallet, which holds one UTXO of
5 KAS from its load, is loaded again while the node reports every address
inactive: the load succeeds with an empty used-address set, and the UTXO and the
balance of 5 KAS are still there. -/
theorem reload_without_activity_keeps_utxos :
    load demoEnv silentNode 5 demoLoaded = .ok () demoStale ∧
    demoStale.usedAddresses = [] ∧
    demoStale.utxos.length = 1 ∧
    demoStale.balance = 500000000 :=
  ⟨rfl, rfl, rfl, rfl⟩

/-- C10, counterexample: the sample wallet is loaded again while the activity
request fails. The error reaches the caller, and the wallet is left with three
address records instead of six, no used address instead of one, and the receive
mark at -1 instead of 0. -/
theorem failed_reload_changes_addresses :
    load demoEnv failingNode 5 demoLoaded = .thrown (.transport "timeout") demoFailed ∧
    demoFailed.addresses ≠ demoLoaded.addresses ∧
    demoFailed.usedAddresses ≠ demoLoaded.usedAddresses ∧
    demoFailed.lastUsedAddressIndexes ≠ demoLoaded.lastUsedAddressIndexes :=
  ⟨rfl, by decide, by decide, by decide⟩

/-- C10, amended: when `load` throws, the error is one a node request threw, the
wallet is in the error state, and the UTXO set, the balance, the persisted
balance and the fee rates are the ones before the call. -/
theorem failed_load_keeps_ledger (env : Env) (node : Node) (fuel : Nat) (w w1 : Wallet)
    (e : WalletError) (h : load env node fuel w = .thrown e w1) :
    ((∃ batch, node.active batch = .error e) ∨ ∃ chunk, node.utxos chunk = .error e) ∧
    w1.state = .error ∧
    w1.utxos = w.utxos ∧ w1.balance = w.balance ∧ w1.storage = w.storage ∧
    w1.feeRates = w.feeRates := by
  unfold load at h
  simp only at h
  split at h
  · cases h
  · rename_i e1 wa ha
    cases h
    obtain ⟨⟨h1, h2, h3, h4, -⟩, h5⟩ := discovery_thrown _ _ _ _ _ _ ha
    exact ⟨h5, rfl, h1, h2, h3, h4⟩
  · cases h

/-- Witness of `failed_load_keeps_ledger`: the reload of the sample wallet
against the failing node. -/
theorem failed_load_keeps_ledger_witness :
    load demoEnv failingNode 5 demoLoaded = .thrown (.transport "timeout") demoFailed ∧
    ((∃ batch, failingNode.active batch = .error (.transport "timeout")) ∨
      ∃ chunk, failingNode.utxos chunk = .error (.transport "timeout")) ∧
    demoFailed.state = .error ∧
    demoFailed.utxos = demoLoaded.utxos ∧ demoFailed.balance = demoLoaded.balance ∧
    demoFailed.storage = demoLoaded.storage ∧ demoFailed.feeRates = demoLoaded.feeRates :=
  ⟨rfl, failed_load_keeps_ledger demoEnv failingNode 5 demoLoaded demoFailed
    (.transport "timeout") rfl⟩

/-- C11, counterexample: the node answers the submission of the sample wallet
with `error: ""` next to a transaction id. The empty string is falsy, so
`createTransaction` succeeds and the wallet changes to `demoSent`. -/
theorem blank_error_is_accepted :
    blankErrorNode.submit demoTx = .ok (some { error := some "", transactionId := "bb" }) ∧
    createTransaction demoEnv blankErrorNode demoLoaded demoSend = .ok "bb" demoSent ∧
    demoSent.utxos ≠ demoLoaded.utxos ∧ demoSent.balance ≠ demoLoaded.balance :=
  ⟨rfl, rfl, by decide, by decide⟩

/-- C11, amended: when the transaction is prepared and signed and the node
answers the submission with an empty body or with a non-empty `error`,
`createTransaction` throws the internal error that carries the transaction, and
the wallet it leaves is the wallet it was given, field by field. -/
theorem rejected_submission_keeps_wallet (env : Env) (node : Node) (w : Wallet)
    (req : SendRequest) (p : Prepared)
    (hp : prepareTransaction env w req.address req.amount req.feeRate req.price = .ok p)
    (hs : env.sign { inputs := inputUtxos w.utxos p.inputs, outputs := p.outputs } = none)
    (hr : node.submit { inputs := inputUtxos w.utxos p.inputs, outputs := p.outputs } = .ok none ∨
      ∃ res msg, node.submit { inputs := inputUtxos w.utxos p.inputs, outputs := p.outputs }
          = .ok (some res) ∧ res.error = some msg ∧ msg ≠ "") :
    ∃ msg, createTransaction env node w req =
      .thrown (.internalWallet msg { inputs := inputUtxos w.utxos p.inputs, outputs := p.outputs })
        w := by
  unfold createTransaction
  simp only [hp, hs]
  rcases hr with hr | ⟨res, msg, hr, he, hm⟩
  · exact ⟨"empty response", by simp [submutTrandsaction, hr]⟩
  · exact ⟨msg, by simp [submutTrandsaction, hr, he, hm]⟩

/-- Witness of `rejected_submission_keeps_wallet`: the sample send against a node
that answers with the error `rejected`, and against one that answers nothing. -/
theorem rejected_submission_keeps_wallet_witness :
    createTransaction demoEnv rejectingNode demoLoaded demoSend =
      .thrown (.internalWallet "rejected" demoTx) demoLoaded ∧
    createTransaction demoEnv muteNode demoLoaded demoSend =
      .thrown (.internalWallet "empty response" demoTx) demoLoaded ∧
    ∃ msg, createTransaction demoEnv rejectingNode demoLoaded demoSend =
      .thrown (.internalWallet msg demoTx) demoLoaded :=
  ⟨rfl, rfl, rejected_submission_keeps_wallet demoEnv rejectingNode demoLoaded demoSend
    { inputs := [0], outputs := demoTx.outputs, fee := 502000 } rfl rfl
    (Or.inr ⟨{ error := some "rejected", transactionId := "" }, "rejected", rfl, rfl,
      by decide⟩)⟩

/-- C20: with `platformFee` the calculator's result for the amount, the outputs
handed to the coin selector are the destination output followed by a platform-fee
output exactly when `platformFee > 0`; a failure of the selector is the error
`estimateTransactionFee` throws; from a selection (whose change output, if any,
can be built) it returns the selector's fee plus `platformFee`; and in every case
the wallet after the call is the wallet before. -/
theorem estimateTransactionFee_spec (env : Env) (w : Wallet) (address : Address) (amount : Nat)
    (feeRate : FeeRate) (price : Price) (outs : List Output)
    (ho : requestedOutputs env address amount (env.calculateCsFee amount (csFeeOptions price))
      = .ok outs) :
    (∃ o, o.address = address ∧ o.amount = amount ∧
      ((env.calculateCsFee amount (csFeeOptions price) = 0 ∧ outs = [o]) ∨
        (0 < env.calculateCsFee amount (csFeeOptions price) ∧
          ∃ f, f.address = env.csFeeConfig.address ∧
            f.amount = env.calculateCsFee amount (csFeeOptions price) ∧ outs = [o, f]))) ∧
    (∀ e, env.select w.utxos outs (feeRateOf w feeRate) = .error e →
      estimateTransactionFeeCall env w address amount feeRate price = .thrown e w) ∧
    (∀ sel, env.select w.utxos outs (feeRateOf w feeRate) = .ok sel →
      (0 < sel.change → env.outScript (getAddress env w true) ≠ none) →
      estimateTransactionFeeCall env w address amount feeRate price =
        .ok (sel.fee + env.calculateCsFee amount (csFeeOptions price)) w) ∧
    (∀ r w1, (estimateTransactionFeeCall env w address amount feeRate price = .ok r w1 ∨
        ∃ e, estimateTransactionFeeCall env w address amount feeRate price = .thrown e w1) →
      w1 = w) := by
  refine ⟨requestedOutputs_ok ho, ?_, ?_, ?_⟩
  · intro e he
    simp [estimateTransactionFeeCall, estimateTransactionFee, prepareTransaction, ho, he]
  · intro sel hsel hch
    unfold estimateTransactionFeeCall estimateTransactionFee prepareTransaction
    simp only [ho, hsel]
    by_cases hc : 0 < sel.change
    · have hsome := hch hc
      cases hos : env.outScript (getAddress env w true) with
      | none => exact absurd hos hsome
      | some script => simp [hc, mkOutput, hos]
    · simp [hc]
  · intro r w1 h
    unfold estimateTransactionFeeCall at h
    rcases h with h | ⟨e, h⟩
    · split at h
      · cases h
      · cases h; rfl
    · split at h
      · cases h; rfl
      · cases h

/-- Witness of `estimateTransactionFee_spec`: the fee of the sample send is the
network fee 2000 plus the platform fee 500000. -/
theorem estimateTransactionFee_spec_witness :
    estimateTransactionFeeCall demoEnv demoLoaded "kaspa:dest" 100000000 .default 1 =
      .ok 502000 demoLoaded ∧
    demoEnv.calculateCsFee 100000000 (csFeeOptions 1) = 500000 ∧
    demoEnv.select demoLoaded.utxos demoRequested (some 1) =
      .ok { selected := [0], fee := 2000, change := 399498000 } :=
  ⟨((estimateTransactionFee_spec demoEnv demoLoaded "kaspa:dest" 100000000 .default 1
      demoRequested rfl).2.2.1
      { selected := [0], fee := 2000, change := 399498000 } rfl (fun _ => by simp [demoEnv])),
    rfl, rfl⟩

/-- C14: the code at the failing input. A wallet whose two UTXOs belong to the
same address `kaspa:r0` gets no list from `getPrivateKey`: the loop meets the
address a second time and the method returns `undefined`. With one UTXO the list
has the one entry. -/
theorem getPrivateKey_repeated_address :
    demoDust.utxos.map (fun u => u.address) = ["kaspa:r0", "kaspa:r0"] ∧
    getPrivateKey demoAccount demoDust = .ok none ∧
    getPrivateKey demoAccount demoLoaded =
      .ok (some [{ address := "kaspa:r0", privatekey := "4af6" }]) :=
  ⟨rfl, rfl, rfl⟩

theorem inputValue_foldl (w : Wallet) (inputs : List RawInput) (a : Int) :
    inputs.foldl
      (fun acc input =>
        if hasAddress w input.previous_outpoint_address then
          acc + (input.previous_outpoint_amount : Int)
        else acc) a =
    a + ((inputs.filter fun i => hasAddress w i.previous_outpoint_address).map
      fun i => (i.previous_outpoint_amount : Int)).sum := by
  induction inputs generalizing a with
  | nil => simp
  | cons i rest ih =>
    simp only [List.foldl_cons, ih, List.filter_cons]
    split <;> simp [add_assoc]

theorem outputValues_foldl (w : Wallet) (outputs : List RawOutput) (a : Int × Int) :
    outputs.foldl
      (fun acc output =>
        if hasAddress w output.script_public_key_address then
          (acc.1 + (output.amount : Int), acc.2)
        else if output.csfee = true then (acc.1, acc.2 + (output.amount : Int))
        else acc) a =
    (a.1 + ((outputs.filter fun o => hasAddress w o.script_public_key_address).map
        fun o => (o.amount : Int)).sum,
      a.2 + ((outputs.filter fun o =>
          !hasAddress w o.script_public_key_address && o.csfee).map
        fun o => (o.amount : Int)).sum) := by
  induction outputs generalizing a with
  | nil => simp
  | cons o rest ih =>
    simp only [List.foldl_cons, ih, List.filter_cons]
    by_cases h1 : hasAddress w o.script_public_key_address = true
    · simp [h1, add_assoc]
    · by_cases h2 : o.csfee = true
      · simp [h1, h2, add_assoc]
      · simp [h1, h2]

theorem sum_foldl_int {α : Type} (f : α → Int) (l : List α) (a : Int) :
    l.foldl (fun accum x => accum + f x) a = a + (l.map f).sum := by
  induction l generalizing a with
  | nil => simp
  | cons x rest ih => simp only [List.foldl_cons, ih, List.map_cons, List.sum_cons]; ring

theorem inputValue_eq (w : Wallet) (tx : RawTx) (ins : List RawInput)
    (hi : tx.inputs = some ins) : inputValue w ins = ownedInputs w tx := by
  simp [inputValue, ownedInputs, hi, inputValue_foldl]

theorem outputValues_eq (w : Wallet) (tx : RawTx) :
    outputValues w tx.outputs = (ownedOutputs w tx, foreignPlatformFee w tx) := by
  simp [outputValues, ownedOutputs, foreignPlatformFee, outputValues_foldl]

theorem minerFee_eq (tx : RawTx) (ins : List RawInput) (hi : tx.inputs = some ins) :
    minerFee tx = inputsMinusOutputs tx := by
  simp [minerFee, inputsMinusOutputs, hi, sum_foldl_int]

theorem foreignPlatformFee_eq_flagged (w : Wallet) (tx : RawTx)
    (h : ∀ o ∈ tx.outputs, o.csfee = true → hasAddress w o.script_public_key_address = false) :
    foreignPlatformFee w tx = flaggedPlatformFee tx := by
  unfold foreignPlatformFee flaggedPlatformFee
  congr 2
  apply List.filter_congr
  intro o ho
  by_cases hc : o.csfee = true
  · simp [hc, h o ho hc]
  · simp [hc]

/-- The record of an entry whose inputs are shown. -/
theorem reconcile_some (w : Wallet) (tx : RawTx) (ins : List RawInput)
    (hi : tx.inputs = some ins) :
    reconcile w tx =
      if ownedOutputs w tx - ownedInputs w tx > 0 then
        .ok { incoming := true
              status := if tx.is_accepted then TxStatus.success else TxStatus.pending
              id := tx.transaction_id, amount := ownedOutputs w tx - ownedInputs w tx
              toAddress := none, fee := foreignPlatformFee w tx + inputsMinusOutputs tx
              timestamp := tx.block_time
              confirmations := if tx.is_accepted then 10 else 0 }
      else
        match tx.outputs.head? with
        | none => .error .typeError
        | some first =>
          .ok { incoming := false
                status := if tx.is_accepted then TxStatus.success else TxStatus.pending
                id := tx.transaction_id
                amount := -1 * (ownedOutputs w tx - ownedInputs w tx) -
                  (foreignPlatformFee w tx + inputsMinusOutputs tx)
                toAddress := some first.script_public_key_address
                fee := foreignPlatformFee w tx + inputsMinusOutputs tx
                timestamp := tx.block_time
                confirmations := if tx.is_accepted then 10 else 0 } := by
  unfold reconcile
  simp only [hi, inputValue_eq w tx ins hi, outputValues_eq, minerFee_eq tx ins hi]

/-- The direction rule for an entry whose inputs are shown, with `net` the
wallet-owned output amounts minus the wallet-owned input amounts: if `net > 0`
the record is incoming with amount `net`; otherwise, the entry having a first
output, the record is outgoing with amount `-net - (platformFeeValue + minerFee)`
and is addressed to the first output, where `platformFeeValue` is the value the
reconciliation computes; that value is the sum over all flagged outputs when none
of them pays a wallet address. -/
theorem reconcile_direction (w : Wallet) (tx : RawTx) (ins : List RawInput)
    (hi : tx.inputs = some ins) :
    (0 < ownedOutputs w tx - ownedInputs w tx →
      ∃ r, reconcile w tx = .ok r ∧ r.incoming = true ∧
        r.amount = ownedOutputs w tx - ownedInputs w tx) ∧
    (ownedOutputs w tx - ownedInputs w tx ≤ 0 →
      ∀ first rest, tx.outputs = first :: rest →
        ∃ r, reconcile w tx = .ok r ∧ r.incoming = false ∧
          r.amount = -(ownedOutputs w tx - ownedInputs w tx) -
            (foreignPlatformFee w tx + inputsMinusOutputs tx) ∧
          r.toAddress = some first.script_public_key_address ∧
          ((∀ o ∈ tx.outputs, o.csfee = true →
              hasAddress w o.script_public_key_address = false) →
            r.amount = -(ownedOutputs w tx - ownedInputs w tx) -
              (flaggedPlatformFee tx + inputsMinusOutputs tx))) := by
  rw [reconcile_some w tx ins hi]
  constructor
  · intro hpos
    rw [if_pos hpos]
    exact ⟨_, rfl, rfl, rfl⟩
  · intro hneg first rest ho
    rw [if_neg (by omega), ho]
    refine ⟨_, rfl, rfl, by simp only; ring, rfl, ?_⟩
    intro hf
    rw [← ho] at hf
    rw [← foreignPlatformFee_eq_flagged w tx hf]
    simp only
    ring

/-- An instance of `reconcile_direction`: the sample wallet sees `sendEntry` as an
outgoing record of 3 KAS to `kaspa:dest`. -/
theorem reconcile_direction_witness :
    ownedOutputs demoLoaded sendEntry - ownedInputs demoLoaded sendEntry = -320000000 ∧
    ∃ r, reconcile demoLoaded sendEntry = .ok r ∧ r.incoming = false ∧
      r.amount = 300000000 ∧ r.toAddress = some "kaspa:dest" := by
  refine ⟨by decide, ?_⟩
  obtain ⟨r, h1, h2, h3, h4, -⟩ :=
    (reconcile_direction demoLoaded sendEntry _ rfl).2 (by decide) _ _ rfl
  refine ⟨r, h1, h2, ?_, h4⟩
  rw [h3]
  decide

/-- C15: the code at the failing input. `hiddenInputsEntry` pays 5 KAS to the
wallet address `kaspa:r0` and has no `inputs` property: the wallet-owned outputs
exceed the wallet-owned inputs by 500000000, so the record is to be incoming with
that amount, and the reconciliation throws instead. With an input list, also an
empty one, the record is there, and the rule of the claim holds for every entry
with an input list. -/
theorem direction_rule_throws_without_inputs :
    hiddenInputsEntry.inputs = none ∧
    ownedOutputs demoLoaded hiddenInputsEntry - ownedInputs demoLoaded hiddenInputsEntry =
      500000000 ∧
    reconcile demoLoaded hiddenInputsEntry = .error .typeError ∧
    (∃ r, reconcile demoLoaded noInputsEntry = .ok r ∧ r.incoming = true ∧
      r.amount = 500000000) ∧
    ∀ (w : Wallet) (tx : RawTx) (ins : List RawInput), tx.inputs = some ins →
      (0 < ownedOutputs w tx - ownedInputs w tx →
        ∃ r, reconcile w tx = .ok r ∧ r.incoming = true ∧
          r.amount = ownedOutputs w tx - ownedInputs w tx) ∧
      (ownedOutputs w tx - ownedInputs w tx ≤ 0 →
        ∀ first rest, tx.outputs = first :: rest →
          ∃ r, reconcile w tx = .ok r ∧ r.incoming = false ∧
            r.amount = -(ownedOutputs w tx - ownedInputs w tx) -
              (foreignPlatformFee w tx + inputsMinusOutputs tx) ∧
            r.toAddress = some first.script_public_key_address) := by
  refine ⟨rfl, by decide, rfl, ⟨_, rfl, rfl, by decide⟩, ?_⟩
  intro w tx ins hi
  obtain ⟨h1, h2⟩ := reconcile_direction w tx ins hi
  refine ⟨h1, fun hneg first rest ho => ?_⟩
  obtain ⟨r, r1, r2, r3, r4, -⟩ := h2 hneg first rest ho
  exact ⟨r, r1, r2, r3, r4⟩

/-- C16: the code at the failing inputs. For an entry without an `inputs`
property the reconciliation throws; for the same entry with an empty input list
it returns a record whose fee is minus the output amount. -/
theorem reconcile_without_inputs :
    reconcile demoLoaded hiddenInputsEntry = .error .typeError ∧
    minerFee noInputsEntry = -500000000 ∧
    (∃ r, reconcile demoLoaded noInputsEntry = .ok r ∧ r.incoming = true ∧
      r.amount = 500000000 ∧ r.fee = -500000000) :=
  ⟨rfl, by decide, ⟨_, rfl, rfl, by decide, by decide⟩⟩

/-- C17, counterexample: in `feeToWalletEntry` the output flagged as platform fee
(1 KAS) pays the wallet address `kaspa:r1`; the record's fee is the miner fee of
0.1 KAS alone, not 1.1 KAS. -/
theorem fee_skips_flagged_output_to_wallet :
    flaggedPlatformFee feeToWalletEntry = 100000000 ∧
    inputsMinusOutputs feeToWalletEntry = 10000000 ∧
    (∃ r, reconcile demoLoaded feeToWalletEntry = .ok r ∧ r.fee = 10000000) ∧
    (10000000 : Int) ≠ 100000000 + 10000000 :=
  ⟨by decide, by decide, ⟨_, rfl, by decide⟩, by decide⟩

/-- C17, amended: the fee of the record of an entry, incoming or outgoing, is the
sum of the amounts of the flagged outputs that do not pay a wallet address, plus
the amounts of all inputs minus the amounts of all outputs; when no flagged
output pays a wallet address, the first sum is over all flagged outputs. -/
theorem reconcile_fee (w : Wallet) (tx : RawTx) (r : TxRecord)
    (h : reconcile w tx = .ok r) :
    r.fee = foreignPlatformFee w tx + inputsMinusOutputs tx ∧
    ((∀ o ∈ tx.outputs, o.csfee = true → hasAddress w o.script_public_key_address = false) →
      r.fee = flaggedPlatformFee tx + inputsMinusOutputs tx) := by
  have key : r.fee = foreignPlatformFee w tx + inputsMinusOutputs tx := by
    cases hi : tx.inputs with
    | none => simp [reconcile, hi] at h
    | some ins =>
      rw [reconcile_some w tx ins hi] at h
      split at h
      · cases h; rfl
      · split at h
        · cases h
        · cases h; rfl
  exact ⟨key, fun hf => by rw [key, foreignPlatformFee_eq_flagged w tx hf]⟩

/-- Witness of `reconcile_fee`: the fee of the record of `sendEntry` is the
platform fee 0.1 KAS plus the miner fee 0.1 KAS. -/
theorem reconcile_fee_witness :
    ∃ r, reconcile demoLoaded sendEntry = .ok r ∧
      r.fee = foreignPlatformFee demoLoaded sendEntry + inputsMinusOutputs sendEntry ∧
      r.fee = 20000000 :=
  ⟨_, rfl, (reconcile_fee demoLoaded sendEntry _ rfl).1, by decide⟩

theorem compareEntries_total (a b : RawTx) :
    compareEntries a b ≤ 0 ∨ compareEntries b a ≤ 0 := by
  unfold compareEntries
  split_ifs <;> omega

theorem compareEntries_trans (a b c : RawTx) (h1 : compareEntries a b ≤ 0)
    (h2 : compareEntries b c ≤ 0) : compareEntries a c ≤ 0 := by
  unfold compareEntries at *
  split_ifs at * <;> omega

theorem compareEntries_le (a b : RawTx) (h : compareEntries a b ≤ 0) :
    a.is_accepted = false ∨
      (a.is_accepted = true ∧ b.is_accepted = true ∧ b.block_time ≤ a.block_time) := by
  unfold compareEntries at h
  split_ifs at h with h1 h2
  · exact Or.inl h1
  · omega
  · refine Or.inr ⟨by simpa using h1, by simpa using h2, by omega⟩

theorem reconcile_status {w : Wallet} {tx : RawTx} {r : TxRecord}
    (h : reconcile w tx = .ok r) :
    r.status = (if tx.is_accepted then TxStatus.success else TxStatus.pending) ∧
      r.timestamp = tx.block_time ∧ r.id = tx.transaction_id := by
  cases hi : tx.inputs with
  | none => simp [reconcile, hi] at h
  | some ins =>
    rw [reconcile_some w tx ins hi] at h
    split at h
    · cases h; exact ⟨rfl, rfl, rfl⟩
    · split at h
      · cases h
      · cases h; exact ⟨rfl, rfl, rfl⟩

theorem reconcileEach_forall₂ {w : Wallet} {es : List RawTx} {rs : List TxRecord}
    (h : reconcileEach w es = .ok rs) :
    List.Forall₂ (fun e r => reconcile w e = .ok r) es rs := by
  induction es generalizing rs with
  | nil =>
    cases h
    exact List.Forall₂.nil
  | cons e rest ih =>
    unfold reconcileEach at h
    split at h
    · cases h
    · rename_i r hr
      split at h
      · cases h
      · rename_i rs1 hrs
        cases h
        exact List.Forall₂.cons hr (ih hrs)

theorem historyOrder_of_sorted {w : Wallet} {es : List RawTx} {rs : List TxRecord}
    (h : List.Forall₂ (fun e r => reconcile w e = .ok r) es rs)
    (hs : es.Pairwise (fun a b => compareEntries a b ≤ 0)) : rs.Pairwise HistoryOrder := by
  induction h with
  | nil => exact List.Pairwise.nil
  | cons hr _ ih =>
    rename_i e r es1 rs1 hrest
    rw [List.pairwise_cons] at hs ⊢
    refine ⟨?_, ih hs.2⟩
    intro r2 hr2
    obtain ⟨e2, he2, hre2⟩ : ∃ e2, e2 ∈ es1 ∧ reconcile w e2 = .ok r2 := by
      clear ih hs
      induction hrest with
      | nil => cases hr2
      | cons hx _ ihx =>
        rcases List.mem_cons.mp hr2 with rfl | hm
        · exact ⟨_, List.mem_cons_self _ _, hx⟩
        · obtain ⟨e3, h3, h4⟩ := ihx hm
          exact ⟨e3, List.mem_cons_of_mem _ h3, h4⟩
    obtain ⟨s1, t1, -⟩ := reconcile_status hr
    obtain ⟨s2, t2, -⟩ := reconcile_status hre2
    rcases compareEntries_le e e2 (hs.1 e2 he2) with hp | ⟨ha, hb, ht⟩
    · exact Or.inl (by rw [s1, hp]; rfl)
    · exact Or.inr ⟨by rw [s1, ha]; rfl, by rw [s2, hb]; rfl, by rw [t1, t2]; exact ht⟩

theorem compareEntries_opposite (a b : RawTx) (h : 0 ≤ compareEntries a b) :
    compareEntries b a ≤ 0 := by
  unfold compareEntries at h ⊢
  split_ifs at h ⊢ <;> omega

theorem insertBelow_perm (cmp : RawTx → RawTx → Int) (x : RawTx) (l : List RawTx) :
    (insertBelow cmp x l).Perm (x :: l) := by
  induction l with
  | nil => exact List.Perm.refl _
  | cons y rest ih =>
    unfold insertBelow
    split
    · exact List.Perm.refl _
    · exact (List.Perm.cons y ih).trans (List.Perm.swap x y rest)

theorem insertBelow_sorted (cmp : RawTx → RawTx → Int)
    (hopp : ∀ a b, 0 ≤ cmp a b → cmp b a ≤ 0)
    (htrans : ∀ a b c, cmp a b ≤ 0 → cmp b c ≤ 0 → cmp a c ≤ 0)
    (x : RawTx) (l : List RawTx) (hl : l.Pairwise (fun a b => cmp a b ≤ 0)) :
    (insertBelow cmp x l).Pairwise (fun a b => cmp a b ≤ 0) := by
  induction l with
  | nil => simp [insertBelow]
  | cons y rest ih =>
    rw [List.pairwise_cons] at hl
    unfold insertBelow
    split
    · rename_i hlt
      rw [List.pairwise_cons]
      refine ⟨?_, List.pairwise_cons.mpr hl⟩
      intro z hz
      rcases List.mem_cons.mp hz with rfl | hz
      · exact le_of_lt hlt
      · exact htrans x y z (le_of_lt hlt) (hl.1 z hz)
    · rename_i hge
      rw [List.pairwise_cons]
      refine ⟨?_, ih hl.2⟩
      intro z hz
      rcases List.mem_cons.mp ((insertBelow_perm cmp x rest).subset hz) with rfl | hz
      · exact hopp _ _ (not_lt.mp hge)
      · exact hl.1 z hz

theorem foldl_insertBelow (cmp : RawTx → RawTx → Int) (l sorted : List RawTx) :
    (l.foldl (fun sorted x => insertBelow cmp x sorted) sorted).Perm (sorted ++ l) ∧
      ((∀ a b, 0 ≤ cmp a b → cmp b a ≤ 0) →
        (∀ a b c, cmp a b ≤ 0 → cmp b c ≤ 0 → cmp a c ≤ 0) →
        sorted.Pairwise (fun a b => cmp a b ≤ 0) →
        (l.foldl (fun sorted x => insertBelow cmp x sorted) sorted).Pairwise
          (fun a b => cmp a b ≤ 0)) := by
  induction l generalizing sorted with
  | nil => exact ⟨by simp, fun _ _ h => h⟩
  | cons x rest ih =>
    rw [List.foldl_cons]
    obtain ⟨i1, i2⟩ := ih (insertBelow cmp x sorted)
    refine ⟨?_, fun hopp htrans hs => i2 hopp htrans (insertBelow_sorted cmp hopp htrans x _ hs)⟩
    refine i1.trans ?_
    refine ((insertBelow_perm cmp x sorted).append_right rest).trans ?_
    simp only [List.cons_append]
    exact List.perm_middle.symm

/-- The insertion sort that stands for the sort of the engine returns a
permutation, whatever the comparator. -/
theorem insertionSortBelow_permutes : SortPermutes insertionSortBelow := by
  intro cmp l
  simpa [insertionSortBelow] using (foldl_insertBelow cmp l []).1

/-- The insertion sort that stands for the sort of the engine meets what is
assumed of `Array.prototype.sort`. -/
theorem insertionSortBelow_sortsByComparator : SortsByComparator insertionSortBelow := by
  intro cmp l hopp htrans
  exact ⟨insertionSortBelow_permutes cmp l,
    (foldl_insertBelow cmp l []).2 hopp htrans List.Pairwise.nil⟩

theorem stableSort_sortsByComparator : SortsByComparator stableSort := by
  intro cmp l hopp htrans
  haveI : IsTotal RawTx (fun a b => cmp a b ≤ 0) :=
    ⟨fun a b => by
      by_cases h : cmp a b ≤ 0
      · exact Or.inl h
      · exact Or.inr (hopp a b (by omega))⟩
  haveI : IsTrans RawTx (fun a b => cmp a b ≤ 0) := ⟨htrans⟩
  exact ⟨List.perm_insertionSort _ _, List.sorted_insertionSort _ _⟩

/-- C18: with a runtime sort that orders by the comparator, which the comparator
of `#loadTransactions` allows for every list of entries: the sorted list is a
permutation of the entries in which every entry that is not accepted yet stands
before every accepted one and the accepted ones are in non-increasing time; the
records `#loadTransactions` returns are the records of that list, one by one, so
no accepted record stands before one that is not accepted yet and the accepted
records are in non-increasing time. -/
theorem history_is_ordered (sort : (RawTx → RawTx → Int) → List RawTx → List RawTx)
    (request : List Address → Except WalletError (List RawTx)) (w : Wallet)
    (hsort : SortsByComparator sort) :
    (∀ entries, (sort compareEntries entries).Perm entries ∧
      (sort compareEntries entries).Pairwise EntryOrder) ∧
    ∀ rs, loadAllTransactions sort request w = .ok rs →
      ∃ entries, getTransactions request w.usedAddresses = .ok entries ∧
        List.Forall₂ (fun e r => reconcile w e = .ok r) (sort compareEntries entries) rs ∧
        rs.Pairwise HistoryOrder := by
  have key : ∀ entries, (sort compareEntries entries).Perm entries ∧
      (sort compareEntries entries).Pairwise (fun a b => compareEntries a b ≤ 0) :=
    fun entries => hsort compareEntries entries compareEntries_opposite compareEntries_trans
  refine ⟨fun entries =>
    ⟨(key entries).1, (key entries).2.imp (fun {a b} h => compareEntries_le a b h)⟩, ?_⟩
  intro rs h
  unfold loadAllTransactions at h
  split at h
  · cases h
  · rename_i entries he
    have hf := reconcileEach_forall₂ h
    exact ⟨entries, he, hf, historyOrder_of_sorted hf (key entries).2⟩

/-- Witness of `history_is_ordered`, with the insertion sort that stands for the
sort of the engine: four entries, two of them not accepted yet, are sorted with
the two pending ones first and the accepted ones by falling time, and the sample
history comes out with the pending record first. -/
theorem history_is_ordered_witness :
    insertionSortBelow compareEntries
        [sendEntry, pendingEntryA, feeToWalletEntry, pendingEntryB] =
      [pendingEntryB, pendingEntryA, feeToWalletEntry, sendEntry] ∧
    ((insertionSortBelow compareEntries
        [sendEntry, pendingEntryA, feeToWalletEntry, pendingEntryB]).Perm
        [sendEntry, pendingEntryA, feeToWalletEntry, pendingEntryB] ∧
      (insertionSortBelow compareEntries
        [sendEntry, pendingEntryA, feeToWalletEntry, pendingEntryB]).Pairwise EntryOrder) ∧
    loadAllTransactions insertionSortBelow demoHistory demoLoaded = .ok demoHistoryRecords ∧
    ∃ entries, getTransactions demoHistory demoLoaded.usedAddresses = .ok entries ∧
      List.Forall₂ (fun e r => reconcile demoLoaded e = .ok r)
        (insertionSortBelow compareEntries entries) demoHistoryRecords ∧
      demoHistoryRecords.Pairwise HistoryOrder :=
  ⟨by decide,
    (history_is_ordered insertionSortBelow demoHistory demoLoaded
      insertionSortBelow_sortsByComparator).1
      [sendEntry, pendingEntryA, feeToWalletEntry, pendingEntryB],
    rfl,
    (history_is_ordered insertionSortBelow demoHistory demoLoaded
      insertionSortBelow_sortsByComparator).2 demoHistoryRecords rfl⟩

/-- C19: the code at the failing input. For two entries that are not accepted yet
the comparator answers -1 in both orders, so it asks for each of them to stand
before the other; an insertion sort that puts an element before the first one it
compares below returns them in reversed order. -/
theorem pending_entries_compare_both_ways :
    pendingEntryA.is_accepted = false ∧ pendingEntryB.is_accepted = false ∧
    compareEntries pendingEntryA pendingEntryB = -1 ∧
    compareEntries pendingEntryB pendingEntryA = -1 ∧
    insertionSortBelow compareEntries [pendingEntryA, pendingEntryB] =
      [pendingEntryB, pendingEntryA] :=
  ⟨rfl, rfl, by decide, by decide, by decide⟩

theorem processBatch_graft (infos : List ActiveInfo) (change : Nat) (batch : List Address)
    (l w : Wallet) (gap : Nat) :
    processBatch infos change batch (graft l w) gap =
      (graft l (processBatch infos change batch w gap).1,
        (processBatch infos change batch w gap).2) := by
  induction batch generalizing w gap with
  | nil => rfl
  | cons a rest ih =>
    unfold processBatch
    split
    · split
      · exact ih
          { w with
            usedAddresses := w.usedAddresses ++ [a]
            lastUsedAddressIndexes :=
              match mapGet w.addresses a with
              | some path => setLastUsed w.lastUsedAddressIndexes change path.2
              | none => w.lastUsedAddressIndexes } 0
      · exact ih w (gap + 1)
    · exact ih w (gap + 1)

theorem scanBranch_graft (env : Env) (node : Node) (change : Nat) (fuel : Nat)
    (l w w1 : Wallet) (batchSize k gap : Nat)
    (hs : scanBranch env node change fuel w batchSize k gap = .ok () w1) :
    scanBranch env node change fuel (graft l w) batchSize k gap = .ok () (graft l w1) := by
  induction fuel generalizing w batchSize k gap with
  | zero => cases hs
  | succ fuel ih =>
    unfold scanBranch at hs ⊢
    split at hs
    · rename_i hg
      rw [if_pos hg]
      simp only at hs ⊢
      split at hs
      · cases hs
      · rename_i infos hi
        have hi2 : node.active (deriveBatch env change batchSize k [] (graft l w).addresses).1
            = .ok infos := hi
        rw [hi2]
        simp only
        have hp := processBatch_graft infos change
          (deriveBatch env change batchSize k [] w.addresses).1 l
          { w with addresses := (deriveBatch env change batchSize k [] w.addresses).2.1 } gap
        have ih2 := ih _ _ _ _ hs
        change scanBranch env node change fuel
          (processBatch infos change (deriveBatch env change batchSize k [] w.addresses).1
            (graft l { w with
              addresses := (deriveBatch env change batchSize k [] w.addresses).2.1 }) gap).1
          (min (batchSize + 1) BIP44_BATCH_SIZE_MAX)
          (deriveBatch env change batchSize k [] w.addresses).2.2
          (processBatch infos change (deriveBatch env change batchSize k [] w.addresses).1
            (graft l { w with
              addresses := (deriveBatch env change batchSize k [] w.addresses).2.1 }) gap).2
          = _
        rw [hp]
        exact ih2
    · rename_i hg
      rw [if_neg hg]
      cases hs
      rfl

/-- C13: when a discovery pass succeeds from some wallet, a pass against the same
node succeeds from every wallet, in particular from the wallet the first pass
left, and ends with the same used addresses, the same two marks and the same
address records. -/
theorem discovery_idempotent (env : Env) (node : Node) (fuel : Nat) (w w1 : Wallet)
    (h : discovery env node fuel w = .ok () w1) :
    (∀ w0, ∃ w2, discovery env node fuel w0 = .ok () w2 ∧
      w2.usedAddresses = w1.usedAddresses ∧
      w2.lastUsedAddressIndexes = w1.lastUsedAddressIndexes ∧
      w2.addresses = w1.addresses) ∧
    ∃ w2, discovery env node fuel w1 = .ok () w2 ∧
      w2.usedAddresses = w1.usedAddresses ∧
      w2.lastUsedAddressIndexes = w1.lastUsedAddressIndexes := by
  have key : ∀ w0, ∃ w2, discovery env node fuel w0 = .ok () w2 ∧
      w2.usedAddresses = w1.usedAddresses ∧
      w2.lastUsedAddressIndexes = w1.lastUsedAddressIndexes ∧
      w2.addresses = w1.addresses := by
    intro w0
    unfold discovery at h ⊢
    simp only at h ⊢
    split at h
    · cases h
    · cases h
    · rename_i u wa ha
      have ha0 := scanBranch_graft env node 0 fuel w0 _ _ _ _ _ ha
      change scanBranch env node 0 fuel
        { w0 with addresses := [], usedAddresses := [], lastUsedAddressIndexes := (-1, -1) }
        BIP44_BATCH_SIZE 0 0 = _ at ha0
      rw [ha0]
      simp only
      split at h
      · cases h
      · cases h
      · rename_i u2 wb hb
        have hb0 := scanBranch_graft env node 1 fuel w0 _ _ _ _ _ hb
        rw [hb0]
        simp only
        change (if wb.usedAddresses.length ≠ 0 then _ else _) = _ at h
        change ∃ w2, (if wb.usedAddresses.length ≠ 0 then
            match apiUtxos node wb.usedAddresses with
            | .error e => Outcome.thrown e (graft w0 wb)
            | .ok utxos =>
              Outcome.ok ()
                { graft w0 wb with
                  utxos := utxos.map fun item =>
                    { item with bip32DerivationPath := mapGet wb.addresses item.address } }
          else Outcome.ok () (graft w0 wb)) = Outcome.ok () w2 ∧ _
        by_cases hu : wb.usedAddresses.length ≠ 0
        · rw [if_pos hu] at h ⊢
          split at h
          · cases h
          · rename_i utxos hx
            cases h
            exact ⟨_, rfl, rfl, rfl, rfl⟩
        · rw [if_neg hu] at h ⊢
          cases h
          exact ⟨_, rfl, rfl, rfl, rfl⟩
  refine ⟨key, ?_⟩
  obtain ⟨w2, h1, h2, h3, -⟩ := key w1
  exact ⟨w2, h1, h2, h3⟩

/-- Witness of `discovery_idempotent`: the discovery of the sample wallet, run
once more on the wallet it left. -/
theorem discovery_idempotent_witness :
    discovery demoEnv demoNode 5 demoFresh =
      .ok () { demoLoaded with balance := 0, storage := none, state := .initialized } ∧
    ∃ w2, discovery demoEnv demoNode 5
        { demoLoaded with balance := 0, storage := none, state := .initialized } = .ok () w2 ∧
      w2.usedAddresses = ["kaspa:r0"] ∧ w2.lastUsedAddressIndexes = (0, -1) :=
  ⟨rfl, (discovery_idempotent demoEnv demoNode 5 demoFresh
    { demoLoaded with balance := 0, storage := none, state := .initialized } rfl).2⟩

theorem mapGet_mapSet (m : List (Address × (Nat × Nat))) (key a : Address) (v : Nat × Nat) :
    mapGet (mapSet m key v) a = if a = key then some v else mapGet m a := by
  induction m with
  | nil =>
    by_cases h : a = key
    · simp [mapSet, mapGet, List.lookup, h]
    · have hb : (a == key) = false := by simpa using h
      simp [mapSet, mapGet, List.lookup, h, hb]
  | cons p rest ih =>
    obtain ⟨k, x⟩ := p
    unfold mapSet
    by_cases hk : k = key
    · subst hk
      by_cases h : a = k
      · simp [mapGet, List.lookup, h]
      · have hb : (a == k) = false := by simpa using h
        simp [mapGet, List.lookup, h, hb]
    · simp only [hk, if_false]
      by_cases h : a = k
      · subst h
        simp [mapGet, List.lookup, hk]
      · have hb : (a == k) = false := by simpa using h
        have ih2 := ih
        simp only [mapGet] at ih2 ⊢
        simp [List.lookup, hb, ih2]

theorem deriveBatch_spec (env : Env) (hinj : DerivationInjective env) (b : Nat) (n k : Nat)
    (acc : List Address) (m : List (Address × (Nat × Nat))) :
    (deriveBatch env b n k acc m).1 = acc ++ (List.range' k n).map (env.deriveAddress b) ∧
    (deriveBatch env b n k acc m).2.2 = k + n ∧
    (∀ a, (∀ j, k ≤ j → j < k + n → a ≠ env.deriveAddress b j) →
      mapGet (deriveBatch env b n k acc m).2.1 a = mapGet m a) ∧
    (∀ j, k ≤ j → j < k + n →
      mapGet (deriveBatch env b n k acc m).2.1 (env.deriveAddress b j) = some (b, j)) := by
  induction n generalizing k acc m with
  | zero =>
    refine ⟨by simp [deriveBatch], by simp [deriveBatch], fun _ _ => rfl, ?_⟩
    intro j h1 h2
    omega
  | succ n ih =>
    unfold deriveBatch
    simp only
    obtain ⟨h1, h2, h3, h4⟩ := ih (k + 1) (acc ++ [env.deriveAddress b k])
      (mapSet m (env.deriveAddress b k) (b, k))
    refine ⟨?_, ?_, ?_, ?_⟩
    · rw [h1, List.range'_succ]
      simp
    · rw [h2]
      omega
    · intro a ha
      rw [h3 a (fun j hj1 hj2 => ha j (by omega) (by omega)), mapGet_mapSet,
        if_neg (ha k (le_refl _) (by omega))]
    · intro j hj1 hj2
      rcases Nat.eq_or_lt_of_le hj1 with heq | hlt
      · subst heq
        rw [h3 _ (fun j hj3 _ hc => by have := (hinj _ _ _ _ hc).2; omega), mapGet_mapSet,
          if_pos rfl]
      · exact h4 j (by omega) (by omega)

theorem processBatch_addresses (infos : List ActiveInfo) (change : Nat) (batch : List Address)
    (w : Wallet) (gap : Nat) :
    (processBatch infos change batch w gap).1.addresses = w.addresses := by
  induction batch generalizing w gap with
  | nil => rfl
  | cons a rest ih =>
    unfold processBatch
    split
    · split
      · rw [ih]
      · exact ih _ _
    · exact ih _ _

theorem lastUsedAt_setLastUsed (p : Int × Int) (b : Nat) (v : Int) :
    lastUsedAt (setLastUsed p b v) b = v := by
  unfold lastUsedAt setLastUsed
  split <;> simp [*]

theorem lastUsedAt_setLastUsed_other (p : Int × Int) (b b1 : Nat) (v : Int)
    (h : (b = 0 ∧ b1 ≠ 0) ∨ (b ≠ 0 ∧ b1 = 0)) :
    lastUsedAt (setLastUsed p b v) b1 = lastUsedAt p b1 := by
  unfold lastUsedAt setLastUsed
  rcases h with ⟨h1, h2⟩ | ⟨h1, h2⟩ <;> simp [h1, h2]

theorem processBatch_branch (env : Env) (hinj : DerivationInjective env)
    (infos : List ActiveInfo) (b : Nat) (n j : Nat) (w : Wallet) (gap : Nat)
    (hR : Recorded env b (j + n) w) (hU : UsedBelow env b j w) (hM : MarkIsGreatest env b w) :
    UsedBelow env b (j + n)
        (processBatch infos b ((List.range' j n).map (env.deriveAddress b)) w gap).1 ∧
      MarkIsGreatest env b
        (processBatch infos b ((List.range' j n).map (env.deriveAddress b)) w gap).1 := by
  induction n generalizing j w gap with
  | zero => exact ⟨by simpa [processBatch] using hU, by simpa [processBatch] using hM⟩
  | succ n ih =>
    have hskip : ∀ g, UsedBelow env b (j + (n + 1))
          (processBatch infos b ((List.range' (j + 1) n).map (env.deriveAddress b)) w g).1 ∧
        MarkIsGreatest env b
          (processBatch infos b ((List.range' (j + 1) n).map (env.deriveAddress b)) w g).1 := by
      intro g
      have h := ih (j + 1) w g (fun i hi => hR i (by omega))
        (fun k hk => Nat.lt_succ_of_lt (hU k hk)) hM
      rw [show j + 1 + n = j + (n + 1) by omega] at h
      exact h
    rw [List.range'_succ, List.map_cons]
    unfold processBatch
    split
    · split
      · have hrec : mapGet w.addresses (env.deriveAddress b j) = some (b, j) :=
          hR j (by omega)
        simp only [hrec]
        have h := ih (j + 1)
          { w with
            usedAddresses := w.usedAddresses ++ [env.deriveAddress b j]
            lastUsedAddressIndexes := setLastUsed w.lastUsedAddressIndexes b (j : Int) } 0
          (fun i hi => hR i (by omega))
          (by
            intro k hk
            simp only [List.mem_append, List.mem_singleton] at hk
            rcases hk with hk | hk
            · exact Nat.lt_succ_of_lt (hU k hk)
            · have := (hinj _ _ _ _ hk).2
              omega)
          (by
            constructor
            · intro k hk
              simp only [List.mem_append, List.mem_singleton] at hk
              simp only [lastUsedAt_setLastUsed]
              rcases hk with hk | hk
              · have := hU k hk
                omega
              · have := (hinj _ _ _ _ hk).2
                omega
            · right
              exact ⟨j, by simp only [lastUsedAt_setLastUsed], by simp⟩)
        rw [show j + 1 + n = j + (n + 1) by omega] at h
        exact h
      · exact hskip _
    · exact hskip _

theorem processBatch_other (env : Env) (hinj : DerivationInjective env)
    (infos : List ActiveInfo) (b b1 : Nat) (hb : (b = 0 ∧ b1 ≠ 0) ∨ (b ≠ 0 ∧ b1 = 0))
    (batch : List Address) (hall : ∀ a ∈ batch, ∃ j, a = env.deriveAddress b j)
    (w : Wallet) (gap : Nat) :
    (∀ k, env.deriveAddress b1 k ∈ (processBatch infos b batch w gap).1.usedAddresses ↔
      env.deriveAddress b1 k ∈ w.usedAddresses) ∧
    lastUsedAt (processBatch infos b batch w gap).1.lastUsedAddressIndexes b1 =
      lastUsedAt w.lastUsedAddressIndexes b1 := by
  have hne : b ≠ b1 := by
    rcases hb with ⟨h1, h2⟩ | ⟨h1, h2⟩ <;> omega
  induction batch generalizing w gap with
  | nil => exact ⟨fun _ => Iff.rfl, rfl⟩
  | cons a rest ih =>
    have hrest : ∀ x ∈ rest, ∃ j, x = env.deriveAddress b j :=
      fun x hx => hall x (List.mem_cons_of_mem _ hx)
    unfold processBatch
    split
    · split
      · obtain ⟨h1, h2⟩ := ih hrest
          { w with
            usedAddresses := w.usedAddresses ++ [a]
            lastUsedAddressIndexes :=
              match mapGet w.addresses a with
              | some path => setLastUsed w.lastUsedAddressIndexes b path.2
              | none => w.lastUsedAddressIndexes } 0
        refine ⟨?_, ?_⟩
        · intro k
          rw [h1 k]
          simp only [List.mem_append, List.mem_singleton]
          constructor
          · rintro (h | h)
            · exact h
            · obtain ⟨j, hj⟩ := hall a (List.mem_cons_self _ _)
              rw [hj] at h
              exact absurd (hinj _ _ _ _ h).1 (Ne.symm hne)
          · exact fun h => Or.inl h
        · rw [h2]
          simp only
          split
          · exact lastUsedAt_setLastUsed_other _ _ _ _ hb
          · rfl
      · exact ih hrest w (gap + 1)
    · exact ih hrest w (gap + 1)

theorem scanBranch_branch (env : Env) (hinj : DerivationInjective env) (node : Node)
    (b : Nat) (fuel : Nat) (w w1 : Wallet) (batchSize k gap : Nat)
    (hR : Recorded env b k w) (hU : UsedBelow env b k w) (hM : MarkIsGreatest env b w)
    (hs : scanBranch env node b fuel w batchSize k gap = .ok () w1) :
    MarkIsGreatest env b w1 := by
  induction fuel generalizing w batchSize k gap with
  | zero => cases hs
  | succ fuel ih =>
    unfold scanBranch at hs
    split at hs
    · simp only at hs
      split at hs
      · cases hs
      · rename_i infos hi
        obtain ⟨d1, d2, d3, d4⟩ := deriveBatch_spec env hinj b batchSize k [] w.addresses
        rw [d1, d2, List.nil_append] at hs
        have hR1 : Recorded env b (k + batchSize)
            { w with addresses := (deriveBatch env b batchSize k [] w.addresses).2.1 } := by
          intro j hj
          by_cases hjk : j < k
          · have := d3 (env.deriveAddress b j)
              (fun i hi1 _ hc => by have := (hinj _ _ _ _ hc).2; omega)
            simp only
            rw [this]
            exact hR j hjk
          · exact d4 j (by omega) hj
        obtain ⟨hU2, hM2⟩ := processBatch_branch env hinj infos b batchSize k
          { w with addresses := (deriveBatch env b batchSize k [] w.addresses).2.1 } gap
          hR1 hU hM
        refine ih _ _ _ _ ?_ hU2 hM2 hs
        intro j hj
        rw [processBatch_addresses]
        exact hR1 j hj
    · cases hs
      exact hM

theorem scanBranch_other (env : Env) (hinj : DerivationInjective env) (node : Node)
    (b b1 : Nat) (hb : (b = 0 ∧ b1 ≠ 0) ∨ (b ≠ 0 ∧ b1 = 0)) (fuel : Nat) (w w1 : Wallet)
    (batchSize k gap : Nat)
    (hs : scanBranch env node b fuel w batchSize k gap = .ok () w1) :
    (∀ i, env.deriveAddress b1 i ∈ w1.usedAddresses ↔
      env.deriveAddress b1 i ∈ w.usedAddresses) ∧
    lastUsedAt w1.lastUsedAddressIndexes b1 = lastUsedAt w.lastUsedAddressIndexes b1 := by
  induction fuel generalizing w batchSize k gap with
  | zero => cases hs
  | succ fuel ih =>
    unfold scanBranch at hs
    split at hs
    · simp only at hs
      split at hs
      · cases hs
      · rename_i infos hi
        obtain ⟨d1, -, -, -⟩ := deriveBatch_spec env hinj b batchSize k [] w.addresses
        obtain ⟨h1, h2⟩ := ih _ _ _ _ hs
        obtain ⟨p1, p2⟩ := processBatch_other env hinj infos b b1 hb
          (deriveBatch env b batchSize k [] w.addresses).1
          (by
            intro a ha
            rw [d1, List.nil_append, List.mem_map] at ha
            obtain ⟨j, -, hj⟩ := ha
            exact ⟨j, hj.symm⟩)
          { w with addresses := (deriveBatch env b batchSize k [] w.addresses).2.1 } gap
        exact ⟨fun i => (h1 i).trans (p1 i), h2.trans p2⟩
    · cases hs
      exact ⟨fun _ => Iff.rfl, rfl⟩

theorem markIsGreatest_of_same (env : Env) (b : Nat) (w w1 : Wallet)
    (h1 : ∀ i, env.deriveAddress b i ∈ w1.usedAddresses ↔ env.deriveAddress b i ∈ w.usedAddresses)
    (h2 : lastUsedAt w1.lastUsedAddressIndexes b = lastUsedAt w.lastUsedAddressIndexes b)
    (hM : MarkIsGreatest env b w) : MarkIsGreatest env b w1 := by
  obtain ⟨m1, m2⟩ := hM
  refine ⟨fun k hk => by rw [h2]; exact m1 k ((h1 k).mp hk), ?_⟩
  rcases m2 with m2 | ⟨k, m2, m3⟩
  · exact Or.inl (by rw [h2]; exact m2)
  · exact Or.inr ⟨k, by rw [h2]; exact m2, (h1 k).mpr m3⟩

theorem discovery_scan (env : Env) (node : Node) (fuel : Nat) (w w1 : Wallet)
    (h : discovery env node fuel w = .ok () w1) :
    ∃ wa wb, scanBranch env node 0 fuel
        { w with addresses := [], usedAddresses := [], lastUsedAddressIndexes := (-1, -1) }
        BIP44_BATCH_SIZE 0 0 = .ok () wa ∧
      scanBranch env node 1 fuel wa BIP44_BATCH_SIZE 0 0 = .ok () wb ∧
      w1.usedAddresses = wb.usedAddresses ∧
      w1.lastUsedAddressIndexes = wb.lastUsedAddressIndexes := by
  unfold discovery at h
  simp only at h
  split at h
  · cases h
  · cases h
  · rename_i u wa ha
    split at h
    · cases h
    · cases h
    · rename_i u2 wb hb
      refine ⟨wa, wb, ha, hb, ?_⟩
      split at h
      · split at h
        · cases h
        · cases h
          exact ⟨rfl, rfl⟩
      · cases h
        exact ⟨rfl, rfl⟩

/-- C12: with a derivation that gives distinct addresses for distinct paths,
after a successful discovery the mark of each branch is at least the index of
every used address of the branch and is the index of one of them, or -1 when the
branch has none; hence the `address` getter returns the receive address at index
0 when no receive address is used, and at index `k + 1` when `k` is the greatest
index of a used receive address. -/
theorem discovery_marks_are_greatest (env : Env) (node : Node) (fuel : Nat) (w w1 : Wallet)
    (hinj : DerivationInjective env) (h : discovery env node fuel w = .ok () w1) :
    MarkIsGreatest env 0 w1 ∧ MarkIsGreatest env 1 w1 ∧
    ((∀ k, env.deriveAddress 0 k ∉ w1.usedAddresses) →
      address env w1 = env.deriveAddress 0 0) ∧
    (∀ k, env.deriveAddress 0 k ∈ w1.usedAddresses →
      (∀ j, env.deriveAddress 0 j ∈ w1.usedAddresses → j ≤ k) →
      address env w1 = env.deriveAddress 0 (k + 1)) := by
  obtain ⟨wa, wb, ha, hb, hu, hm⟩ := discovery_scan env node fuel w w1 h
  have start0 : MarkIsGreatest env 0
      { w with addresses := [], usedAddresses := [], lastUsedAddressIndexes := (-1, -1) } :=
    ⟨fun k hk => by simp at hk, Or.inl rfl⟩
  have start1 : MarkIsGreatest env 1
      { w with addresses := [], usedAddresses := [], lastUsedAddressIndexes := (-1, -1) } :=
    ⟨fun k hk => by simp at hk, Or.inl rfl⟩
  have a0 : MarkIsGreatest env 0 wa :=
    scanBranch_branch env hinj node 0 fuel _ wa _ 0 0 (fun j hj => by omega)
      (fun k hk => by simp at hk) start0 ha
  obtain ⟨o1, o2⟩ := scanBranch_other env hinj node 0 1 (Or.inl ⟨rfl, by decide⟩) fuel _ wa _ _ _ ha
  have a1 : MarkIsGreatest env 1 wa := markIsGreatest_of_same env 1 _ wa o1 o2 start1
  have b1 : MarkIsGreatest env 1 wb :=
    scanBranch_branch env hinj node 1 fuel wa wb _ 0 0 (fun j hj => by omega)
      (fun k hk => by
        have := a1.1 k hk
        rw [o2] at this
        simp [lastUsedAt] at this
        omega)
      a1 hb
  obtain ⟨q1, q2⟩ := scanBranch_other env hinj node 1 0 (Or.inr ⟨by decide, rfl⟩) fuel wa wb _ _ _ hb
  have b0 : MarkIsGreatest env 0 wb := markIsGreatest_of_same env 0 wa wb q1 q2 a0
  have f0 : MarkIsGreatest env 0 w1 :=
    markIsGreatest_of_same env 0 wb w1 (fun i => by rw [hu]) (by rw [hm]) b0
  have f1 : MarkIsGreatest env 1 w1 :=
    markIsGreatest_of_same env 1 wb w1 (fun i => by rw [hu]) (by rw [hm]) b1
  refine ⟨f0, f1, ?_, ?_⟩
  · intro hnone
    rcases f0.2 with hm1 | ⟨k, -, hk⟩
    · unfold address getAddress
      simp only [Bool.false_eq_true, if_false, hm1]
      rfl
    · exact absurd hk (hnone k)
  · intro k hk hmax
    have h1 := f0.1 k hk
    rcases f0.2 with hm1 | ⟨k2, hk2, hk3⟩
    · omega
    · have h2 := hmax k2 hk3
      unfold address getAddress
      simp only [Bool.false_eq_true, if_false, hk2]
      congr 1
      omega



theorem unaryAddress_injective : DerivationInjective gapEnv := by
  intro b k b1 k1 h
  change unaryAddress b k = unaryAddress b1 k1 at h
  unfold unaryAddress at h
  have hl := congrArg String.data h
  simp only at hl
  have hc := congrArg (List.count 'c') hl
  have hi := congrArg (List.count 'i') hl
  simp [List.count_replicate] at hc hi
  exact ⟨hc, hi⟩

/-- Witness of `discovery_marks_are_greatest`: the receive addresses 0 and 2 are
active and 1 is not; the receive mark is 2, the change mark -1, and the `address`
getter gives the receive address at index 3. -/
theorem discovery_marks_are_greatest_witness :
    discovery gapEnv gapNode 5 demoFresh = .ok () gapScanned ∧
    gapScanned.lastUsedAddressIndexes = (2, -1) ∧
    address gapEnv gapScanned = "kaspa:iii" ∧
    MarkIsGreatest gapEnv 0 gapScanned ∧ MarkIsGreatest gapEnv 1 gapScanned :=
  ⟨rfl, rfl, rfl,
    (discovery_marks_are_greatest gapEnv gapNode 5 demoFresh gapScanned
      unaryAddress_injective rfl).1,
    (discovery_marks_are_greatest gapEnv gapNode 5 demoFresh gapScanned
      unaryAddress_injective rfl).2.1⟩

theorem applyOutputs_spec (id : TxId) (addresses : List Address) (outs : List Output) (i : Nat)
    (w : Wallet) :
    (applyOutputs id addresses outs i w).utxos =
        w.utxos ++ ((outs.enumFrom i).filter fun p =>
          decide (p.2.address ∈ w.usedAddresses ∨ p.2.address ∈ addresses)).map
          (fun p => newUtxo id p.1 p.2) ∧
      (applyOutputs id addresses outs i w).usedAddresses =
        w.usedAddresses ++ (outs.filter fun o => decide (o.address ∈ addresses)).map
          (fun o => o.address) ∧
      (applyOutputs id addresses outs i w).addresses = w.addresses := by
  induction outs generalizing i w with
  | nil => simp [applyOutputs]
  | cons o rest ih =>
    unfold applyOutputs
    obtain ⟨h1, h2, h3⟩ := ih (i + 1) (pushOwned id i o (markUsed addresses o w))
    rw [h1, h2, h3]
    by_cases ha : o.address ∈ addresses
    · have hf : ∀ p : Nat × Output,
          (decide (p.2.address ∈ w.usedAddresses) || decide (p.2.address = o.address) ||
            decide (p.2.address ∈ addresses)) =
          (decide (p.2.address ∈ w.usedAddresses) || decide (p.2.address ∈ addresses)) := by
        intro p
        by_cases h1 : p.2.address ∈ w.usedAddresses
        · simp [h1]
        · by_cases h2 : p.2.address = o.address
          · simp [h2, ha]
          · simp [h1, h2]
      simp [pushOwned, markUsed, ha, List.enumFrom, hf]
    · by_cases hu : o.address ∈ w.usedAddresses
      · simp [pushOwned, markUsed, ha, hu, List.enumFrom]
      · simp [pushOwned, markUsed, ha, hu, List.enumFrom]

/-- C21: after a successful `createTransaction` the ledger is the previous ledger
without the elements at the selected positions, the others in their order,
followed by one new UTXO for every output of the transaction whose address is in
the used-address set the send leaves, in output order; the new UTXO holds the
returned id, the position of the output, its amount and script and the score 0.
The used-address set the send leaves is the previous one and the current receive
and change addresses that an output pays. -/
theorem createTransaction_utxo_set (env : Env) (node : Node) (w w1 : Wallet)
    (req : SendRequest) (id : TxId)
    (h : createTransaction env node w req = .ok id w1) :
    ∃ p, prepareTransaction env w req.address req.amount req.feeRate req.price = .ok p ∧
      w1.utxos =
        ((w.utxos.enum.filter fun q => q.1 ∉ p.inputs).map Prod.snd) ++
          ((p.outputs.enum.filter fun q => decide (q.2.address ∈ w1.usedAddresses)).map fun q =>
            { address := q.2.address
              utxo :=
                { transactionId := id, index := q.1, amount := q.2.amount, script := q.2.script
                  daaScore := 0 }
              bip32DerivationPath := none }) ∧
      (∀ a, a ∈ w1.usedAddresses ↔
        a ∈ w.usedAddresses ∨
          ((a = getAddress env w false ∨ a = getAddress env w true) ∧
            ∃ o ∈ p.outputs, o.address = a)) := by
  obtain ⟨p, hp, -, rfl⟩ := createTransaction_ok h
  refine ⟨p, hp, ?_⟩
  obtain ⟨h1, h2, -⟩ := applyOutputs_spec id
    [getAddress env { w with utxos := removeInputs w.utxos p.inputs } false,
      getAddress env { w with utxos := removeInputs w.utxos p.inputs } true]
    p.outputs 0 { w with utxos := removeInputs w.utxos p.inputs }
  have hu : ∀ a, a ∈ (afterSend env w p id).usedAddresses ↔
      a ∈ w.usedAddresses ∨
        ((a = getAddress env w false ∨ a = getAddress env w true) ∧
          ∃ o ∈ p.outputs, o.address = a) := by
    intro a
    change a ∈ (applyOutputs id _ p.outputs 0 _).usedAddresses ↔ _
    rw [h2]
    simp only [List.mem_append, List.mem_map, List.mem_filter, decide_eq_true_eq,
      List.mem_cons, List.mem_singleton, List.not_mem_nil, or_false]
    constructor
    · rintro (hx | ⟨o, ⟨ho, hoa⟩, rfl⟩)
      · exact Or.inl hx
      · exact Or.inr ⟨hoa, o, ho, rfl⟩
    · rintro (hx | ⟨hoa, o, ho, rfl⟩)
      · exact Or.inl hx
      · exact Or.inr ⟨o, ⟨ho, hoa⟩, rfl⟩
  refine ⟨?_, hu⟩
  change (applyOutputs id _ p.outputs 0 _).utxos = _
  rw [h1]
  congr 1
  change List.map (fun q : Nat × Output => newUtxo id q.1 q.2) _ = List.map (fun q : Nat × Output => newUtxo id q.1 q.2) _
  congr 1
  apply List.filter_congr
  intro q hq
  have hmem : q.2 ∈ p.outputs := by
    have := (List.mem_enumFrom hq).2.2
    rw [this]
    exact List.getElem_mem _
  simp only [decide_eq_decide]
  rw [hu q.2.address]
  simp only [List.mem_cons, List.mem_singleton, List.not_mem_nil, or_false]
  constructor
  · rintro (hx | hx)
    · exact Or.inl hx
    · exact Or.inr ⟨hx, q.2, hmem, rfl⟩
  · rintro (hx | ⟨hx, -⟩)
    · exact Or.inl hx
    · exact Or.inr hx

/-- Witness of `createTransaction_utxo_set`: the send of the sample wallet to its
own receive address, which leaves the self-paid output and the change in the
ledger and nothing for the platform-fee output. -/
theorem createTransaction_utxo_set_witness :
    createTransaction demoEnv demoNode demoLoaded demoSelfSend = .ok "bb" demoSelfSent ∧
    ∃ p, prepareTransaction demoEnv demoLoaded demoSelfSend.address demoSelfSend.amount
        demoSelfSend.feeRate demoSelfSend.price = .ok p ∧
      demoSelfSent.utxos =
        ((demoLoaded.utxos.enum.filter fun q => q.1 ∉ p.inputs).map Prod.snd) ++
          ((p.outputs.enum.filter fun q =>
              decide (q.2.address ∈ demoSelfSent.usedAddresses)).map fun q =>
            { address := q.2.address
              utxo :=
                { transactionId := "bb", index := q.1, amount := q.2.amount
                  script := q.2.script, daaScore := 0 }
              bip32DerivationPath := none }) ∧
      (∀ a, a ∈ demoSelfSent.usedAddresses ↔
        a ∈ demoLoaded.usedAddresses ∨
          ((a = getAddress demoEnv demoLoaded false ∨ a = getAddress demoEnv demoLoaded true) ∧
            ∃ o ∈ p.outputs, o.address = a)) :=
  ⟨rfl, createTransaction_utxo_set demoEnv demoNode demoLoaded demoSelfSent demoSelfSend "bb" rfl⟩

theorem sendAll_reachable (env : Env) (node : Node) (w w1 : Wallet) (reqs : List SendRequest)
    (hw : Reachable env w) (h : sendAll env node w reqs = some w1) : Reachable env w1 := by
  induction reqs generalizing w with
  | nil =>
    cases h
    exact hw
  | cons req rest ih =>
    unfold sendAll at h
    split at h
    · rename_i id w2 hc
      exact ih w2 (Reachable.send node w w2 req id hw hc) h
    · cases h

/-- C22: the code at the failing inputs. The sample wallet after its load and one
send holds the change of the send as a UTXO without a derivation index, and
`getPrivateKey` throws on it; after four such sends the change UTXO sits at the
change address of index 3, beyond the batch the discovery scanned, and that
address has no record. -/
theorem sent_utxo_has_no_derivation_index :
    Reachable demoEnv demoSent ∧
    (∃ u ∈ demoSent.utxos, u.bip32DerivationPath = none) ∧
    getPrivateKey demoAccount demoSent = .error .typeError ∧
    ∃ w, sendAll demoEnv demoNode demoLoaded [demoSend, demoSend, demoSend, demoSend] = some w ∧
      Reachable demoEnv w ∧
      ∃ u ∈ w.utxos, u.address = "kaspa:c3" ∧ mapGet w.addresses u.address = none := by
  refine ⟨Reachable.send demoNode demoLoaded demoSent demoSend "bb" demoLoaded_reachable rfl,
    ⟨_, List.mem_cons_self _ _, rfl⟩, rfl, ?_⟩
  have hs : sendAll demoEnv demoNode demoLoaded [demoSend, demoSend, demoSend, demoSend] =
      some { balance := 97992000, addresses := demoRecords
             usedAddresses := ["kaspa:r0", "kaspa:c0", "kaspa:c1", "kaspa:c2", "kaspa:c3"]
             lastUsedAddressIndexes := (0, 3)
             utxos := [{ address := "kaspa:c3"
                         utxo := { transactionId := "bb", index := 2, amount := 97992000
                                   script := "kaspa:c3", daaScore := 0 }
                         bip32DerivationPath := none }]
             feeRates := [(.default, 1)], storage := some 97992000, state := .loaded } := by
    rfl
  exact ⟨_, hs, sendAll_reachable _ _ _ _ _ demoLoaded_reachable hs,
    _, List.mem_cons_self _ _, rfl, rfl⟩

theorem applyOutputs_marks_mono (id : TxId) (addresses : List Address) (outs : List Output)
    (i : Nat) (w : Wallet) :
    w.lastUsedAddressIndexes.1 ≤ (applyOutputs id addresses outs i w).lastUsedAddressIndexes.1 ∧
      w.lastUsedAddressIndexes.2 ≤
        (applyOutputs id addresses outs i w).lastUsedAddressIndexes.2 := by
  induction outs generalizing i w with
  | nil => exact ⟨le_refl _, le_refl _⟩
  | cons o rest ih =>
    unfold applyOutputs
    obtain ⟨h1, h2⟩ := ih (i + 1) (pushOwned id i o (markUsed addresses o w))
    have hstep : w.lastUsedAddressIndexes.1 ≤
          (pushOwned id i o (markUsed addresses o w)).lastUsedAddressIndexes.1 ∧
        w.lastUsedAddressIndexes.2 ≤
          (pushOwned id i o (markUsed addresses o w)).lastUsedAddressIndexes.2 := by
      unfold pushOwned markUsed
      split <;> split <;>
        first
          | exact ⟨le_refl _, le_refl _⟩
          | (simp only [setLastUsed, lastUsedAt]
             split <;> constructor <;> simp only <;> omega)
    exact ⟨le_trans hstep.1 h1, le_trans hstep.2 h2⟩

/-- C23, counterexample: a discovery pass lowers a mark. The sample wallet has the
change mark 0 after its send; a load from a node that reports only `kaspa:r0`
active succeeds and leaves the change mark at -1. -/
theorem reload_lowers_mark :
    load demoEnv demoNode 5 demoSent = .ok () demoResynced ∧
    lastUsedAt demoSent.lastUsedAddressIndexes 1 = 0 ∧
    lastUsedAt demoResynced.lastUsedAddressIndexes 1 = -1 :=
  ⟨rfl, rfl, rfl⟩

/-- C23, amended: a successful `createTransaction` leaves each of the two marks
at or above its value before; a successful discovery pass starts both marks again
at -1 and leaves each at -1 or above. -/
theorem marks_after_send_and_discovery (env : Env) (node : Node) (w : Wallet) :
    (∀ req id w1, createTransaction env node w req = .ok id w1 →
      w.lastUsedAddressIndexes.1 ≤ w1.lastUsedAddressIndexes.1 ∧
        w.lastUsedAddressIndexes.2 ≤ w1.lastUsedAddressIndexes.2) ∧
    (∀ fuel w1, discovery env node fuel w = .ok () w1 →
      -1 ≤ w1.lastUsedAddressIndexes.1 ∧ -1 ≤ w1.lastUsedAddressIndexes.2) := by
  constructor
  · intro req id w1 h
    obtain ⟨p, -, -, rfl⟩ := createTransaction_ok h
    exact applyOutputs_marks_mono id _ p.outputs 0 { w with utxos := removeInputs w.utxos p.inputs }
  · intro fuel w1 h
    exact discovery_marks env node fuel w w1 h

/-- Witness of `marks_after_send_and_discovery`: the send of the sample wallet
raises the change mark from -1 to 0, and its discovery leaves the marks 0
and -1. -/
theorem marks_after_send_and_discovery_witness :
    createTransaction demoEnv demoNode demoLoaded demoSend = .ok "bb" demoSent ∧
    (demoLoaded.lastUsedAddressIndexes.1 ≤ demoSent.lastUsedAddressIndexes.1 ∧
      demoLoaded.lastUsedAddressIndexes.2 ≤ demoSent.lastUsedAddressIndexes.2) ∧
    (-1 ≤ demoResynced.lastUsedAddressIndexes.1 ∧ -1 ≤ demoResynced.lastUsedAddressIndexes.2) :=
  ⟨rfl,
    (marks_after_send_and_discovery demoEnv demoNode demoLoaded).1 demoSend "bb" demoSent rfl,
    (marks_after_send_and_discovery demoEnv demoNode demoSent).2 5
      { demoResynced with balance := demoSent.balance, storage := demoSent.storage } rfl⟩

/-- C24: the code at the failing input. A send of the sample wallet to its current
change address `kaspa:c0` has two outputs that pay `kaspa:c0`, the destination
and the change. The send succeeds, `kaspa:c0` is appended to the used addresses
twice and the change mark goes from -1 to 1, although the change address of
index 1 was never used; the next change address is the one of index 2. -/
theorem send_to_change_address_counts_twice :
    getAddress demoEnv demoLoaded true = "kaspa:c0" ∧
    createTransaction demoEnv demoNode demoLoaded demoChangeSend = .ok "bb" demoChangeSent ∧
    demoChangeSent.usedAddresses = ["kaspa:r0", "kaspa:c0", "kaspa:c0"] ∧
    ¬ demoChangeSent.usedAddresses.Nodup ∧
    lastUsedAt demoLoaded.lastUsedAddressIndexes 1 = -1 ∧
    lastUsedAt demoChangeSent.lastUsedAddressIndexes 1 = 1 ∧
    demoEnv.deriveAddress 1 1 ∉ demoChangeSent.usedAddresses ∧
    ¬ MarkIsGreatest demoEnv 1 demoChangeSent ∧
    getAddress demoEnv demoChangeSent true = "kaspa:c2" := by
  refine ⟨rfl, rfl, rfl, by decide, rfl, rfl, by decide, ?_, rfl⟩
  rintro ⟨-, h | ⟨k, hk, hm⟩⟩
  · exact absurd h (by decide)
  · have hk1 : k = 1 := by
      have : lastUsedAt demoChangeSent.lastUsedAddressIndexes 1 = 1 := rfl
      rw [this] at hk
      omega
    subst hk1
    exact absurd hm (by decide)

theorem deriveBatch_batch (env : Env) (b : Nat) (n k : Nat)
    (acc : List Address) (m : List (Address × (Nat × Nat))) :
    (deriveBatch env b n k acc m).1 = acc ++ (List.range' k n).map (env.deriveAddress b) ∧
    (deriveBatch env b n k acc m).2.2 = k + n := by
  induction n generalizing k acc m with
  | zero => exact ⟨by simp [deriveBatch], by simp [deriveBatch]⟩
  | succ n ih =>
    unfold deriveBatch
    simp only
    obtain ⟨h1, h2⟩ := ih (k + 1) (acc ++ [env.deriveAddress b k])
      (mapSet m (env.deriveAddress b k) (b, k))
    refine ⟨?_, ?_⟩
    · rw [h1, List.range'_succ]
      simp
    · rw [h2]
      omega

theorem scanBranchLog_succ (env : Env) (node : Node) (b : Nat) (fuel : Nat) (w : Wallet)
    (batchSize k gap : Nat) :
    scanBranchLog env node b (fuel + 1) w batchSize k gap =
      if gap < BIP44_GAP_LIMIT then
        match node.active ((List.range' k batchSize).map (env.deriveAddress b)) with
        | .error e =>
          (.thrown e { w with addresses := (deriveBatch env b batchSize k [] w.addresses).2.1 },
            [(List.range' k batchSize).map (env.deriveAddress b)])
        | .ok infos =>
          ((scanBranchLog env node b fuel
              (processBatch infos b ((List.range' k batchSize).map (env.deriveAddress b))
                { w with addresses := (deriveBatch env b batchSize k [] w.addresses).2.1 } gap).1
              (min (batchSize + 1) BIP44_BATCH_SIZE_MAX) (k + batchSize)
              (processBatch infos b ((List.range' k batchSize).map (env.deriveAddress b))
                { w with addresses := (deriveBatch env b batchSize k [] w.addresses).2.1 }
                gap).2).1,
            (List.range' k batchSize).map (env.deriveAddress b) ::
              (scanBranchLog env node b fuel
                (processBatch infos b ((List.range' k batchSize).map (env.deriveAddress b))
                  { w with addresses := (deriveBatch env b batchSize k [] w.addresses).2.1 } gap).1
                (min (batchSize + 1) BIP44_BATCH_SIZE_MAX) (k + batchSize)
                (processBatch infos b ((List.range' k batchSize).map (env.deriveAddress b))
                  { w with addresses := (deriveBatch env b batchSize k [] w.addresses).2.1 }
                  gap).2).2)
      else (.ok () w, []) := by
  obtain ⟨d1, d2⟩ := deriveBatch_batch env b batchSize k [] w.addresses
  rw [List.nil_append] at d1
  rw [← d1, ← d2]
  conv_lhs => unfold scanBranchLog

theorem scanBranch_succ (env : Env) (node : Node) (b : Nat) (fuel : Nat) (w : Wallet)
    (batchSize k gap : Nat) :
    scanBranch env node b (fuel + 1) w batchSize k gap =
      if gap < BIP44_GAP_LIMIT then
        match node.active ((List.range' k batchSize).map (env.deriveAddress b)) with
        | .error e =>
          .thrown e { w with addresses := (deriveBatch env b batchSize k [] w.addresses).2.1 }
        | .ok infos =>
          scanBranch env node b fuel
            (processBatch infos b ((List.range' k batchSize).map (env.deriveAddress b))
              { w with addresses := (deriveBatch env b batchSize k [] w.addresses).2.1 } gap).1
            (min (batchSize + 1) BIP44_BATCH_SIZE_MAX) (k + batchSize)
            (processBatch infos b ((List.range' k batchSize).map (env.deriveAddress b))
              { w with addresses := (deriveBatch env b batchSize k [] w.addresses).2.1 }
              gap).2
      else .ok () w := by
  obtain ⟨d1, d2⟩ := deriveBatch_batch env b batchSize k [] w.addresses
  rw [List.nil_append] at d1
  rw [← d1, ← d2]
  conv_lhs => unfold scanBranch

theorem scanBranchLog_fst (env : Env) (node : Node) (b : Nat) (fuel : Nat) (w : Wallet)
    (batchSize k gap : Nat) :
    (scanBranchLog env node b fuel w batchSize k gap).1 =
      scanBranch env node b fuel w batchSize k gap := by
  induction fuel generalizing w batchSize k gap with
  | zero => rfl
  | succ fuel ih =>
    rw [scanBranchLog_succ, scanBranch_succ]
    split
    · split
      · rfl
      · exact ih _ _ _ _
    · rfl

theorem scanBranchLog_batches (env : Env) (node : Node) (b : Nat) (fuel : Nat) (w : Wallet)
    (j0 gap : Nat) (j : Nat) (batch : List Address)
    (h : (scanBranchLog env node b fuel w (min (3 + j0) 10) (batchStart j0) gap).2[j]? =
      some batch) :
    batch = (List.range' (batchStart (j0 + j)) (min (3 + (j0 + j)) 10)).map
      (env.deriveAddress b) := by
  induction fuel generalizing w j0 gap j with
  | zero => simp [scanBranchLog] at h
  | succ fuel ih =>
    rw [scanBranchLog_succ] at h
    split at h
    · split at h
      · cases j with
        | zero =>
          simp only [List.getElem?_cons_zero, Option.some.injEq] at h
          exact h.symm
        | succ j => simp at h
      · cases j with
        | zero =>
          simp only [List.getElem?_cons_zero, Option.some.injEq] at h
          exact h.symm
        | succ j =>
          simp only [List.getElem?_cons_succ] at h
          have e1 : min (min (3 + j0) 10 + 1) BIP44_BATCH_SIZE_MAX = min (3 + (j0 + 1)) 10 := by
            unfold BIP44_BATCH_SIZE_MAX
            omega
          have e2 : batchStart j0 + min (3 + j0) 10 = batchStart (j0 + 1) := rfl
          rw [e1, e2] at h
          have := ih _ _ _ _ h
          rw [show j0 + 1 + j = j0 + (j + 1) by omega] at this
          exact this
    · simp at h

theorem batchStart_mono (j n : Nat) : batchStart j ≤ batchStart (j + n) := by
  induction n with
  | zero => exact le_refl _
  | succ n ih =>
    rw [← Nat.add_assoc]
    exact le_trans ih (Nat.le_add_right _ _)

theorem flatten_of_batches {α : Type} (f : Nat → α) (log : List (List α)) (j0 : Nat)
    (h : ∀ j batch, log[j]? = some batch →
      batch = (List.range' (batchStart (j0 + j)) (min (3 + (j0 + j)) 10)).map f) :
    log.flatten =
      (List.range' (batchStart j0) (batchStart (j0 + log.length) - batchStart j0)).map f := by
  induction log generalizing j0 with
  | nil => simp
  | cons batch rest ih =>
    have hb := h 0 batch (by simp)
    have hr := ih (j0 + 1) (fun j x hx => by
      have := h (j + 1) x (by simpa using hx)
      rw [show j0 + (j + 1) = j0 + 1 + j by omega] at this
      exact this)
    rw [List.flatten_cons, hb, hr, ← List.map_append]
    congr 1
    have e2 : batchStart (j0 + 1) = batchStart j0 + min (3 + j0) 10 := rfl
    have hm := batchStart_mono (j0 + 1) rest.length
    rw [Nat.add_zero, e2, List.range'_append_1]
    congr 1
    rw [List.length_cons, show j0 + (rest.length + 1) = j0 + 1 + rest.length by omega]
    omega

theorem scanBranchLog_recorded (env : Env) (hinj : DerivationInjective env) (node : Node)
    (b : Nat) (fuel : Nat) (w w1 : Wallet) (batchSize k gap : Nat) (log : List (List Address))
    (hR : Recorded env b k w)
    (h : scanBranchLog env node b fuel w batchSize k gap = (.ok () w1, log)) :
    Recorded env b (k + log.flatten.length) w1 := by
  induction fuel generalizing w batchSize k gap log with
  | zero => simp [scanBranchLog] at h
  | succ fuel ih =>
    rw [scanBranchLog_succ] at h
    split at h
    · split at h
      · simp at h
      · rename_i infos hi
        obtain ⟨-, -, d3, d4⟩ := deriveBatch_spec env hinj b batchSize k [] w.addresses
        have hR1 : Recorded env b (k + batchSize)
            { w with addresses := (deriveBatch env b batchSize k [] w.addresses).2.1 } := by
          intro j hj
          by_cases hjk : j < k
          · have := d3 (env.deriveAddress b j)
              (fun i hi1 _ hc => by have := (hinj _ _ _ _ hc).2; omega)
            simp only
            rw [this]
            exact hR j hjk
          · exact d4 j (by omega) hj
        have hlog : log = (List.range' k batchSize).map (env.deriveAddress b) ::
            (scanBranchLog env node b fuel
              (processBatch infos b ((List.range' k batchSize).map (env.deriveAddress b))
                { w with addresses := (deriveBatch env b batchSize k [] w.addresses).2.1 } gap).1
              (min (batchSize + 1) BIP44_BATCH_SIZE_MAX) (k + batchSize)
              (processBatch infos b ((List.range' k batchSize).map (env.deriveAddress b))
                { w with addresses := (deriveBatch env b batchSize k [] w.addresses).2.1 }
                gap).2).2 := (congrArg Prod.snd h).symm
        have hout := congrArg Prod.fst h
        simp only at hout
        have := ih _ _ _ _ _ (by
          intro j hj
          rw [processBatch_addresses]
          exact hR1 j hj) (Prod.ext hout rfl)
        rw [hlog, List.flatten_cons, List.length_append, List.length_map, List.length_range']
        rw [← Nat.add_assoc]
        exact this
    · cases h
      simpa using hR

theorem scanBranch_records_other (env : Env) (hinj : DerivationInjective env) (node : Node)
    (b b1 : Nat) (hb : b ≠ b1) (fuel : Nat) (w w1 : Wallet) (batchSize k gap : Nat)
    (hs : scanBranch env node b fuel w batchSize k gap = .ok () w1) (i : Nat) :
    mapGet w1.addresses (env.deriveAddress b1 i) = mapGet w.addresses (env.deriveAddress b1 i) := by
  induction fuel generalizing w batchSize k gap with
  | zero => cases hs
  | succ fuel ih =>
    rw [scanBranch_succ] at hs
    split at hs
    · split at hs
      · cases hs
      · rename_i infos hi
        obtain ⟨-, -, d3, -⟩ := deriveBatch_spec env hinj b batchSize k [] w.addresses
        rw [ih _ _ _ _ hs, processBatch_addresses]
        exact d3 _ (fun j _ _ hc => hb (hinj _ _ _ _ hc).1.symm)
    · cases hs
      rfl

theorem discovery_logs (env : Env) (node : Node) (fuel : Nat) (w w1 : Wallet)
    (h : discovery env node fuel w = .ok () w1) :
    ∃ wa wb,
      scanBranchLog env node 0 fuel
          { w with addresses := [], usedAddresses := [], lastUsedAddressIndexes := (-1, -1) }
          BIP44_BATCH_SIZE 0 0 = (.ok () wa, (discoveryLog env node fuel w).1) ∧
        scanBranchLog env node 1 fuel wa BIP44_BATCH_SIZE 0 0 =
          (.ok () wb, (discoveryLog env node fuel w).2) ∧
        w1.usedAddresses = wb.usedAddresses ∧ w1.addresses = wb.addresses := by
  unfold discovery at h
  simp only at h
  split at h
  · cases h
  · cases h
  · rename_i u wa ha
    split at h
    · cases h
    · cases h
    · rename_i u2 wb hb
      have hA : scanBranchLog env node 0 fuel
          { w with addresses := [], usedAddresses := [], lastUsedAddressIndexes := (-1, -1) }
          BIP44_BATCH_SIZE 0 0 = (.ok () wa, (scanBranchLog env node 0 fuel
            { w with addresses := [], usedAddresses := [], lastUsedAddressIndexes := (-1, -1) }
            BIP44_BATCH_SIZE 0 0).2) :=
        Prod.ext (by rw [scanBranchLog_fst]; exact ha) rfl
      have hB : scanBranchLog env node 1 fuel wa BIP44_BATCH_SIZE 0 0 =
          (.ok () wb, (scanBranchLog env node 1 fuel wa BIP44_BATCH_SIZE 0 0).2) :=
        Prod.ext (by rw [scanBranchLog_fst]; exact hb) rfl
      have hl : discoveryLog env node fuel w =
          ((scanBranchLog env node 0 fuel
            { w with addresses := [], usedAddresses := [], lastUsedAddressIndexes := (-1, -1) }
            BIP44_BATCH_SIZE 0 0).2, (scanBranchLog env node 1 fuel wa BIP44_BATCH_SIZE 0 0).2) := by
        unfold discoveryLog
        simp only
        generalize scanBranchLog env node 0 fuel
          { w with addresses := [], usedAddresses := [], lastUsedAddressIndexes := (-1, -1) }
          BIP44_BATCH_SIZE 0 0 = L at hA
        rw [hA]
      rw [hl]
      refine ⟨wa, wb, hA, hB, ?_⟩
      split at h
      · split at h
        · cases h
        · cases h
          exact ⟨rfl, rfl⟩
      · cases h
        exact ⟨rfl, rfl⟩

theorem discoveryLog_cases (env : Env) (node : Node) (fuel : Nat) (w : Wallet) :
    (discoveryLog env node fuel w).1 =
        (scanBranchLog env node 0 fuel
          { w with addresses := [], usedAddresses := [], lastUsedAddressIndexes := (-1, -1) }
          (min (3 + 0) 10) (batchStart 0) 0).2 ∧
      ((discoveryLog env node fuel w).2 = [] ∨
        ∃ wa, (discoveryLog env node fuel w).2 =
          (scanBranchLog env node 1 fuel wa (min (3 + 0) 10) (batchStart 0) 0).2) := by
  unfold discoveryLog
  simp only
  change ((match scanBranchLog env node 0 fuel
      { w with addresses := [], usedAddresses := [], lastUsedAddressIndexes := (-1, -1) }
      BIP44_BATCH_SIZE 0 0 with
    | (Outcome.ok _ w1, log0) => (log0, (scanBranchLog env node 1 fuel w1 BIP44_BATCH_SIZE 0 0).2)
    | (_, log0) => (log0, [])).1 =
      (scanBranchLog env node 0 fuel
        { w with addresses := [], usedAddresses := [], lastUsedAddressIndexes := (-1, -1) }
        BIP44_BATCH_SIZE 0 0).2) ∧ _
  generalize scanBranchLog env node 0 fuel
    { w with addresses := [], usedAddresses := [], lastUsedAddressIndexes := (-1, -1) }
    BIP44_BATCH_SIZE 0 0 = L
  obtain ⟨o, log0⟩ := L
  cases o with
  | ok u wa => exact ⟨rfl, Or.inr ⟨wa, rfl⟩⟩
  | thrown e wa => exact ⟨rfl, Or.inl rfl⟩
  | running => exact ⟨rfl, Or.inl rfl⟩

theorem discoveryLog_form (env : Env) (node : Node) (fuel : Nat) (w : Wallet) (b : Nat)
    (log : List (List Address))
    (hb : (b = 0 ∧ log = (discoveryLog env node fuel w).1) ∨
      (b = 1 ∧ log = (discoveryLog env node fuel w).2)) :
    (∀ j batch, log[j]? = some batch →
      batch = (List.range' (batchStart j) (min (3 + j) 10)).map (env.deriveAddress b)) ∧
    log.flatten = (List.range (batchStart log.length)).map (env.deriveAddress b) := by
  obtain ⟨c1, c2⟩ := discoveryLog_cases env node fuel w
  have hform : ∀ j batch, log[j]? = some batch →
      batch = (List.range' (batchStart j) (min (3 + j) 10)).map (env.deriveAddress b) := by
    intro j batch hj
    rcases hb with ⟨rfl, rfl⟩ | ⟨rfl, rfl⟩
    · rw [c1] at hj
      have := scanBranchLog_batches env node 0 fuel _ 0 0 j batch hj
      simpa using this
    · rcases c2 with c2 | ⟨wa, c2⟩
      · rw [c2] at hj
        simp at hj
      · rw [c2] at hj
        have := scanBranchLog_batches env node 1 fuel _ 0 0 j batch hj
        simpa using this
  refine ⟨hform, ?_⟩
  have := flatten_of_batches (env.deriveAddress b) log 0 (by simpa using hform)
  rw [this, List.range_eq_range']
  simp [batchStart]

/-- C25: on each branch the batches a discovery pass hands to `active` are, in
order, batch `j` with `min (3 + j) 10` addresses at the consecutive indices that
start where batch `j - 1` ended, the first at index 0; together they are the
addresses of the indices below the number scanned, each once, and after a
successful pass each of them has the record of its own branch and index (the
last two for a derivation that gives distinct addresses for distinct paths). -/
theorem discovery_batches (env : Env) (node : Node) (fuel : Nat) (w : Wallet) (b : Nat)
    (log : List (List Address))
    (hb : (b = 0 ∧ log = (discoveryLog env node fuel w).1) ∨
      (b = 1 ∧ log = (discoveryLog env node fuel w).2)) :
    (∀ j batch, log[j]? = some batch →
      batch = (List.range' (batchStart j) (min (3 + j) 10)).map (env.deriveAddress b)) ∧
    log.flatten = (List.range (batchStart log.length)).map (env.deriveAddress b) ∧
    (DerivationInjective env → log.flatten.Nodup) ∧
    (DerivationInjective env → ∀ w1, discovery env node fuel w = .ok () w1 →
      ∀ i, i < batchStart log.length →
        mapGet w1.addresses (env.deriveAddress b i) = some (b, i)) := by
  obtain ⟨hform, hflat⟩ := discoveryLog_form env node fuel w b log hb
  have hlen : log.flatten.length = batchStart log.length := by
    rw [hflat]
    simp
  refine ⟨hform, hflat, ?_, ?_⟩
  · intro hinj
    rw [hflat]
    exact List.Nodup.map (fun i j hij => (hinj _ _ _ _ hij).2) (List.nodup_range _)
  · intro hinj w1 hd i hi
    obtain ⟨wa, wb, hA, hB, -, hadr⟩ := discovery_logs env node fuel w w1 hd
    rw [hadr]
    rcases hb with ⟨rfl, rfl⟩ | ⟨rfl, rfl⟩
    · have hR := scanBranchLog_recorded env hinj node 0 fuel _ wa _ 0 0 _
        (fun j hj => by omega) hA
      have hsb : scanBranch env node 1 fuel wa BIP44_BATCH_SIZE 0 0 = .ok () wb := by
        rw [← scanBranchLog_fst, hB]
      rw [scanBranch_records_other env hinj node 1 0 (by decide) fuel wa wb _ _ _ hsb i]
      exact hR i (by omega)
    · have hR := scanBranchLog_recorded env hinj node 1 fuel wa wb _ 0 0 _
        (fun j hj => by omega) hB
      exact hR i (by omega)

/-- Witness of `discovery_batches`: the receive branch of the discovery against
`gapNode`, where a batch of 3 and a batch of 4 are scanned. -/
theorem discovery_batches_witness :
    (discoveryLog gapEnv gapNode 5 demoFresh).1 =
      [["kaspa:", "kaspa:i", "kaspa:ii"],
       ["kaspa:iii", "kaspa:iiii", "kaspa:iiiii", "kaspa:iiiiii"]] ∧
    [["kaspa:", "kaspa:i", "kaspa:ii"],
        ["kaspa:iii", "kaspa:iiii", "kaspa:iiiii", "kaspa:iiiiii"]].flatten =
      (List.range (batchStart 2)).map (gapEnv.deriveAddress 0) ∧
    ∀ i, i < batchStart 2 →
      mapGet gapScanned.addresses (gapEnv.deriveAddress 0 i) = some (0, i) :=
  ⟨rfl,
    (discovery_batches gapEnv gapNode 5 demoFresh 0
      [["kaspa:", "kaspa:i", "kaspa:ii"],
       ["kaspa:iii", "kaspa:iiii", "kaspa:iiiii", "kaspa:iiiiii"]] (Or.inl ⟨rfl, rfl⟩)).2.1,
    (discovery_batches gapEnv gapNode 5 demoFresh 0
      [["kaspa:", "kaspa:i", "kaspa:ii"],
       ["kaspa:iii", "kaspa:iiii", "kaspa:iiiii", "kaspa:iiiiii"]] (Or.inl ⟨rfl, rfl⟩)).2.2.2
      unaryAddress_injective gapScanned rfl⟩

theorem processBatch_cons (infos : List ActiveInfo) (b : Nat) (a : Address)
    (rest : List Address) (w : Wallet) (gap : Nat) :
    processBatch infos b (a :: rest) w gap =
      if activeIn infos a then
        processBatch infos b rest
          { w with
            usedAddresses := w.usedAddresses ++ [a]
            lastUsedAddressIndexes :=
              match mapGet w.addresses a with
              | some path => setLastUsed w.lastUsedAddressIndexes b path.2
              | none => w.lastUsedAddressIndexes }
          0
      else processBatch infos b rest w (gap + 1) := by
  conv_lhs => unfold processBatch
  unfold activeIn
  generalize List.find? (fun item => decide (item.address = a)) infos = r
  cases r <;> rfl

theorem processBatch_used (infos : List ActiveInfo) (b : Nat) (batch : List Address)
    (w : Wallet) (gap : Nat) :
    (processBatch infos b batch w gap).1.usedAddresses =
      w.usedAddresses ++ batch.filter (activeIn infos) := by
  induction batch generalizing w gap with
  | nil => simp [processBatch]
  | cons a rest ih =>
    rw [processBatch_cons]
    by_cases ha : activeIn infos a = true
    · rw [if_pos ha, ih, List.filter_cons_of_pos ha]
      simp
    · rw [if_neg ha, ih, List.filter_cons_of_neg ha]

theorem processBatch_gap (infos : List ActiveInfo) (b : Nat) (batch : List Address)
    (w : Wallet) (gap : Nat) :
    (processBatch infos b batch w gap).2 = 0 ↔
      (batch = [] ∧ gap = 0) ∨ ∃ a, batch.getLast? = some a ∧ activeIn infos a = true := by
  induction batch generalizing w gap with
  | nil => simp [processBatch]
  | cons a rest ih =>
    rw [processBatch_cons]
    by_cases ha : activeIn infos a = true
    · rw [if_pos ha, ih]
      cases rest with
      | nil => simp [ha]
      | cons c r => simp [List.getLast?_cons_cons]
    · rw [if_neg ha, ih]
      cases rest with
      | nil => simp [ha]
      | cons c r => simp [List.getLast?_cons_cons]

theorem scanBranchLog_used (env : Env) (node : Node) (b : Nat) (fuel : Nat) (w w1 : Wallet)
    (batchSize k gap : Nat) (log : List (List Address))
    (h : scanBranchLog env node b fuel w batchSize k gap = (.ok () w1, log)) :
    w1.usedAddresses =
      w.usedAddresses ++ log.flatMap fun batch => batch.filter (isActive node batch) := by
  induction fuel generalizing w batchSize k gap log with
  | zero => simp [scanBranchLog] at h
  | succ fuel ih =>
    rw [scanBranchLog_succ] at h
    split at h
    · split at h
      · simp at h
      · rename_i infos hi
        have hlog := (congrArg Prod.snd h).symm
        have hout := congrArg Prod.fst h
        simp only at hout hlog
        have := ih _ _ _ _ _ (Prod.ext hout rfl)
        rw [this, processBatch_used, hlog, List.flatMap_cons, List.append_assoc]
        have hact : isActive node ((List.range' k batchSize).map (env.deriveAddress b)) =
            activeIn infos := by
          funext a
          unfold isActive
          rw [hi]
        rw [hact]
    · cases h
      simp

theorem scanBranchLog_next (env : Env) (node : Node) (b : Nat) (fuel : Nat) (w w1 : Wallet)
    (batchSize k gap : Nat) (log : List (List Address)) (hbs : 1 ≤ batchSize)
    (h : scanBranchLog env node b fuel w batchSize k gap = (.ok () w1, log)) :
    (log = [] ↔ ¬ gap < 1) ∧
      ∀ j batch, log[j]? = some batch →
        (j + 1 < log.length ↔ ∃ a, batch.getLast? = some a ∧ isActive node batch a = true) := by
  induction fuel generalizing w batchSize k gap log with
  | zero => simp [scanBranchLog] at h
  | succ fuel ih =>
    rw [scanBranchLog_succ] at h
    split at h
    · rename_i hg
      split at h
      · simp at h
      · rename_i infos hi
        have hlog := (congrArg Prod.snd h).symm
        have hout := congrArg Prod.fst h
        simp only at hout hlog
        obtain ⟨i1, i2⟩ := ih _ _ _ _ _ (by unfold BIP44_BATCH_SIZE_MAX; omega)
          (Prod.ext hout rfl)
        have hact : isActive node ((List.range' k batchSize).map (env.deriveAddress b)) =
            activeIn infos := by
          funext a
          unfold isActive
          rw [hi]
        have hne : (List.range' k batchSize).map (env.deriveAddress b) ≠ [] := by
          intro hc
          have := congrArg List.length hc
          simp at this
          omega
        have hgap := processBatch_gap infos b ((List.range' k batchSize).map (env.deriveAddress b))
          { w with addresses := (deriveBatch env b batchSize k [] w.addresses).2.1 } gap
        unfold BIP44_GAP_LIMIT at hg
        refine ⟨by rw [hlog]; simp; omega, ?_⟩
        intro j batch hj
        rw [hlog] at hj ⊢
        cases j with
        | zero =>
          simp only [List.getElem?_cons_zero, Option.some.injEq] at hj
          subst hj
          rw [hact]
          rw [← (show _ ↔ ∃ a, _ from
            ⟨fun hz => (hgap.mp hz).resolve_left (fun hc => hne hc.1),
              fun hz => hgap.mpr (Or.inr hz)⟩)]
          simp only [List.length_cons, Nat.zero_add, Nat.lt_add_left_iff_pos]
          rw [List.length_pos, ne_eq, i1]
          omega
        | succ j =>
          simp only [List.getElem?_cons_succ] at hj
          simp only [List.length_cons, Nat.add_lt_add_iff_right]
          exact i2 j batch hj
    · rename_i hg
      cases h
      unfold BIP44_GAP_LIMIT at hg
      exact ⟨by simp; omega, fun j batch hj => by simp at hj⟩

theorem flatMap_filter_sublist {α : Type} (p : List α → α → Bool) (log : List (List α)) :
    (log.flatMap fun batch => batch.filter (p batch)).Sublist log.flatten := by
  induction log with
  | nil => simp
  | cons batch rest ih =>
    rw [List.flatMap_cons, List.flatten_cons]
    exact List.Sublist.append (List.filter_sublist _) ih

/-- C28: after a successful discovery pass, on each branch a batch of the pass is
followed by a further batch exactly when its last address is active, and there
is at least one batch; the used addresses are, for the receive branch and then
for the change branch, the active addresses of the batches scanned, in the order
of the batches and of the addresses inside them, which is the order of their
indices. -/
theorem discovery_stops_at_inactive_tail (env : Env) (node : Node) (fuel : Nat) (w w1 : Wallet)
    (h : discovery env node fuel w = .ok () w1) :
    w1.usedAddresses =
      ((discoveryLog env node fuel w).1.flatMap fun batch => batch.filter (isActive node batch)) ++
        ((discoveryLog env node fuel w).2.flatMap fun batch =>
          batch.filter (isActive node batch)) ∧
    ∀ b log,
      (b = 0 ∧ log = (discoveryLog env node fuel w).1) ∨
        (b = 1 ∧ log = (discoveryLog env node fuel w).2) →
      log ≠ [] ∧
        (∀ j batch, log[j]? = some batch →
          (j + 1 < log.length ↔
            ∃ a, batch.getLast? = some a ∧ isActive node batch a = true)) ∧
        (log.flatMap fun batch => batch.filter (isActive node batch)).Sublist
          ((List.range (batchStart log.length)).map (env.deriveAddress b)) := by
  obtain ⟨wa, wb, hA, hB, hu, -⟩ := discovery_logs env node fuel w w1 h
  have uA := scanBranchLog_used env node 0 fuel _ wa _ _ _ _ hA
  have uB := scanBranchLog_used env node 1 fuel wa wb _ _ _ _ hB
  obtain ⟨a1, a2⟩ := scanBranchLog_next env node 0 fuel _ wa _ _ _ _ (by decide) hA
  obtain ⟨b1, b2⟩ := scanBranchLog_next env node 1 fuel wa wb _ _ _ _ (by decide) hB
  refine ⟨?_, ?_⟩
  · rw [hu, uB, uA]
    simp
  · intro b log hb
    have hsub : (log.flatMap fun batch => batch.filter (isActive node batch)).Sublist
        ((List.range (batchStart log.length)).map (env.deriveAddress b)) := by
      rw [← (discoveryLog_form env node fuel w b log hb).2]
      exact flatMap_filter_sublist (isActive node) log
    rcases hb with ⟨rfl, rfl⟩ | ⟨rfl, rfl⟩
    · exact ⟨fun hc => (a1.mp hc) (by decide), a2, hsub⟩
    · exact ⟨fun hc => (b1.mp hc) (by decide), b2, hsub⟩

/-- Witness of `discovery_stops_at_inactive_tail`: the discovery against
`gapNode`. The first receive batch ends with the active address of index 2 and a
second batch follows, which ends with an inactive address; the address of
index 2 is reported although the address of index 1 before it is inactive. -/
theorem discovery_stops_at_inactive_tail_witness :
    discoveryLog gapEnv gapNode 5 demoFresh =
      ([["kaspa:", "kaspa:i", "kaspa:ii"],
        ["kaspa:iii", "kaspa:iiii", "kaspa:iiiii", "kaspa:iiiiii"]],
       [["kaspa:c", "kaspa:ci", "kaspa:cii"]]) ∧
    isActive gapNode ["kaspa:", "kaspa:i", "kaspa:ii"] "kaspa:i" = false ∧
    isActive gapNode ["kaspa:", "kaspa:i", "kaspa:ii"] "kaspa:ii" = true ∧
    gapScanned.usedAddresses = ["kaspa:", "kaspa:ii"] ∧
    gapScanned.usedAddresses =
      ((discoveryLog gapEnv gapNode 5 demoFresh).1.flatMap fun batch =>
          batch.filter (isActive gapNode batch)) ++
        ((discoveryLog gapEnv gapNode 5 demoFresh).2.flatMap fun batch =>
          batch.filter (isActive gapNode batch)) :=
  ⟨rfl, rfl, rfl, rfl,
    (discovery_stops_at_inactive_tail gapEnv gapNode 5 demoFresh gapScanned rfl).1⟩

theorem refine_first_round (env : Env) (inputs : List Utxo) (total : Int) (rate : Nat)
    (price : Price) (rounds : Nat) (a : Int) (ha : dustThreshold ≤ a)
    (hw : env.transactionMass inputs
        (candidateOutputs a (env.calculateCsFee a (csFeeOptions price))) ≤
          env.MAXIMUM_STANDARD_TRANSACTION_MASS →
      0 ≤ total - a - (env.calculateCsFee a (csFeeOptions price) : Int) -
        (rate : Int) * (env.transactionMass inputs
          (candidateOutputs a (env.calculateCsFee a (csFeeOptions price))) : Int)) :
    refine env inputs total rate price (rounds + 1) a 0 = 0 ∨
      dustThreshold ≤ refine env inputs total rate price (rounds + 1) a 0 := by
  have hpos : (0 : Int) < a := lt_of_lt_of_le (by decide) ha
  unfold refine
  simp only
  split
  · exact Or.inl rfl
  · rename_i hm
    have hw2 := hw (not_lt.mp hm)
    simp only [not_lt.mpr hw2, hpos, gt_iff_lt, if_true, if_false]
    right
    split
    · exact ha
    · exact le_trans ha (refine_greatest env inputs total rate price rounds _ a).1

/-- C26, amended: with a platform fee that does not go down when the amount goes
up, `estimateMaxAmount` returns 0 or a value of at least 100000000, for every
ledger, tier and price. -/
theorem max_amount_zero_or_threshold (env : Env) (w : Wallet) (feeRate : FeeRate)
    (price : Price) (m : Int) (hmono : CsFeeMonotone env price)
    (h : estimateMaxAmount env w feeRate price = .ok m) :
    m = 0 ∨ 100000000 ≤ m := by
  rcases estimateMaxAmount_ok h with h0 | ⟨rate, -, hseed, hm⟩
  · exact Or.inl h0
  · rw [hm]
    refine refine_first_round env _ _ rate price 15 _ hseed ?_
    intro hmass
    have hc := hmono (seedAmount env w rate price)
      (inputsTotal (maxInputs env w) -
        (rate : Int) * (env.MAXIMUM_STANDARD_TRANSACTION_MASS : Int))
      (by unfold seedAmount; omega)
    have hr : (rate : Int) * (env.transactionMass (maxInputs env w)
          (candidateOutputs (seedAmount env w rate price)
            (env.calculateCsFee (seedAmount env w rate price) (csFeeOptions price))) : Int) ≤
        (rate : Int) * (env.MAXIMUM_STANDARD_TRANSACTION_MASS : Int) :=
      mul_le_mul_of_nonneg_left (by exact_mod_cast hmass) (by positivity)
    have hc2 : (env.calculateCsFee (seedAmount env w rate price) (csFeeOptions price) : Int) ≤
        (env.calculateCsFee (inputsTotal (maxInputs env w) -
          (rate : Int) * (env.MAXIMUM_STANDARD_TRANSACTION_MASS : Int)) (csFeeOptions price) : Int) := by
      exact_mod_cast hc
    have hs : seedAmount env w rate price =
        inputsTotal (maxInputs env w) -
          (rate : Int) * (env.MAXIMUM_STANDARD_TRANSACTION_MASS : Int) -
        (env.calculateCsFee (inputsTotal (maxInputs env w) -
          (rate : Int) * (env.MAXIMUM_STANDARD_TRANSACTION_MASS : Int)) (csFeeOptions price) : Int) :=
      rfl
    omega

theorem demoEnv_fee_monotone (price : Price) : CsFeeMonotone demoEnv price := by
  intro a b hab
  exact Int.toNat_le_toNat (Int.ediv_le_ediv (by decide) hab)

/-- Witness of `max_amount_zero_or_threshold`: the sample wallet, whose platform
fee is 0.5% of the amount. -/
theorem max_amount_zero_or_threshold_witness :
    CsFeeMonotone demoEnv 1 ∧
    estimateMaxAmount demoEnv demoLoaded .default 1 = .ok 497510446 ∧
    ((497510446 : Int) = 0 ∨ (100000000 : Int) ≤ 497510446) :=
  ⟨demoEnv_fee_monotone 1, rfl,
    max_amount_zero_or_threshold demoEnv demoLoaded .default 1 497510446
      (demoEnv_fee_monotone 1) rfl⟩

/-- C26, counterexample: with the platform fee of `waivedEnv`, which is higher on
smaller amounts, the first candidate of 1.99999 KAS overshoots in the first
round, the candidate is lowered to 0.50098 KAS, the second round records it, and
this value below 100000000 is returned. -/
theorem max_amount_below_threshold :
    ¬ CsFeeMonotone waivedEnv 1 ∧
    seedAmount waivedEnv waivedWallet 1 1 = 199999000 ∧
    estimateMaxAmount waivedEnv waivedWallet .default 1 = .ok 50098000 ∧
    (0 : Int) < 50098000 ∧ (50098000 : Int) < 100000000 := by
  refine ⟨?_, rfl, rfl, by decide, by decide⟩
  intro h
  exact absurd (h 0 200000000 (by decide)) (by decide)

theorem chunks_spec (fuel : Nat) (addresses : List Address) (h : addresses.length ≤ fuel) :
    (chunks fuel addresses).flatten = addresses ∧
      ∀ c ∈ chunks fuel addresses, 0 < c.length ∧ c.length ≤ 10 := by
  induction fuel generalizing addresses with
  | zero =>
    have : addresses = [] := List.length_eq_zero.mp (Nat.le_zero.mp h)
    subst this
    simp [chunks]
  | succ fuel ih =>
    unfold chunks
    split
    · rename_i he
      subst he
      simp
    · rename_i hne
      have hpos : 0 < addresses.length := List.length_pos.mpr hne
      obtain ⟨h1, h2⟩ := ih (addresses.drop CHUNK) (by
        rw [List.length_drop]
        unfold CHUNK
        omega)
      refine ⟨?_, ?_⟩
      · rw [List.flatten_cons, h1, List.take_append_drop]
      · intro c hc
        rcases List.mem_cons.mp hc with rfl | hc
        · rw [List.length_take]
          unfold CHUNK
          omega
        · exact h2 c hc

theorem mergeEntry_ids (m : List RawTx) (item : RawTx) :
    ((if m.any (fun t => t.transaction_id = item.transaction_id) then
        m.map fun t => if t.transaction_id = item.transaction_id then item else t
      else m ++ [item]).map fun t => t.transaction_id) =
      if item.transaction_id ∈ m.map (fun t => t.transaction_id) then
        m.map fun t => t.transaction_id
      else m.map (fun t => t.transaction_id) ++ [item.transaction_id] := by
  by_cases h : item.transaction_id ∈ m.map (fun t => t.transaction_id)
  · have h2 : m.any (fun t => t.transaction_id = item.transaction_id) = true := by
      rw [List.any_eq_true]
      obtain ⟨t, ht, hid⟩ := List.mem_map.mp h
      exact ⟨t, ht, by simpa using hid⟩
    rw [if_pos h2, if_pos h, List.map_map]
    apply List.map_congr_left
    intro t _
    simp only [Function.comp]
    split
    · rename_i heq
      exact heq.symm
    · rfl
  · have h2 : ¬ m.any (fun t => t.transaction_id = item.transaction_id) = true := by
      rw [List.any_eq_true]
      rintro ⟨t, ht, hid⟩
      exact h (List.mem_map.mpr ⟨t, ht, by simpa using hid⟩)
    rw [if_neg h2, if_neg h]
    simp

theorem mergeEntry_mem (m : List RawTx) (item t : RawTx)
    (ht : t ∈ (if m.any (fun x => x.transaction_id = item.transaction_id) then
        m.map fun x => if x.transaction_id = item.transaction_id then item else x
      else m ++ [item])) : t ∈ m ∨ t = item := by
  split at ht
  · obtain ⟨x, hx, rfl⟩ := List.mem_map.mp ht
    split
    · exact Or.inr rfl
    · exact Or.inl hx
  · rcases List.mem_append.mp ht with h | h
    · exact Or.inl h
    · exact Or.inr (List.mem_singleton.mp h)

theorem mergeResponse_spec (res m : List RawTx)
    (hnd : (m.map fun t => t.transaction_id).Nodup) :
    ((res.foldl
        (fun m item =>
          if m.any (fun t => t.transaction_id = item.transaction_id) then
            m.map fun t => if t.transaction_id = item.transaction_id then item else t
          else m ++ [item])
        m).map fun t => t.transaction_id).Nodup ∧
      (∀ id, id ∈ (res.foldl
          (fun m item =>
            if m.any (fun t => t.transaction_id = item.transaction_id) then
              m.map fun t => if t.transaction_id = item.transaction_id then item else t
            else m ++ [item])
          m).map (fun t => t.transaction_id) ↔
        id ∈ m.map (fun t => t.transaction_id) ∨ id ∈ res.map (fun t => t.transaction_id)) ∧
      (∀ t ∈ res.foldl
          (fun m item =>
            if m.any (fun t => t.transaction_id = item.transaction_id) then
              m.map fun t => if t.transaction_id = item.transaction_id then item else t
            else m ++ [item])
          m, t ∈ m ∨ t ∈ res) := by
  induction res generalizing m with
  | nil => exact ⟨hnd, fun id => (by simp), fun t ht => Or.inl ht⟩
  | cons item rest ih =>
    rw [List.foldl_cons]
    have hids := mergeEntry_ids m item
    have hnd2 : ((if m.any (fun t => t.transaction_id = item.transaction_id) then
          m.map fun t => if t.transaction_id = item.transaction_id then item else t
        else m ++ [item]).map fun t => t.transaction_id).Nodup := by
      rw [hids]
      split
      · exact hnd
      · rename_i hni
        exact List.Nodup.append hnd (List.nodup_singleton _) (by
          intro x hx hx2
          rw [List.mem_singleton] at hx2
          exact hni (hx2 ▸ hx))
    obtain ⟨i1, i2, i3⟩ := ih _ hnd2
    refine ⟨i1, ?_, ?_⟩
    · intro id
      rw [i2 id, hids]
      split
      · rename_i hin
        simp only [List.map_cons, List.mem_cons]
        constructor
        · rintro (h | h)
          · exact Or.inl h
          · exact Or.inr (Or.inr h)
        · rintro (h | h | h)
          · exact Or.inl h
          · exact Or.inl (h ▸ hin)
          · exact Or.inr h
      · simp only [List.map_cons, List.mem_cons, List.mem_append, List.mem_singleton]
        tauto
    · intro t ht
      rcases i3 t ht with h | h
      · rcases mergeEntry_mem m item t h with h2 | h2
        · exact Or.inl h2
        · exact Or.inr (h2 ▸ List.mem_cons_self _ _)
      · exact Or.inr (List.mem_cons_of_mem _ h)

theorem fetchTransactions_spec (request : List Address → Except WalletError (List RawTx))
    (cs : List (List Address)) (m entries : List RawTx)
    (hnd : (m.map fun t => t.transaction_id).Nodup)
    (h : fetchTransactions request cs m = .ok entries) :
    (∀ c ∈ cs, ∃ res, request c = .ok res) ∧
      (entries.map fun t => t.transaction_id).Nodup ∧
      (∀ id, id ∈ entries.map (fun t => t.transaction_id) ↔
        id ∈ m.map (fun t => t.transaction_id) ∨
          ∃ c ∈ cs, ∃ res, request c = .ok res ∧ id ∈ res.map (fun t => t.transaction_id)) ∧
      (∀ t ∈ entries, t ∈ m ∨ ∃ c ∈ cs, ∃ res, request c = .ok res ∧ t ∈ res) := by
  induction cs generalizing m with
  | nil =>
    cases h
    exact ⟨fun c hc => (by cases hc), hnd, fun id => (by simp), fun t ht => Or.inl ht⟩
  | cons c rest ih =>
    unfold fetchTransactions at h
    split at h
    · cases h
    · rename_i res hres
      obtain ⟨m1, m2, m3⟩ := mergeResponse_spec res m hnd
      obtain ⟨i0, i1, i2, i3⟩ := ih _ m1 h
      refine ⟨?_, i1, ?_, ?_⟩
      · intro c1 hc1
        rcases List.mem_cons.mp hc1 with rfl | hc1
        · exact ⟨res, hres⟩
        · exact i0 c1 hc1
      · intro id
        rw [i2 id, m2 id]
        constructor
        · rintro ((h1 | h1) | ⟨c1, hc1, r1, hr1, hid⟩)
          · exact Or.inl h1
          · exact Or.inr ⟨c, List.mem_cons_self _ _, res, hres, h1⟩
          · exact Or.inr ⟨c1, List.mem_cons_of_mem _ hc1, r1, hr1, hid⟩
        · rintro (h1 | ⟨c1, hc1, r1, hr1, hid⟩)
          · exact Or.inl (Or.inl h1)
          · rcases List.mem_cons.mp hc1 with rfl | hc1
            · rw [hres] at hr1
              cases hr1
              exact Or.inl (Or.inr hid)
            · exact Or.inr ⟨c1, hc1, r1, hr1, hid⟩
      · intro t ht
        rcases i3 t ht with h1 | ⟨c1, hc1, r1, hr1, hm⟩
        · rcases m3 t h1 with h2 | h2
          · exact Or.inl h2
          · exact Or.inr ⟨c, List.mem_cons_self _ _, res, hres, h2⟩
        · exact Or.inr ⟨c1, List.mem_cons_of_mem _ hc1, r1, hr1, hm⟩

theorem fetchTransactions_returns (request : List Address → Except WalletError (List RawTx))
    (cs : List (List Address)) (m : List RawTx)
    (h : ∀ c ∈ cs, ∃ res, request c = .ok res) :
    ∃ entries, fetchTransactions request cs m = .ok entries := by
  induction cs generalizing m with
  | nil => exact ⟨m, rfl⟩
  | cons c rest ih =>
    obtain ⟨res, hres⟩ := h c (List.mem_cons_self _ _)
    unfold fetchTransactions
    rw [hres]
    exact ih _ (fun c1 hc1 => h c1 (List.mem_cons_of_mem _ hc1))

theorem forall₂_ids {w : Wallet} {es : List RawTx} {rs : List TxRecord}
    (h : List.Forall₂ (fun e r => reconcile w e = .ok r) es rs) :
    rs.map (fun r => r.id) = es.map (fun t => t.transaction_id) := by
  induction h with
  | nil => rfl
  | cons hr _ ih =>
    rw [List.map_cons, List.map_cons, ih, (reconcile_status hr).2.2]

/-- C27: `getTransactions` requests the used addresses in chunks that are not
empty, hold at most 10 addresses and make up the list when put one after the
other; it returns exactly when every chunk request answers, and then the entries
returned have pairwise distinct ids, each is an entry of a response, and their
ids are the ids that occur in a response. With a runtime sort that returns a
permutation of the array the same holds for the ids of the records of the
history. -/
theorem getTransactions_one_entry_per_id
    (request : List Address → Except WalletError (List RawTx)) (addresses : List Address) :
    (chunks addresses.length addresses).flatten = addresses ∧
    (∀ c ∈ chunks addresses.length addresses, 0 < c.length ∧ c.length ≤ 10) ∧
    ((∃ entries, getTransactions request addresses = .ok entries) ↔
      ∀ c ∈ chunks addresses.length addresses, ∃ res, request c = .ok res) ∧
    (∀ entries, getTransactions request addresses = .ok entries →
      (entries.map fun t => t.transaction_id).Nodup ∧
      (∀ id, id ∈ entries.map (fun t => t.transaction_id) ↔
        ∃ c ∈ chunks addresses.length addresses, ∃ res, request c = .ok res ∧
          id ∈ res.map (fun t => t.transaction_id)) ∧
      (∀ t ∈ entries, ∃ c ∈ chunks addresses.length addresses, ∃ res,
        request c = .ok res ∧ t ∈ res)) ∧
    (∀ sort w records, SortPermutes sort → w.usedAddresses = addresses →
      loadAllTransactions sort request w = .ok records →
      (records.map fun r => r.id).Nodup ∧
      (∀ id, id ∈ records.map (fun r => r.id) ↔
        ∃ c ∈ chunks addresses.length addresses, ∃ res, request c = .ok res ∧
          id ∈ res.map (fun t => t.transaction_id))) := by
  obtain ⟨c1, c2⟩ := chunks_spec addresses.length addresses (le_refl _)
  have key : ∀ entries, getTransactions request addresses = .ok entries →
      (∀ c ∈ chunks addresses.length addresses, ∃ res, request c = .ok res) ∧
      (entries.map fun t => t.transaction_id).Nodup ∧
      (∀ id, id ∈ entries.map (fun t => t.transaction_id) ↔
        ∃ c ∈ chunks addresses.length addresses, ∃ res, request c = .ok res ∧
          id ∈ res.map (fun t => t.transaction_id)) ∧
      (∀ t ∈ entries, ∃ c ∈ chunks addresses.length addresses, ∃ res,
        request c = .ok res ∧ t ∈ res) := by
    intro entries he
    obtain ⟨f0, f1, f2, f3⟩ := fetchTransactions_spec request _ [] entries List.nodup_nil he
    refine ⟨f0, f1, fun id => ?_, fun t ht => ?_⟩
    · rw [f2 id]
      simp
    · rcases f3 t ht with h | h
      · cases h
      · exact h
  refine ⟨c1, c2, ⟨?_, ?_⟩, fun entries he => (key entries he).2, ?_⟩
  · rintro ⟨entries, he⟩
    exact (key entries he).1
  · intro h
    exact fetchTransactions_returns request _ [] h
  · intro sort w records hsort hw hl
    unfold loadAllTransactions at hl
    rw [hw] at hl
    split at hl
    · cases hl
    · rename_i entries he
      obtain ⟨-, k1, k2, -⟩ := key entries he
      have hperm := hsort compareEntries entries
      have hids := forall₂_ids (reconcileEach_forall₂ hl)
      have hp2 : (records.map fun r => r.id).Perm (entries.map fun t => t.transaction_id) := by
        rw [hids]
        exact hperm.map _
      refine ⟨hp2.nodup_iff.mpr k1, fun id => ?_⟩
      rw [hp2.mem_iff, k2 id]

/-- Witness of `getTransactions_one_entry_per_id`: twelve used addresses are
requested as a chunk of ten and a chunk of two, both requests answer with the
same three entries, and three entries are returned; the history, sorted by the
insertion sort that stands for the sort of the engine, has three records. -/
theorem getTransactions_one_entry_per_id_witness :
    chunks demoTwelve.length demoTwelve =
      [["a0", "a1", "a2", "a3", "a4", "a5", "a6", "a7", "a8", "a9"], ["a10", "a11"]] ∧
    getTransactions demoHistory demoTwelve =
      .ok [sendEntry, pendingEntryA, feeToWalletEntry] ∧
    ([sendEntry, pendingEntryA, feeToWalletEntry].map fun t => t.transaction_id).Nodup ∧
    ((demoHistoryRecords.map fun r => r.id).Nodup ∧
      ∀ id, id ∈ demoHistoryRecords.map (fun r => r.id) ↔
        ∃ c ∈ chunks demoTwelve.length demoTwelve, ∃ res, demoHistory c = .ok res ∧
          id ∈ res.map (fun t => t.transaction_id)) :=
  ⟨rfl, rfl,
    ((getTransactions_one_entry_per_id demoHistory demoTwelve).2.2.2.1
      [sendEntry, pendingEntryA, feeToWalletEntry] rfl).1,
    (getTransactions_one_entry_per_id demoHistory demoTwelve).2.2.2.2 insertionSortBelow
      { demoLoaded with usedAddresses := demoTwelve } demoHistoryRecords
      insertionSortBelow_permutes rfl rfl⟩

theorem outputs_split (w : Wallet) (tx : RawTx) :
    (tx.outputs.map fun o => (o.amount : Int)).sum =
      ownedOutputs w tx + foreignPlatformFee w tx + foreignUnflagged w tx := by
  unfold ownedOutputs foreignPlatformFee foreignUnflagged
  generalize tx.outputs = l
  induction l with
  | nil => simp
  | cons o rest ih =>
    by_cases h1 : hasAddress w o.script_public_key_address = true
    · simp only [List.map_cons, List.sum_cons, List.filter_cons, h1, Bool.not_true,
        Bool.false_and, if_true, Bool.false_eq_true, if_false, ih]
      omega
    · by_cases h2 : o.csfee = true
      · simp only [List.map_cons, List.sum_cons, List.filter_cons, h1, h2, Bool.not_true,
          Bool.not_false, Bool.true_and, Bool.and_false, if_true, Bool.false_eq_true, if_false,
          ih]
        omega
      · simp only [List.map_cons, List.sum_cons, List.filter_cons, h1, h2, Bool.not_false,
          Bool.true_and, Bool.and_self, if_true, Bool.false_eq_true, if_false, ih]
        omega

theorem foreignUnflagged_nonneg (w : Wallet) (tx : RawTx) : 0 ≤ foreignUnflagged w tx := by
  unfold foreignUnflagged
  apply List.sum_nonneg
  intro x hx
  obtain ⟨o, -, rfl⟩ := List.mem_map.mp hx
  exact Int.ofNat_nonneg _

/-- C29: a record that is outgoing, of an entry all of whose inputs come from
addresses of the wallet, has as its amount the sum of the amounts of the outputs
that neither pay an address of the wallet nor are flagged as platform-fee
outputs; the amount is not negative, and it is 0 when every output pays an
address of the wallet. -/
theorem outgoing_amount_is_paid_out (w : Wallet) (tx : RawTx) (r : TxRecord)
    (hown : ∀ i ∈ tx.inputs.getD [], hasAddress w i.previous_outpoint_address = true)
    (hr : reconcile w tx = .ok r) (hout : r.incoming = false) :
    r.amount =
        ((tx.outputs.filter fun o =>
            !hasAddress w o.script_public_key_address && !o.csfee).map
          fun o => (o.amount : Int)).sum ∧
      0 ≤ r.amount ∧
      ((∀ o ∈ tx.outputs, hasAddress w o.script_public_key_address = true) → r.amount = 0) := by
  have hoi : ownedInputs w tx = ((tx.inputs.getD []).map
      fun i => (i.previous_outpoint_amount : Int)).sum := by
    unfold ownedInputs
    rw [List.filter_eq_self.mpr hown]
  have hsplit := outputs_split w tx
  have hamt : r.amount = foreignUnflagged w tx := by
    cases hi : tx.inputs with
    | none => simp [reconcile, hi] at hr
    | some ins =>
      rw [reconcile_some w tx ins hi] at hr
      split at hr
      · cases hr
        cases hout
      · split at hr
        · cases hr
        · cases hr
          simp only
          unfold inputsMinusOutputs
          omega
  refine ⟨hamt, hamt ▸ foreignUnflagged_nonneg w tx, fun hall => ?_⟩
  rw [hamt]
  unfold foreignUnflagged
  rw [List.filter_eq_nil_iff.mpr (fun o ho => by simp [hall o ho])]
  rfl

/-- Witness of `outgoing_amount_is_paid_out`: the send of 3 KAS of the sample
history, whose input comes from `kaspa:r0`; the platform-fee output and the
change to `kaspa:c0` do not count. -/
theorem outgoing_amount_is_paid_out_witness :
    reconcile demoLoaded sendEntry =
      .ok { incoming := false, status := .success, id := "t2", amount := 300000000
            toAddress := some "kaspa:dest", fee := 20000000, timestamp := 1700000001000
            confirmations := 10 } ∧
    (300000000 : Int) =
      ((sendEntry.outputs.filter fun o =>
          !hasAddress demoLoaded o.script_public_key_address && !o.csfee).map
        fun o => (o.amount : Int)).sum :=
  ⟨rfl,
    (outgoing_amount_is_paid_out demoLoaded sendEntry
      { incoming := false, status := .success, id := "t2", amount := 300000000
        toAddress := some "kaspa:dest", fee := 20000000, timestamp := 1700000001000
        confirmations := 10 }
      (by decide) rfl rfl).1⟩

theorem loadTransactions_ok (sort : (RawTx → RawTx → Int) → List RawTx → List RawTx)
    (request : List Address → Except WalletError (List RawTx)) (w : Wallet) (t : Nat)
    (history txs : List TxRecord) (c : Nat)
    (hh : loadAllTransactions sort request w = .ok history) (hc : c ≠ 0 → txs = history) :
    loadTransactions sort request w t txs c =
      .ok ({ transactions := (history.drop c).take t
             hasMore := decide (history.length > c + t)
             cursor := c + t }, history) := by
  unfold loadTransactions
  by_cases h0 : c = 0
  · rw [if_pos h0, hh]
  · rw [if_neg h0, hc h0]

theorem followPages_from (sort : (RawTx → RawTx → Int) → List RawTx → List RawTx)
    (request : List Address → Except WalletError (List RawTx)) (w : Wallet) (t : Nat)
    (ht : 0 < t) (history : List TxRecord)
    (hh : loadAllTransactions sort request w = .ok history)
    (n : Nat) (txs : List TxRecord) (c : Nat)
    (hc : c ≠ 0 → txs = history) (hn : history.length - c ≤ n) :
    ∃ pages,
      (∀ fuel, history.length - c < fuel →
        followPages sort request w t fuel txs c = .ok pages) ∧
      (pages.map fun p => p.transactions).flatten = history.drop c ∧
      ∀ j p, pages[j]? = some p →
        p.transactions = (history.drop (c + j * t)).take t ∧
        p.cursor = c + (j + 1) * t ∧
        (p.hasMore = false ↔ history.length ≤ c + (j + 1) * t) ∧
        (p.hasMore = false ↔ j + 1 = pages.length) := by
  induction n generalizing txs c with
  | zero =>
    have hm : ¬ history.length > c + t := by omega
    have hdec : ¬ decide (history.length > c + t) = true := by simpa using hm
    refine ⟨[{ transactions := (history.drop c).take t
               hasMore := decide (history.length > c + t)
               cursor := c + t }], ?_, ?_, ?_⟩
    · intro fuel hfuel
      cases fuel with
      | zero => omega
      | succ fuel =>
        unfold followPages
        rw [loadTransactions_ok sort request w t history txs c hh hc]
        simp only
        rw [if_neg hdec]
    · simp only [List.map_cons, List.map_nil, List.flatten_cons, List.flatten_nil,
        List.append_nil]
      apply List.take_of_length_le
      rw [List.length_drop]
      omega
    · intro j p hj
      cases j with
      | zero =>
        simp only [List.getElem?_cons_zero, Option.some.injEq] at hj
        subst hj
        refine ⟨by simp, by simp, ?_, ?_⟩
        · simp only [decide_eq_false_iff_not, Nat.zero_add, Nat.one_mul]
          omega
        · exact ⟨fun _ => rfl, fun _ => by simpa using hm⟩
      | succ j => simp at hj
  | succ n ih =>
    by_cases hm : history.length > c + t
    · have hdec : decide (history.length > c + t) = true := decide_eq_true hm
      obtain ⟨pages, hp, hflat, hidx⟩ := ih history (c + t) (fun _ => rfl) (by omega)
      refine ⟨{ transactions := (history.drop c).take t
                hasMore := decide (history.length > c + t)
                cursor := c + t } :: pages, ?_, ?_, ?_⟩
      · intro fuel hfuel
        cases fuel with
        | zero => omega
        | succ fuel =>
          unfold followPages
          rw [loadTransactions_ok sort request w t history txs c hh hc]
          simp only
          rw [if_pos hdec, hp fuel (by omega)]
      · rw [List.map_cons, List.flatten_cons, hflat]
        simp only
        rw [← List.drop_drop, List.take_append_drop]
      · have hne : pages.length ≠ 0 := by
          intro hlen
          have hnil : pages = [] := List.length_eq_zero.mp hlen
          subst hnil
          have := congrArg List.length hflat
          simp only [List.map_nil, List.flatten_nil, List.length_nil, List.length_drop] at this
          omega
        intro j p hj
        cases j with
        | zero =>
          simp only [List.getElem?_cons_zero, Option.some.injEq] at hj
          subst hj
          refine ⟨by simp, by simp, ?_, ?_⟩
          · simp only [decide_eq_false_iff_not, Nat.zero_add, Nat.one_mul]
            omega
          · refine ⟨fun h => absurd hm ?_, fun h => ?_⟩
            · simpa using h
            · simp only [List.length_cons] at h
              omega
        | succ j =>
          simp only [List.getElem?_cons_succ] at hj
          obtain ⟨q1, q2, q3, q4⟩ := hidx j p hj
          have e1 : c + (j + 1) * t = c + t + j * t := by rw [Nat.succ_mul]; omega
          have e2 : c + (j + 1 + 1) * t = c + t + (j + 1) * t := by
            rw [Nat.succ_mul (j + 1)]; omega
          rw [e1, e2]
          refine ⟨q1, q2, q3, ?_⟩
          rw [q4, List.length_cons]
          omega
    · have hdec : ¬ decide (history.length > c + t) = true := by simpa using hm
      refine ⟨[{ transactions := (history.drop c).take t
                 hasMore := decide (history.length > c + t)
                 cursor := c + t }], ?_, ?_, ?_⟩
      · intro fuel hfuel
        cases fuel with
        | zero => omega
        | succ fuel =>
          unfold followPages
          rw [loadTransactions_ok sort request w t history txs c hh hc]
          simp only
          rw [if_neg hdec]
      · simp only [List.map_cons, List.map_nil, List.flatten_cons, List.flatten_nil,
          List.append_nil]
        apply List.take_of_length_le
        rw [List.length_drop]
        omega
      · intro j p hj
        cases j with
        | zero =>
          simp only [List.getElem?_cons_zero, Option.some.injEq] at hj
          subst hj
          refine ⟨by simp, by simp, ?_, ?_⟩
          · simp only [decide_eq_false_iff_not, Nat.zero_add, Nat.one_mul]
            omega
          · exact ⟨fun _ => rfl, fun _ => by simpa using hm⟩
        | succ j => simp at hj

/-- C30: with a page size above 0 and a history that loads, a caller that starts
`loadTransactions` at cursor 0 and follows the cursor returned while `hasMore` is
true ends after at most as many calls as the history has records, plus one. Page
`j` holds the records from position `j * txPerPage` on, at most `txPerPage` of
them; the pages put one after the other are the history; `hasMore` is false on
the page that reaches the end of the history and on no page before it, and that
page is the last. -/
theorem pages_make_up_history (sort : (RawTx → RawTx → Int) → List RawTx → List RawTx)
    (request : List Address → Except WalletError (List RawTx)) (w : Wallet) (txPerPage : Nat)
    (history stale : List TxRecord) (ht : 0 < txPerPage)
    (hh : loadAllTransactions sort request w = .ok history) :
    ∃ pages,
      (∀ fuel, history.length < fuel →
        followPages sort request w txPerPage fuel stale 0 = .ok pages) ∧
      (pages.map fun p => p.transactions).flatten = history ∧
      (∀ p ∈ pages, p.transactions.length ≤ txPerPage) ∧
      ∀ j p, pages[j]? = some p →
        p.transactions = (history.drop (j * txPerPage)).take txPerPage ∧
        p.cursor = (j + 1) * txPerPage ∧
        (p.hasMore = false ↔ history.length ≤ (j + 1) * txPerPage) ∧
        (p.hasMore = false ↔ j + 1 = pages.length) := by
  obtain ⟨pages, hp, hflat, hidx⟩ := followPages_from sort request w txPerPage ht history hh
    history.length stale 0 (fun h => absurd rfl h) (by omega)
  refine ⟨pages, ?_, by simpa using hflat, ?_, ?_⟩
  · intro fuel hfuel
    exact hp fuel (by omega)
  · intro p hp1
    obtain ⟨j, hj⟩ := List.getElem?_of_mem hp1
    rw [(hidx j p hj).1, List.length_take]
    omega
  · intro j p hj
    have := hidx j p hj
    simpa using this

/-- Witness of `pages_make_up_history`: the sample history of three records in
pages of two. -/
theorem pages_make_up_history_witness :
    loadAllTransactions stableSort demoHistory demoLoaded = .ok demoHistoryRecords ∧
    followPages stableSort demoHistory demoLoaded 2 4 [] 0 =
      .ok [{ transactions := demoHistoryRecords.take 2, hasMore := true, cursor := 2 },
           { transactions := demoHistoryRecords.drop 2, hasMore := false, cursor := 4 }] ∧
    ∃ pages,
      (∀ fuel, demoHistoryRecords.length < fuel →
        followPages stableSort demoHistory demoLoaded 2 fuel [] 0 = .ok pages) ∧
      (pages.map fun p => p.transactions).flatten = demoHistoryRecords ∧
      (∀ p ∈ pages, p.transactions.length ≤ 2) ∧
      ∀ j p, pages[j]? = some p →
        p.transactions = (demoHistoryRecords.drop (j * 2)).take 2 ∧
        p.cursor = (j + 1) * 2 ∧
        (p.hasMore = false ↔ demoHistoryRecords.length ≤ (j + 1) * 2) ∧
        (p.hasMore = false ↔ j + 1 = pages.length) :=
  ⟨rfl, rfl,
    pages_make_up_history stableSort demoHistory demoLoaded 2 demoHistoryRecords []
      (by decide) rfl⟩

theorem estimateMaxAmount_same_rate (env : Env) (w : Wallet) (t1 t2 : FeeRate) (price : Price)
    (h : feeRateOf w t1 = feeRateOf w t2) :
    estimateMaxAmount env w t1 price = estimateMaxAmount env w t2 price := by
  unfold estimateMaxAmount
  rw [h]

theorem estimateMaxAmount_sendable {env : Env} {w : Wallet} {feeRate : FeeRate}
    {price : Price} {m : Int} {rate : Nat} (hr : feeRateOf w feeRate = some rate)
    (h : estimateMaxAmount env w feeRate price = .ok m) :
    0 ≤ m ∧
      (m = 0 ∨
        Sendable env (maxInputs env w) (inputsTotal (maxInputs env w)) rate price m) := by
  rcases estimateMaxAmount_ok h with h0 | ⟨rate1, hr1, -, hm⟩
  · exact ⟨by omega, Or.inl h0⟩
  · rw [hr] at hr1
    cases hr1
    refine ⟨hm ▸ (refine_greatest env _ _ rate price 16 _ 0).1, ?_⟩
    rcases refine_sendable env (maxInputs env w) (inputsTotal (maxInputs env w)) rate price 16
        (seedAmount env w rate price) 0 with hs | hs
    · exact Or.inl (hm.trans hs)
    · exact Or.inr (hm ▸ hs)

/-- C7, amended: with a platform fee that does not go down when the amount goes
up, and fee rates `r1 ≤ r2`: when the value `estimateMaxAmount` returns at `r1`
leaves a waste below the tolerance of 10 (the refinement converged at `r1`), and,
for `r1 < r2`, the network fee at `r2` of an amount is at least 9 above the
network fee at `r1` of any smaller amount, the value at `r2` is at most the value
at `r1`. -/
theorem max_amount_antitone_converged (env : Env) (w : Wallet) (t1 t2 : FeeRate)
    (price : Price) (r1 r2 : Nat) (m1 m2 : Int)
    (hfee : CsFeeMonotone env price)
    (h1 : feeRateOf w t1 = some r1) (h2 : feeRateOf w t2 = some r2) (hr : r1 ≤ r2)
    (hmass : r1 < r2 → ∀ a b : Int, a < b →
      (r1 : Int) * (env.transactionMass (maxInputs env w)
          (candidateOutputs a (env.calculateCsFee a (csFeeOptions price))) : Int) + 9 ≤
        (r2 : Int) * (env.transactionMass (maxInputs env w)
          (candidateOutputs b (env.calculateCsFee b (csFeeOptions price))) : Int))
    (e1 : estimateMaxAmount env w t1 price = .ok m1)
    (e2 : estimateMaxAmount env w t2 price = .ok m2)
    (hconv : inputsTotal (maxInputs env w) - m1 -
        (env.calculateCsFee m1 (csFeeOptions price) : Int) -
        (r1 : Int) * (env.transactionMass (maxInputs env w)
          (candidateOutputs m1 (env.calculateCsFee m1 (csFeeOptions price))) : Int) < 10) :
    m2 ≤ m1 := by
  rcases Nat.eq_or_lt_of_le hr with heq | hlt
  · subst heq
    have := estimateMaxAmount_same_rate env w t1 t2 price (h1.trans h2.symm)
    rw [e1, e2] at this
    cases this
    exact le_refl _
  · obtain ⟨p1, -⟩ := estimateMaxAmount_sendable h1 e1
    obtain ⟨-, s2⟩ := estimateMaxAmount_sendable h2 e2
    rcases s2 with s2 | ⟨-, s2⟩
    · omega
    · by_contra hlt2
      have hlt3 : m1 < m2 := by omega
      have hg := hfee m1 m2 (le_of_lt hlt3)
      have hg2 : (env.calculateCsFee m1 (csFeeOptions price) : Int) ≤
          (env.calculateCsFee m2 (csFeeOptions price) : Int) := by exact_mod_cast hg
      have hm := hmass hlt m1 m2 hlt3
      omega

/-- Witness of `max_amount_antitone_converged`: the wallet of 5.00003 KAS with the
platform fee of 0.5% and the mass 2000 has 497513431 at fee rate 1, which leaves
a waste of 2, and 497511439 at fee rate 2. -/
theorem max_amount_antitone_converged_witness :
    estimateMaxAmount demoEnv tierWallet .default 1 = .ok 497513431 ∧
    estimateMaxAmount demoEnv tierWallet .fastest 1 = .ok 497511439 ∧
    (497511439 : Int) ≤ 497513431 :=
  ⟨rfl, rfl,
    max_amount_antitone_converged demoEnv tierWallet .default .fastest 1 1 2
      497513431 497511439 (demoEnv_fee_monotone 1) rfl rfl (by decide)
      (fun _ a b _ => by
        change (1 : Int) * 2000 + 9 ≤ 2 * 2000
        decide)
      rfl rfl (by decide)⟩

end KaspaWallet
